import Mathlib

/-!
Enigma.cpp: a shallow embedding of the cipher engine.

Conventions of the embedding.

* A C `char` / `unsigned char` value is the natural number of its byte
  (`'A'` is 65).  Every store into an `unsigned char` goes through `toUChar`,
  the conversion modulo 256; `int` expressions are evaluated in `Int`, and the
  C remainder `%` on `int` is `Int.tmod` (truncation towards zero), on
  `unsigned int` it is `%` on `Nat` after reduction modulo `2 ^ 32`.
* An `unsigned char [26]` array is a `Table`: exactly 26 cells.  Reading or
  writing a cell outside `0..25` is undefined behaviour in C; the embedding
  returns `none` there, so a result `some _` says that every array access of
  the call was inside its array.
* `printf` / `putchar` output is not part of the embedding; the
  `last_character_debug` snapshots that feed it are.
-/

namespace Enigma

/-- The macro `WALZE_COUNT`. -/
abbrev WALZE_COUNT : Nat := 3

/-- An `unsigned char [26]` array. -/
abbrev Table := Mathlib.Vector Nat 26

/-- Conversion of an `int` value to `unsigned char`. -/
def toUChar (x : Int) : Nat := (x % 256).toNat

/-- The expression `array[index]` as an rvalue: `none` outside the array. -/
def Table.read (t : Table) (index : Nat) : Option Nat :=
  if h : index < 26 then some (t.get ⟨index, h⟩) else none

/-- The assignment `array[index] = value`: `none` outside the array. -/
def Table.write (t : Table) (index : Nat) (value : Nat) : Option Table :=
  if h : index < 26 then some (t.set ⟨index, h⟩ value) else none

/-- The table with every cell zero, as left by `memset`. -/
def Table.zero : Table := Mathlib.Vector.replicate 26 0

/-- The four values `input`, `wires_input`, `wires_output`, `output` kept per
direction in `WalzeState.last_character_debug`. -/
structure StageDebug where
  input : Nat
  wires_input : Nat
  wires_output : Nat
  output : Nat
deriving DecidableEq

/-- The anonymous struct `last_character_debug` of `WalzeState`. -/
structure WalzeDebug where
  forward : StageDebug
  reciprocal : StageDebug
deriving DecidableEq

/-- The struct `WalzeState`. -/
structure WalzeState where
  config : Table
  config_reciprocal : Table
  notch : Nat
  position : Nat
  ringstellung : Nat
  last_character_debug : WalzeDebug
deriving DecidableEq

/-- The anonymous struct `last_character_debug` of `EnigmaState`. -/
structure MachineDebug where
  steckerboard_forward_input : Nat
  steckerboard_forward_output : Nat
  umkehrwalze_input : Nat
  umkehrwalze_output : Nat
  steckerboard_reciprocal_input : Nat
  steckerboard_reciprocal_output : Nat
deriving DecidableEq

/-- The struct `EnigmaState`. -/
structure EnigmaState where
  walze : Mathlib.Vector WalzeState WALZE_COUNT
  umkehrwalze : Table
  steckerboard : Table
  steckerboard_reciprocal : Table
  enable_debug_output : Bool
  last_character_debug : MachineDebug
deriving DecidableEq

/-- The loop of `GenerateReciprocalArray` from index `i` on, with `n` rounds
left: `output_array[input_array[i]] = i`. -/
def GenerateReciprocalArray.loop (input_array : Table) :
    Nat → Nat → Table → Option Table
  | 0, _, output_array => some output_array
  | n + 1, i, output_array =>
    match input_array.read i with
    | none => none
    | some target =>
      match output_array.write target (toUChar i) with
      | none => none
      | some output_array => GenerateReciprocalArray.loop input_array n (i + 1) output_array

/-- The function `GenerateReciprocalArray`:
`for (i = 0; i < 26; i ++) output_array[input_array[i]] = i;` -/
def GenerateReciprocalArray (input_array output_array : Table) : Option Table :=
  GenerateReciprocalArray.loop input_array 26 0 output_array

/-- The function `WheelFeedCharacter`: one pass of a character through a wheel, in the
forward (`reciprocal = false`) or the reverse direction.  Returns the wheel
with its debug snapshot updated, and the output character. -/
def WheelFeedCharacter (walze : WalzeState) (reciprocal : Bool) (input : Nat) :
    Option (WalzeState × Nat) :=
  if reciprocal then
    let wires_input :=
      toUChar (Int.tmod (26 + (input : Int) + walze.position - walze.ringstellung) 26)
    match walze.config_reciprocal.read wires_input with
    | none => none
    | some wires_output =>
      let output :=
        toUChar (Int.tmod (26 + (wires_output : Int) - walze.position + walze.ringstellung) 26)
      some ({ walze with
                last_character_debug :=
                  { walze.last_character_debug with
                      reciprocal := ⟨input, wires_input, wires_output, output⟩ } },
            output)
  else
    let wires_input :=
      toUChar (Int.tmod (26 + (input : Int) + walze.position - walze.ringstellung) 26)
    match walze.config.read wires_input with
    | none => none
    | some wires_output =>
      let output :=
        toUChar (Int.tmod (26 + (wires_output : Int) - walze.position + walze.ringstellung) 26)
      some ({ walze with
                last_character_debug :=
                  { walze.last_character_debug with
                      forward := ⟨input, wires_input, wires_output, output⟩ } },
            output)

/-- The function `WheelRotate`: `position = (position + steps) % 26`, the sum taken in
`unsigned int`. -/
def WheelRotate (walze : WalzeState) (steps : Nat) : WalzeState :=
  { walze with position := toUChar (((walze.position + steps) % 2 ^ 32 % 26 : Nat) : Int) }

/-- The body of the wheel rotation loop of `EnigmaFeedCharacter` at index `i`:
`if ((i == 0) || (walze[i - 1].position == walze[i - 1].notch)) WheelRotate(&walze[i], 1);` -/
def EnigmaFeedCharacter.rotateBody (walze : Mathlib.Vector WalzeState WALZE_COUNT)
    (i : Fin WALZE_COUNT) : Mathlib.Vector WalzeState WALZE_COUNT :=
  let previous : Fin WALZE_COUNT := ⟨i.val - 1, Nat.lt_of_le_of_lt (Nat.sub_le _ _) i.isLt⟩
  if i.val = 0 ∨ (walze.get previous).position = (walze.get previous).notch then
    walze.set i (WheelRotate (walze.get i) 1)
  else walze

/-- The wheel rotation loop of `EnigmaFeedCharacter`: the body for
`i = 0, 1, 2` in this order, each test reading the array as the earlier
rounds left it. -/
def EnigmaFeedCharacter.rotate (walze : Mathlib.Vector WalzeState WALZE_COUNT) :
    Mathlib.Vector WalzeState WALZE_COUNT :=
  (List.finRange WALZE_COUNT).foldl EnigmaFeedCharacter.rotateBody walze

/-- The body of the two wheel loops of `EnigmaFeedCharacter` on wheel `i`:
`temp_character = WheelFeedCharacter(&walze[i], reciprocal, temp_character)`. -/
def EnigmaFeedCharacter.wheelBody (reciprocal : Bool)
    (state : Mathlib.Vector WalzeState WALZE_COUNT × Nat) (i : Fin WALZE_COUNT) :
    Option (Mathlib.Vector WalzeState WALZE_COUNT × Nat) :=
  match WheelFeedCharacter (state.1.get i) reciprocal state.2 with
  | none => none
  | some (w, c) => some (state.1.set i w, c)

/-- The forward loop of `EnigmaFeedCharacter`:
`temp_character = WheelFeedCharacter(&walze[i], false, temp_character)` for `i = 0, 1, 2`. -/
def EnigmaFeedCharacter.forward (walze : Mathlib.Vector WalzeState WALZE_COUNT)
    (temp_character : Nat) : Option (Mathlib.Vector WalzeState WALZE_COUNT × Nat) :=
  (List.finRange WALZE_COUNT).foldlM
    (fun state i => EnigmaFeedCharacter.wheelBody false state i) (walze, temp_character)

/-- The reverse loop of `EnigmaFeedCharacter`:
`temp_character = WheelFeedCharacter(&walze[WALZE_COUNT - i - 1], true, temp_character)`
for `i = 0, 1, 2`. -/
def EnigmaFeedCharacter.backward (walze : Mathlib.Vector WalzeState WALZE_COUNT)
    (temp_character : Nat) : Option (Mathlib.Vector WalzeState WALZE_COUNT × Nat) :=
  (List.finRange WALZE_COUNT).foldlM
    (fun state i => EnigmaFeedCharacter.wheelBody true state (Fin.rev i)) (walze, temp_character)

/-- The function `EnigmaFeedCharacter`: one keystroke.  Returns the machine after the call
and the returned character. -/
def EnigmaFeedCharacter (enigma : EnigmaState) (input_character : Nat) :
    Option (EnigmaState × Nat) :=
  -- temp_character = (input_character - 'A');
  let c0 := toUChar ((input_character : Int) - 65)
  -- temp_character = enigma->steckerboard[temp_character];
  match enigma.steckerboard.read c0 with
  | none => none
  | some c1 =>
    let walze1 := EnigmaFeedCharacter.rotate enigma.walze
    match EnigmaFeedCharacter.forward walze1 c1 with
    | none => none
    | some (walze2, c2) =>
      -- temp_character = enigma->umkehrwalze[temp_character];
      match enigma.umkehrwalze.read c2 with
      | none => none
      | some c3 =>
        match EnigmaFeedCharacter.backward walze2 c3 with
        | none => none
        | some (walze3, c4) =>
          -- temp_character = enigma->steckerboard_reciprocal[temp_character];
          match enigma.steckerboard_reciprocal.read c4 with
          | none => none
          | some c5 =>
            -- temp_character += 'A';
            let c6 := toUChar ((c5 : Int) + 65)
            some ({ enigma with
                      walze := walze3
                      last_character_debug := ⟨c0, c1, c2, c3, c4, c5⟩ },
                  c6)

/-- The loop of `main` on a sequence of characters already delivered by
`GetCharacter`: `EnigmaFeedCharacter` is called on each in turn; the
returned characters are collected in order. -/
def feedCharacters : EnigmaState → List Nat → Option (EnigmaState × List Nat)
  | enigma, [] => some (enigma, [])
  | enigma, c :: rest =>
    match EnigmaFeedCharacter enigma c with
    | none => none
    | some (enigma, out) =>
      match feedCharacters enigma rest with
      | none => none
      | some (enigma, outs) => some (enigma, out :: outs)

/-- The bytes of a string literal (ASCII only), without the terminating NUL. -/
def cstr (s : String) : List Nat := s.toList.map Char.toNat

/-- The expression `string[index]` on a NUL-terminated string: the byte at
`index`, the terminator at `index = strlen(string)`, `none` beyond it. -/
def cstrRead (string : List Nat) (index : Nat) : Option Nat :=
  if index < string.length then string[index]?
  else if index = string.length then some 0
  else none

/-- The value `strlen(string)` stored in an `unsigned int`. -/
def strlen (string : List Nat) : Nat := string.length % 2 ^ 32

/-! The wiring strings and notch letters of the five rotors and the wiring
strings of the two reflectors, as the source declares them. -/

def walze_I_config : List Nat := cstr "EKMFLGDQVZNTOWYHXUSPAIBRCJ"
def walze_I_notch : Nat := Char.toNat 'Q'
def walze_II_config : List Nat := cstr "AJDKSIRUXBLHWTMCQGZNPYFVOE"
def walze_II_notch : Nat := Char.toNat 'E'
def walze_III_config : List Nat := cstr "BDFHJLCPRTXVZNYEIWGAKMUSQO"
def walze_III_notch : Nat := Char.toNat 'V'
def walze_IV_config : List Nat := cstr "ESOVPZJAYQUIRHXLNFTGKDCMWB"
def walze_IV_notch : Nat := Char.toNat 'J'
def walze_V_config : List Nat := cstr "VZBRGITYUPSDNHLXAWMJQOFECK"
def walze_V_notch : Nat := Char.toNat 'Z'
def umkehrwalze_A_config : List Nat := cstr "EJMZALYXVBWFCRQUONTSPIKHGD"
def umkehrwalze_B_config : List Nat := cstr "YRUHQSLDPXNGOKMIEBFZCWVJAT"

/-- The loop `for (i = 0; i < 26; i ++) table[i] = (config_array[i] - 'A');`
of `WheelSetConfiguration`, `EnigmaSetUmkehrwalze` and `EnigmaSetSteckerboard`,
from index `i` on with `n` rounds left. -/
def loadTable (config_array : List Nat) : Nat → Nat → Table → Option Table
  | 0, _, table => some table
  | n + 1, i, table =>
    match cstrRead config_array i with
    | none => none
    | some c =>
      match table.write i (toUChar ((c : Int) - 65)) with
      | none => none
      | some table => loadTable config_array n (i + 1) table

/-- The function `WheelSetConfiguration`: the wiring string is loaded into
`config`, its reciprocal is generated, and the notch is set. -/
def WheelSetConfiguration (walze : WalzeState) (config_array : List Nat) (notch : Nat) :
    Option WalzeState :=
  match loadTable config_array 26 0 walze.config with
  | none => none
  | some config =>
    match GenerateReciprocalArray config walze.config_reciprocal with
    | none => none
    | some config_reciprocal =>
      some { walze with
               config := config
               config_reciprocal := config_reciprocal
               notch := toUChar ((notch : Int) - 65) }

/-- The function `WheelSetPosition`: `position = (start_position - 'A')`. -/
def WheelSetPosition (walze : WalzeState) (start_position : Nat) : WalzeState :=
  { walze with position := toUChar ((start_position : Int) - 65) }

/-- The function `WheelSetRingstellung`: `ringstellung = (ringstellung - 'A')`. -/
def WheelSetRingstellung (walze : WalzeState) (ringstellung : Nat) : WalzeState :=
  { walze with ringstellung := toUChar ((ringstellung : Int) - 65) }

/-- The function `EnigmaSetUmkehrwalze`: the reflector string is loaded. -/
def EnigmaSetUmkehrwalze (enigma : EnigmaState) (config_array : List Nat) :
    Option EnigmaState :=
  match loadTable config_array 26 0 enigma.umkehrwalze with
  | none => none
  | some umkehrwalze => some { enigma with umkehrwalze := umkehrwalze }

/-- The function `EnigmaSetSteckerboard`: the plugboard string is loaded and
its reciprocal is generated. -/
def EnigmaSetSteckerboard (enigma : EnigmaState) (config_array : List Nat) :
    Option EnigmaState :=
  match loadTable config_array 26 0 enigma.steckerboard with
  | none => none
  | some steckerboard =>
    match GenerateReciprocalArray steckerboard enigma.steckerboard_reciprocal with
    | none => none
    | some steckerboard_reciprocal =>
      some { enigma with
               steckerboard := steckerboard
               steckerboard_reciprocal := steckerboard_reciprocal }

/-- How a call that may leave through `exit(1)` ends: it returns, it exits
with failure, or it has undefined behaviour. -/
inductive Outcome (α : Type) where
  | returned : α → Outcome α
  | bail : Outcome α
  | undefined : Outcome α
deriving DecidableEq

/-- Lift an array-checked step: `none` is undefined behaviour. -/
def Outcome.ofOption {α : Type} : Option α → Outcome α
  | some a => Outcome.returned a
  | none => Outcome.undefined

/-- The assignment `steckerboard[c - 'A'] = value` on the local
`char steckerboard [27]` of the `-s` branch. -/
def steckerWrite (steckerboard : List Nat) (c value : Nat) : Option (List Nat) :=
  if 65 ≤ c ∧ c - 65 < steckerboard.length then some (steckerboard.set (c - 65) value) else none

/-- The pairing loop of the `-s` branch, on the part of `string` from index
`j` on: `string[j]` is checked, the two swaps are written, and `j` moves on
by three. -/
def steckerLoop : List Nat → List Nat → Outcome (List Nat)
  | [], steckerboard => Outcome.returned steckerboard
  | a :: rest, steckerboard =>
    if a < 65 ∨ a > 90 then Outcome.bail
    else
      -- string[j + 1], the terminator when the string ends here
      let b := rest.headD 0
      match steckerWrite steckerboard a b with
      | none => Outcome.undefined
      | some steckerboard =>
        match steckerWrite steckerboard b a with
        | none => Outcome.undefined
        | some steckerboard =>
          match rest with
          | [] => Outcome.returned steckerboard
          | [_] => Outcome.returned steckerboard
          | _ :: _ :: rest => steckerLoop rest steckerboard

/-- The switch of the `-r` branch on one rotor code. -/
def rotorOfCode (walze : WalzeState) (code : Nat) : Outcome WalzeState :=
  if code = Char.toNat '1' then Outcome.ofOption (WheelSetConfiguration walze walze_I_config walze_I_notch)
  else if code = Char.toNat '2' then
    Outcome.ofOption (WheelSetConfiguration walze walze_II_config walze_II_notch)
  else if code = Char.toNat '3' then
    Outcome.ofOption (WheelSetConfiguration walze walze_III_config walze_III_notch)
  else if code = Char.toNat '4' then
    Outcome.ofOption (WheelSetConfiguration walze walze_IV_config walze_IV_notch)
  else if code = Char.toNat '5' then
    Outcome.ofOption (WheelSetConfiguration walze walze_V_config walze_V_notch)
  else Outcome.bail

/-- The loop `for (j = 0; j < length; j ++)` of the `-r`, `-rs` and `-sp`
branches (where `length` is 3), applying `body` to `walze[length - j - 1]`
and `string[j]`; `chars` is the part of the string from index `j` on. -/
def wheelLoop (body : WalzeState → Nat → Outcome WalzeState) :
    List Nat → Nat → Mathlib.Vector WalzeState WALZE_COUNT →
      Outcome (Mathlib.Vector WalzeState WALZE_COUNT)
  | [], _, walze => Outcome.returned walze
  | c :: rest, j, walze =>
    if h : 3 - j - 1 < WALZE_COUNT then
      match body (walze.get ⟨3 - j - 1, h⟩) c with
      | Outcome.returned w => wheelLoop body rest (j + 1) (walze.set ⟨3 - j - 1, h⟩ w)
      | Outcome.bail => Outcome.bail
      | Outcome.undefined => Outcome.undefined
    else Outcome.undefined

/-- The body of the `-rs` loop. -/
def ringBody (walze : WalzeState) (c : Nat) : Outcome WalzeState :=
  if c < 65 ∨ c > 90 then Outcome.bail else Outcome.returned (WheelSetRingstellung walze c)

/-- The body of the `-sp` loop. -/
def positionBody (walze : WalzeState) (c : Nat) : Outcome WalzeState :=
  if c < 65 ∨ c > 90 then Outcome.bail else Outcome.returned (WheelSetPosition walze c)

/-- One round of the loop of `ProcessCmdLineArguments` for an option that
takes a value: `option` is `argv[i]` and `string` is `argv[++ i]`. -/
def ProcessCmdLineArguments.valued (option string : List Nat) (enigma : EnigmaState) :
    Outcome EnigmaState :=
  if option = cstr "-s" ∨ option = cstr "--steckerboard" then
    if (strlen string + 1) % 2 ^ 32 % 3 ≠ 0 then Outcome.bail
    else
      match steckerLoop (string.take (strlen string))
          (cstr "ABCDEFGHIJKLMNOPQRSTUVWXYZ" ++ [0]) with
      | Outcome.returned steckerboard =>
        Outcome.ofOption (EnigmaSetSteckerboard enigma steckerboard)
      | Outcome.bail => Outcome.bail
      | Outcome.undefined => Outcome.undefined
  else if option = cstr "-r" ∨ option = cstr "--rotor" then
    if strlen string ≠ 3 then Outcome.bail
    else
      match wheelLoop rotorOfCode (string.take (strlen string)) 0 enigma.walze with
      | Outcome.returned walze => Outcome.returned { enigma with walze := walze }
      | Outcome.bail => Outcome.bail
      | Outcome.undefined => Outcome.undefined
  else if option = cstr "-rs" ∨ option = cstr "--ringstellung" then
    if strlen string ≠ 3 then Outcome.bail
    else
      match wheelLoop ringBody (string.take (strlen string)) 0 enigma.walze with
      | Outcome.returned walze => Outcome.returned { enigma with walze := walze }
      | Outcome.bail => Outcome.bail
      | Outcome.undefined => Outcome.undefined
  else if option = cstr "-sp" ∨ option = cstr "--startposition" then
    if strlen string ≠ 3 then Outcome.bail
    else
      match wheelLoop positionBody (string.take (strlen string)) 0 enigma.walze with
      | Outcome.returned walze => Outcome.returned { enigma with walze := walze }
      | Outcome.bail => Outcome.bail
      | Outcome.undefined => Outcome.undefined
  else if option = cstr "-rf" ∨ option = cstr "--reflector" then
    if strlen string ≠ 1 then Outcome.bail
    else if string.headD 0 = Char.toNat 'A' then
      Outcome.ofOption (EnigmaSetUmkehrwalze enigma umkehrwalze_A_config)
    else if string.headD 0 = Char.toNat 'B' then
      Outcome.ofOption (EnigmaSetUmkehrwalze enigma umkehrwalze_B_config)
    else Outcome.bail
  else Outcome.bail

/-- Whether `argv[i]` is one of the options that read `argv[++ i]`. -/
def ProcessCmdLineArguments.takesValue (option : List Nat) : Bool :=
  option = cstr "-s" ∨ option = cstr "--steckerboard" ∨
  option = cstr "-r" ∨ option = cstr "--rotor" ∨
  option = cstr "-rs" ∨ option = cstr "--ringstellung" ∨
  option = cstr "-sp" ∨ option = cstr "--startposition" ∨
  option = cstr "-rf" ∨ option = cstr "--reflector"

/-- The loop `for (i = 1; i < argc;)` of `ProcessCmdLineArguments` on the
arguments from `argv[i]` on.  An option that takes a value reads
`argv[++ i]`, which is the null pointer when the option is the last
argument: `strlen` of it is undefined. -/
def ProcessCmdLineArguments.loop : List (List Nat) → EnigmaState → Outcome EnigmaState
  | [], enigma => Outcome.returned enigma
  | [option], enigma =>
    if option = cstr "-q" ∨ option = cstr "--quiet" then
      Outcome.returned { enigma with enable_debug_output := false }
    else if ProcessCmdLineArguments.takesValue option then Outcome.undefined
    else Outcome.bail
  | option :: string :: rest, enigma =>
    if option = cstr "-q" ∨ option = cstr "--quiet" then
      ProcessCmdLineArguments.loop (string :: rest) { enigma with enable_debug_output := false }
    else
      match ProcessCmdLineArguments.valued option string enigma with
      | Outcome.returned enigma => ProcessCmdLineArguments.loop rest enigma
      | Outcome.bail => Outcome.bail
      | Outcome.undefined => Outcome.undefined

/-- The function `ProcessCmdLineArguments`; `argv` holds `argv[0] .. argv[argc - 1]`. -/
def ProcessCmdLineArguments (argv : List (List Nat)) (enigma : EnigmaState) :
    Outcome EnigmaState :=
  ProcessCmdLineArguments.loop argv.tail enigma

/-- The machine after `memset(&enigma, 0, sizeof(EnigmaState))`. -/
def EnigmaState.zero : EnigmaState :=
  let walze : WalzeState :=
    ⟨Table.zero, Table.zero, 0, 0, 0, ⟨⟨0, 0, 0, 0⟩, ⟨0, 0, 0, 0⟩⟩⟩
  ⟨Mathlib.Vector.replicate WALZE_COUNT walze, Table.zero, Table.zero, Table.zero, false,
    ⟨0, 0, 0, 0, 0, 0⟩⟩

/-- The statement `WheelSetConfiguration(&enigma.walze[i], config, notch)` of `main`. -/
def setWheel (enigma : EnigmaState) (i : Fin WALZE_COUNT) (config_array : List Nat)
    (notch : Nat) : Option EnigmaState :=
  match WheelSetConfiguration (enigma.walze.get i) config_array notch with
  | none => none
  | some w => some { enigma with walze := enigma.walze.set i w }

/-- The defaults that `main` installs before it reads the command line. -/
def main.defaults : Option EnigmaState :=
  match setWheel { EnigmaState.zero with enable_debug_output := true } 0
      walze_III_config walze_III_notch with
  | none => none
  | some enigma =>
    match setWheel enigma 1 walze_II_config walze_II_notch with
    | none => none
    | some enigma =>
      match setWheel enigma 2 walze_I_config walze_I_notch with
      | none => none
      | some enigma =>
        match EnigmaSetUmkehrwalze enigma umkehrwalze_B_config with
        | none => none
        | some enigma => EnigmaSetSteckerboard enigma (cstr "ABCDEFGHIJKLMNOPQRSTUVWXYZ")

/-- The run of `main` on a command line `argv` and the letters `input` that
`GetCharacter` delivers: the machine at the end and the characters returned
by the calls of `EnigmaFeedCharacter`. -/
def main (argv : List (List Nat)) (input : List Nat) : Outcome (EnigmaState × List Nat) :=
  match main.defaults with
  | none => Outcome.undefined
  | some enigma =>
    match ProcessCmdLineArguments argv enigma with
    | Outcome.returned enigma => Outcome.ofOption (feedCharacters enigma input)
    | Outcome.bail => Outcome.bail
    | Outcome.undefined => Outcome.undefined

/-- The machine that `main` has built when no option is given, written out:
rotors III, II, I in `walze[0..2]`, rings and positions `A`, reflector B,
identity plugboard (see `defaults_eq`). -/
def defaultMachine : EnigmaState :=
  { walze :=
      ⟨[{ config :=
            ⟨[1, 3, 5, 7, 9, 11, 2, 15, 17, 19, 23, 21, 25, 13, 24, 4, 8, 22, 6, 0, 10, 12, 20,
              18, 16, 14], rfl⟩
          config_reciprocal :=
            ⟨[19, 0, 6, 1, 15, 2, 18, 3, 16, 4, 20, 5, 21, 13, 25, 7, 24, 8, 23, 9, 22, 11, 17,
              10, 14, 12], rfl⟩
          notch := 21
          position := 0
          ringstellung := 0
          last_character_debug := ⟨⟨0, 0, 0, 0⟩, ⟨0, 0, 0, 0⟩⟩ },
        { config :=
            ⟨[0, 9, 3, 10, 18, 8, 17, 20, 23, 1, 11, 7, 22, 19, 12, 2, 16, 6, 25, 13, 15, 24, 5,
              21, 14, 4], rfl⟩
          config_reciprocal :=
            ⟨[0, 9, 15, 2, 25, 22, 17, 11, 5, 1, 3, 10, 14, 19, 24, 20, 16, 6, 4, 13, 7, 23, 12,
              8, 21, 18], rfl⟩
          notch := 4
          position := 0
          ringstellung := 0
          last_character_debug := ⟨⟨0, 0, 0, 0⟩, ⟨0, 0, 0, 0⟩⟩ },
        { config :=
            ⟨[4, 10, 12, 5, 11, 6, 3, 16, 21, 25, 13, 19, 14, 22, 24, 7, 23, 20, 18, 15, 0, 8, 1,
              17, 2, 9], rfl⟩
          config_reciprocal :=
            ⟨[20, 22, 24, 6, 0, 3, 5, 15, 21, 25, 1, 4, 2, 10, 12, 19, 7, 23, 18, 11, 17, 8, 13,
              16, 14, 9], rfl⟩
          notch := 16
          position := 0
          ringstellung := 0
          last_character_debug := ⟨⟨0, 0, 0, 0⟩, ⟨0, 0, 0, 0⟩⟩ }], rfl⟩
    umkehrwalze :=
      ⟨[24, 17, 20, 7, 16, 18, 11, 3, 15, 23, 13, 6, 14, 10, 12, 8, 4, 1, 5, 25, 2, 22, 21, 9, 0,
        19], rfl⟩
    steckerboard :=
      ⟨[0, 1, 2, 3, 4, 5, 6, 7, 8, 9, 10, 11, 12, 13, 14, 15, 16, 17, 18, 19, 20, 21, 22, 23, 24,
        25], rfl⟩
    steckerboard_reciprocal :=
      ⟨[0, 1, 2, 3, 4, 5, 6, 7, 8, 9, 10, 11, 12, 13, 14, 15, 16, 17, 18, 19, 20, 21, 22, 23, 24,
        25], rfl⟩
    enable_debug_output := true
    last_character_debug := ⟨0, 0, 0, 0, 0, 0⟩ }

/-! ## The known vector -/

/-- The machine that `main` hands to its keystroke loop for the command line
`argv`; `none` when `ProcessCmdLineArguments` does not return. -/
def configure (argv : List (List Nat)) : Option EnigmaState :=
  match main.defaults with
  | none => none
  | some enigma =>
    match ProcessCmdLineArguments argv enigma with
    | Outcome.returned enigma => some enigma
    | _ => none

/-- The characters that the calls of `EnigmaFeedCharacter` return in a run of
`main`; `none` when the run does not get through. -/
def runOutput (argv : List (List Nat)) (input : List Nat) : Option (List Nat) :=
  match main argv input with
  | Outcome.returned r => some r.2
  | _ => none

/-- A configuration read back as letters: for each wheel its wiring string,
notch, ring setting and position, then the reflector string and the
plugboard string. -/
def EnigmaState.letters (e : EnigmaState) :
    List (List Nat × Nat × Nat × Nat) × List Nat × List Nat :=
  (e.walze.toList.map fun w =>
      (w.config.toList.map (· + 65), w.notch + 65, w.ringstellung + 65, w.position + 65),
    e.umkehrwalze.toList.map (· + 65), e.steckerboard.toList.map (· + 65))

/-- The ciphertext of the header example. -/
def vectorCiphertext : List Nat :=
  cstr ("GCDSEAHUGWTQGRKVLFGXUCALXVYMIGMMNMFDXTGNVHVRMMEVOUYFZSLRHDRRXFJWCFHUHMUNZEF" ++
    "RDISIKBGPMYVXUZ")

/-- The decrypt that the header example and the spec give for it. -/
def vectorPlaintext : List Nat :=
  cstr ("FEINDLIQEINFANTERIEKOLONNEBEOBAQTETXANFANGSUEDAUSGANGBAERWALDEXENDEDREIKMOST" ++
    "WAERTSNEUSTADT")

/-- The command line of the header example. -/
def headerArgs : List (List Nat) :=
  [cstr "./Enigma", cstr "-r", cstr "213", cstr "-rs", cstr "XMV", cstr "-sp", cstr "ABL",
    cstr "-s", cstr "AM,FI,NV,PS,TU,WZ", cstr "-rf", cstr "A", cstr "-q"]

/-- What the program returns on the header example. -/
def headerActual : List Nat :=
  cstr ("FEINDLIQEGNFANTERIEKOLONNEBEOBAQTETJANFANGSUEDAUSGANGBAERWALDEXENDEDREIKMOST" ++
    "WAERTSNEUSTWDT")

/-- A command line for the scenario of the spec: wheels III, II, I in
processing order (`-r` fills `walze[2]` first), ring settings `X`, `M`, `V`
on `walze[0]`, `walze[1]`, `walze[2]` (`-rs` fills `walze[2]` first), start
positions `A`, reflector A, the six plugboard pairs. -/
def specArgs : List (List Nat) :=
  [cstr "./Enigma", cstr "-r", cstr "123", cstr "-rs", cstr "VMX", cstr "-sp", cstr "AAA",
    cstr "-s", cstr "AM,FI,NV,PS,TU,WZ", cstr "-rf", cstr "A"]

/-- What the program returns on the scenario of the spec. -/
def specActual : List Nat :=
  cstr ("VTCQFSJHAOXGEWJFCKZUWGYKQQJUUQZRWQGCPLQBIXLFCCRJWQHYSDOWTELKLCBIGZSMVBFMETYG" ++
    "RVOCMIEJTKESDE")

/-! ## Conditions on the configuration -/

/-- The character is one of the letters `'A'..'Z'`. -/
abbrev IsLetter (c : Nat) : Prop := 65 ≤ c ∧ c ≤ 90

/-- Every entry of the table is in `0..25`. -/
abbrev Table.InRange (t : Table) : Prop := ∀ i : Fin 26, t.get i < 26

/-- The table is a bijection on `0..25`: entries in range, no entry twice. -/
abbrev Table.IsBijection (t : Table) : Prop :=
  t.InRange ∧ ∀ i j : Fin 26, t.get i = t.get j → i = j

/-- The table `r` undoes the table `t`: `r[t[x]] = x` for every `x` in `0..25`. -/
abbrev Table.IsInverseOf (r t : Table) : Prop := ∀ i : Fin 26, r.read (t.get i) = some i.val

/-- The table is an involution on `0..25`: `t[t[x]] = x`. -/
abbrev Table.IsInvolution (t : Table) : Prop := t.IsInverseOf t

/-- Wheel with both wiring tables, position and ring setting in `0..25`. -/
abbrev WalzeState.InRange (w : WalzeState) : Prop :=
  w.config.InRange ∧ w.config_reciprocal.InRange ∧ w.position < 26 ∧ w.ringstellung < 26

/-- Wheel whose wiring is a bijection with `config_reciprocal` its inverse,
position and ring setting in `0..25`. -/
abbrev WalzeState.Valid (w : WalzeState) : Prop :=
  w.config.IsBijection ∧ w.config_reciprocal.IsInverseOf w.config ∧
    w.position < 26 ∧ w.ringstellung < 26

/-- Machine whose tables all have entries in `0..25` and whose ring settings
and positions are in `0..25`. -/
abbrev EnigmaState.InRange (e : EnigmaState) : Prop :=
  (∀ k : Fin WALZE_COUNT, (e.walze.get k).InRange) ∧ e.umkehrwalze.InRange ∧
    e.steckerboard.InRange ∧ e.steckerboard_reciprocal.InRange

/-- Validly configured machine: bijective wheel wirings with their inverses,
rings and positions in `0..25`, reflector entries in `0..25`, involutive
plugboard with `steckerboard_reciprocal` its inverse. -/
abbrev EnigmaState.Valid (e : EnigmaState) : Prop :=
  (∀ k : Fin WALZE_COUNT, (e.walze.get k).Valid) ∧ e.umkehrwalze.InRange ∧
    e.steckerboard.IsInvolution ∧ e.steckerboard_reciprocal.IsInverseOf e.steckerboard

/-- The nine array indices of the last keystroke, as its snapshots record
them (plugboard, each wheel forward, reflector, each wheel reverse,
reciprocal plugboard), are all in `0..25`. -/
abbrev EnigmaState.LookupsInRange (e : EnigmaState) : Prop :=
  e.last_character_debug.steckerboard_forward_input < 26 ∧
  (∀ k : Fin WALZE_COUNT, (e.walze.get k).last_character_debug.forward.wires_input < 26) ∧
  e.last_character_debug.umkehrwalze_input < 26 ∧
  (∀ k : Fin WALZE_COUNT, (e.walze.get k).last_character_debug.reciprocal.wires_input < 26) ∧
  e.last_character_debug.steckerboard_reciprocal_input < 26

/-! ## The cipher state without the debug snapshots

The proofs below go through the part of the machine that decides the cipher:
the tables, notches, ring settings and positions.  The functions on it are
shown to agree with the functions above; no claim is stated on them. -/

/-- Cell `i` of a table, `0` outside the table. -/
def Table.cell (t : Table) (i : Nat) : Nat := (t.read i).getD 0

/-- The fields of a wheel other than its debug snapshot. -/
structure WheelKey where
  config : Table
  config_reciprocal : Table
  notch : Nat
  position : Nat
  ringstellung : Nat

/-- The fields of a wheel other than its debug snapshot. -/
def WalzeState.key (w : WalzeState) : WheelKey :=
  ⟨w.config, w.config_reciprocal, w.notch, w.position, w.ringstellung⟩

/-- The translation of a wheel in natural-number arithmetic. -/
def WheelKey.translate (k : WheelKey) (reciprocal : Bool) (x : Nat) : Nat :=
  ((if reciprocal then k.config_reciprocal else k.config).cell
      ((x + k.position + 26 - k.ringstellung) % 26) + 26 + k.ringstellung - k.position) % 26

/-- One step of a wheel. -/
def WheelKey.advance (k : WheelKey) : WheelKey :=
  { k with position := (k.position + 1) % 26 }

/-- The fields of the machine that decide the cipher. -/
structure MachineKey where
  w0 : WheelKey
  w1 : WheelKey
  w2 : WheelKey
  umkehrwalze : Table
  steckerboard : Table
  steckerboard_reciprocal : Table

/-- The fields of the machine that decide the cipher. -/
def EnigmaState.key (e : EnigmaState) : MachineKey :=
  ⟨(e.walze.get 0).key, (e.walze.get 1).key, (e.walze.get 2).key,
    e.umkehrwalze, e.steckerboard, e.steckerboard_reciprocal⟩

/-- The stepping pass on the cipher state. -/
def MachineKey.step (m : MachineKey) : MachineKey :=
  let w0 := m.w0.advance
  let w1 := if w0.position = w0.notch then m.w1.advance else m.w1
  let w2 := if w1.position = w1.notch then m.w2.advance else m.w2
  { m with w0 := w0, w1 := w1, w2 := w2 }

/-- The signal path at fixed wheel positions. -/
def MachineKey.path (m : MachineKey) (x : Nat) : Nat :=
  m.steckerboard_reciprocal.cell
    (m.w0.translate true (m.w1.translate true (m.w2.translate true
      (m.umkehrwalze.cell
        (m.w2.translate false (m.w1.translate false (m.w0.translate false
          (m.steckerboard.cell x))))))))

/-- The letters returned for a sequence of keystrokes. -/
def MachineKey.run : MachineKey → List Nat → List Nat
  | _, [] => []
  | m, c :: cs => (m.step.path (c - 65) + 65) :: MachineKey.run m.step cs

/-- The cipher state after `n` keystrokes. -/
def MachineKey.steps : MachineKey → Nat → MachineKey
  | m, 0 => m
  | m, n + 1 => MachineKey.steps m.step n

/-- Cipher state of a wheel whose reverse table undoes its forward table,
with position and ring setting in `0..25`. -/
def WheelKey.Valid (k : WheelKey) : Prop :=
  k.config_reciprocal.IsInverseOf k.config ∧ k.position < 26 ∧ k.ringstellung < 26

/-- Cipher state with valid wheels, an involutive plugboard and its inverse. -/
def MachineKey.Valid (m : MachineKey) : Prop :=
  m.w0.Valid ∧ m.w1.Valid ∧ m.w2.Valid ∧ m.steckerboard.IsInvolution ∧
    m.steckerboard_reciprocal.IsInverseOf m.steckerboard

/-- Cipher state with positions and ring settings in `0..25`. -/
def MachineKey.Bounded (m : MachineKey) : Prop :=
  (m.w0.position < 26 ∧ m.w0.ringstellung < 26) ∧
  (m.w1.position < 26 ∧ m.w1.ringstellung < 26) ∧
  (m.w2.position < 26 ∧ m.w2.ringstellung < 26)

/-- The clock of the first two wheels: 26 times the position of wheel 1 plus
the distance of wheel 0 past its notch.  One stepping pass advances it by
one modulo 676. -/
def MachineKey.clock (m : MachineKey) : Nat :=
  26 * m.w1.position + (m.w0.position + 26 - m.w0.notch) % 26

/-- The position of wheel 2 minus the number of steps it has taken in the
current round of the clock, modulo 26.  A stepping pass leaves it as it is. -/
def MachineKey.residue (m : MachineKey) : Nat :=
  (m.w2.position + 26 -
    min ((m.clock + 676 - 26 * m.w1.notch) % 676 + 1) 26) % 26

/-- The table of a wiring string: character `i` minus `'A'` in cell `i`. -/
def tableOf (config_array : List Nat) : Table :=
  Mathlib.Vector.ofFn fun i : Fin 26 => toUChar ((config_array.getD i.val 0 : Nat) - 65)

/-- The pairs that the loop of the `-s` branch reads from a string: the
characters at `j` and `j + 1` for `j = 0, 3, 6, …`; the character in between
is skipped, and a second character that is missing reads as the terminator. -/
def pairsOf : List Nat → List (Nat × Nat)
  | [] => []
  | [a] => [(a, 0)]
  | [a, b] => [(a, b)]
  | a :: b :: _ :: rest => (a, b) :: pairsOf rest

/-- The pairing string `AB,CD,…` of a list of pairs. -/
def pairString : List (Nat × Nat) → List Nat
  | [] => []
  | [p] => [p.1, p.2]
  | p :: q :: rest => p.1 :: p.2 :: 44 :: pairString (q :: rest)

/-- No character of one pair occurs in another pair. -/
def PairsDisjoint (pairs : List (Nat × Nat)) : Prop :=
  pairs.Pairwise fun p q => p.1 ≠ q.1 ∧ p.1 ≠ q.2 ∧ p.2 ≠ q.1 ∧ p.2 ≠ q.2

/-- Disjointness of pairs is decided pair by pair. -/
instance PairsDisjoint.decidable (pairs : List (Nat × Nat)) : Decidable (PairsDisjoint pairs) :=
  List.instDecidablePairwise pairs

/-- The initial content of the local array `steckerboard` of the `-s` branch. -/
def alphabet : List Nat := cstr "ABCDEFGHIJKLMNOPQRSTUVWXYZ" ++ [0]

/-! ## Arithmetic of the wheel translation -/

set_option maxRecDepth 100000 in
/-- The defaults of `main` are the machine `defaultMachine`. -/
theorem defaults_eq : main.defaults = some defaultMachine := by
  decide!

theorem defaultMachine_valid : defaultMachine.Valid ∧ defaultMachine.umkehrwalze.IsInvolution := by
  decide

theorem defaultMachine_inRange : defaultMachine.InRange := by
  decide


theorem toUChar_natCast {n : Nat} (h : n < 256) : toUChar (n : Int) = n := by
  unfold toUChar
  omega

theorem tmod_toUChar {a : Int} (h : 0 ≤ a) : toUChar (Int.tmod a 26) = (a % 26).toNat := by
  rw [Int.tmod_eq_emod h (by decide)]
  unfold toUChar
  omega

theorem Table.read_of_lt (t : Table) {i : Nat} (h : i < 26) : t.read i = some (t.cell i) := by
  simp [Table.cell, Table.read, h]

theorem Table.cell_eq_get (t : Table) (i : Fin 26) : t.cell i.val = t.get i := by
  simp [Table.cell, Table.read, i.isLt]

theorem Table.InRange.cell_lt {t : Table} (h : t.InRange) {i : Nat} (hi : i < 26) :
    t.cell i < 26 := by
  have := h ⟨i, hi⟩
  rwa [← Table.cell_eq_get] at this

theorem wires_input_eq {x p r : Nat} (hr : r < 26) :
    toUChar (Int.tmod (26 + (x : Int) + p - r) 26) = (x + p + 26 - r) % 26 := by
  rw [tmod_toUChar (by omega)]
  omega

theorem output_eq {y p r : Nat} (hp : p < 26) :
    toUChar (Int.tmod (26 + (y : Int) - p + r) 26) = (y + 26 + r - p) % 26 := by
  rw [tmod_toUChar (by omega)]
  omega

/-- The wheel after `WheelFeedCharacter` wrote the snapshot of one direction. -/
theorem WheelFeedCharacter_forward (w : WalzeState) (x : Nat)
    (hp : w.position < 26) (hr : w.ringstellung < 26) :
    WheelFeedCharacter w false x =
      some ({ w with
                last_character_debug :=
                  { w.last_character_debug with
                      forward := ⟨x, (x + w.position + 26 - w.ringstellung) % 26,
                        w.config.cell ((x + w.position + 26 - w.ringstellung) % 26),
                        w.key.translate false x⟩ } },
            w.key.translate false x) := by
  have hi : (x + w.position + 26 - w.ringstellung) % 26 < 26 := Nat.mod_lt _ (by decide)
  simp only [WheelFeedCharacter, wires_input_eq hr, Table.read_of_lt _ hi, output_eq hp,
    WheelKey.translate, WalzeState.key]
  simp

theorem WheelFeedCharacter_reverse (w : WalzeState) (x : Nat)
    (hp : w.position < 26) (hr : w.ringstellung < 26) :
    WheelFeedCharacter w true x =
      some ({ w with
                last_character_debug :=
                  { w.last_character_debug with
                      reciprocal := ⟨x, (x + w.position + 26 - w.ringstellung) % 26,
                        w.config_reciprocal.cell ((x + w.position + 26 - w.ringstellung) % 26),
                        w.key.translate true x⟩ } },
            w.key.translate true x) := by
  have hi : (x + w.position + 26 - w.ringstellung) % 26 < 26 := Nat.mod_lt _ (by decide)
  simp only [WheelFeedCharacter, wires_input_eq hr, Table.read_of_lt _ hi, output_eq hp,
    WheelKey.translate, WalzeState.key]
  simp

theorem WheelKey.translate_lt (k : WheelKey) (d : Bool) (x : Nat) : k.translate d x < 26 :=
  Nat.mod_lt _ (by decide)

/-- In either direction the call succeeds, leaves the cipher fields alone and
returns the translation. -/
theorem WheelFeedCharacter_spec (w : WalzeState) (d : Bool) (x : Nat)
    (hp : w.position < 26) (hr : w.ringstellung < 26) :
    ∃ w', WheelFeedCharacter w d x = some (w', w.key.translate d x) ∧ w'.key = w.key := by
  cases d
  · exact ⟨_, WheelFeedCharacter_forward w x hp hr, rfl⟩
  · exact ⟨_, WheelFeedCharacter_reverse w x hp hr, rfl⟩

theorem vector3_eq {α : Type} (v : Mathlib.Vector α 3) :
    ∃ a b c, v = ⟨[a, b, c], rfl⟩ := by
  obtain ⟨l, hl⟩ := v
  match l, hl with
  | [a, b, c], _ => exact ⟨a, b, c, rfl⟩

theorem finRange3 : List.finRange WALZE_COUNT = [0, 1, 2] := by decide

theorem get3_0 {α : Type} (x y z : α) :
    Mathlib.Vector.get (⟨[x, y, z], rfl⟩ : Mathlib.Vector α WALZE_COUNT) 0 = x := rfl

theorem get3_1 {α : Type} (x y z : α) :
    Mathlib.Vector.get (⟨[x, y, z], rfl⟩ : Mathlib.Vector α WALZE_COUNT) 1 = y := rfl

theorem get3_2 {α : Type} (x y z : α) :
    Mathlib.Vector.get (⟨[x, y, z], rfl⟩ : Mathlib.Vector α WALZE_COUNT) 2 = z := rfl

theorem rotateBody_0 (a b c : WalzeState) :
    EnigmaFeedCharacter.rotateBody ⟨[a, b, c], rfl⟩ 0 = ⟨[WheelRotate a 1, b, c], rfl⟩ := by
  show (if (0 : Nat) = 0 ∨ a.position = a.notch then
      (⟨[WheelRotate a 1, b, c], rfl⟩ : Mathlib.Vector WalzeState WALZE_COUNT)
    else ⟨[a, b, c], rfl⟩) = _
  simp

theorem rotateBody_1 (a b c : WalzeState) :
    EnigmaFeedCharacter.rotateBody ⟨[a, b, c], rfl⟩ 1 =
      ⟨[a, if a.position = a.notch then WheelRotate b 1 else b, c], rfl⟩ := by
  show (if (1 : Nat) = 0 ∨ a.position = a.notch then
      (⟨[a, WheelRotate b 1, c], rfl⟩ : Mathlib.Vector WalzeState WALZE_COUNT)
    else ⟨[a, b, c], rfl⟩) = _
  by_cases h : a.position = a.notch <;> simp [h]

theorem rotateBody_2 (a b c : WalzeState) :
    EnigmaFeedCharacter.rotateBody ⟨[a, b, c], rfl⟩ 2 =
      ⟨[a, b, if b.position = b.notch then WheelRotate c 1 else c], rfl⟩ := by
  show (if (2 : Nat) = 0 ∨ b.position = b.notch then
      (⟨[a, b, WheelRotate c 1], rfl⟩ : Mathlib.Vector WalzeState WALZE_COUNT)
    else ⟨[a, b, c], rfl⟩) = _
  by_cases h : b.position = b.notch <;> simp [h]

theorem rotate_eq (a b c : WalzeState) :
    EnigmaFeedCharacter.rotate ⟨[a, b, c], rfl⟩ =
      ⟨[WheelRotate a 1,
        if (WheelRotate a 1).position = (WheelRotate a 1).notch then WheelRotate b 1 else b,
        if (if (WheelRotate a 1).position = (WheelRotate a 1).notch then WheelRotate b 1
              else b).position =
            (if (WheelRotate a 1).position = (WheelRotate a 1).notch then WheelRotate b 1
              else b).notch then WheelRotate c 1 else c], rfl⟩ := by
  unfold EnigmaFeedCharacter.rotate
  rw [finRange3]
  simp only [List.foldl, rotateBody_0, rotateBody_1, rotateBody_2]

theorem wheelBody_0 (d : Bool) (a b c : WalzeState) (x : Nat) :
    EnigmaFeedCharacter.wheelBody d (⟨[a, b, c], rfl⟩, x) 0 =
      (WheelFeedCharacter a d x).map fun r => (⟨[r.1, b, c], rfl⟩, r.2) := by
  unfold EnigmaFeedCharacter.wheelBody
  show (match WheelFeedCharacter a d x with
    | none => none
    | some (w, c') => some ((⟨[w, b, c], rfl⟩ : Mathlib.Vector WalzeState WALZE_COUNT), c')) = _
  cases WheelFeedCharacter a d x <;> rfl

theorem wheelBody_1 (d : Bool) (a b c : WalzeState) (x : Nat) :
    EnigmaFeedCharacter.wheelBody d (⟨[a, b, c], rfl⟩, x) 1 =
      (WheelFeedCharacter b d x).map fun r => (⟨[a, r.1, c], rfl⟩, r.2) := by
  unfold EnigmaFeedCharacter.wheelBody
  show (match WheelFeedCharacter b d x with
    | none => none
    | some (w, c') => some ((⟨[a, w, c], rfl⟩ : Mathlib.Vector WalzeState WALZE_COUNT), c')) = _
  cases WheelFeedCharacter b d x <;> rfl

theorem wheelBody_2 (d : Bool) (a b c : WalzeState) (x : Nat) :
    EnigmaFeedCharacter.wheelBody d (⟨[a, b, c], rfl⟩, x) 2 =
      (WheelFeedCharacter c d x).map fun r => (⟨[a, b, r.1], rfl⟩, r.2) := by
  unfold EnigmaFeedCharacter.wheelBody
  show (match WheelFeedCharacter c d x with
    | none => none
    | some (w, c') => some ((⟨[a, b, w], rfl⟩ : Mathlib.Vector WalzeState WALZE_COUNT), c')) = _
  cases WheelFeedCharacter c d x <;> rfl

theorem WheelRotate_key (w : WalzeState) (h : w.position < 26) :
    (WheelRotate w 1).key = w.key.advance := by
  have h1 : (w.position + 1) % 2 ^ 32 % 26 = (w.position + 1) % 26 := by
    rw [Nat.mod_eq_of_lt (a := w.position + 1)]
    have : (2 : Nat) ^ 32 = 4294967296 := by norm_num
    omega
  have h2 : toUChar (((w.position + 1) % 2 ^ 32 % 26 : Nat) : Int) = (w.position + 1) % 26 := by
    rw [h1]
    exact toUChar_natCast (by omega)
  simp only [WheelRotate, WalzeState.key, WheelKey.advance, h2]

theorem forward_spec (a b c : WalzeState) (x : Nat)
    (ha : a.position < 26 ∧ a.ringstellung < 26) (hb : b.position < 26 ∧ b.ringstellung < 26)
    (hc : c.position < 26 ∧ c.ringstellung < 26) :
    ∃ a' b' c', EnigmaFeedCharacter.forward ⟨[a, b, c], rfl⟩ x =
        some (⟨[a', b', c'], rfl⟩,
          c.key.translate false (b.key.translate false (a.key.translate false x))) ∧
      a'.key = a.key ∧ b'.key = b.key ∧ c'.key = c.key := by
  obtain ⟨a', ea, ka⟩ := WheelFeedCharacter_spec a false x ha.1 ha.2
  obtain ⟨b', eb, kb⟩ := WheelFeedCharacter_spec b false (a.key.translate false x) hb.1 hb.2
  obtain ⟨c', ec, kc⟩ := WheelFeedCharacter_spec c false
    (b.key.translate false (a.key.translate false x)) hc.1 hc.2
  refine ⟨a', b', c', ?_, ka, kb, kc⟩
  unfold EnigmaFeedCharacter.forward
  rw [finRange3]
  simp [List.foldlM, wheelBody_0, wheelBody_1, wheelBody_2, ea, eb, ec]

theorem backward_spec (a b c : WalzeState) (x : Nat)
    (ha : a.position < 26 ∧ a.ringstellung < 26) (hb : b.position < 26 ∧ b.ringstellung < 26)
    (hc : c.position < 26 ∧ c.ringstellung < 26) :
    ∃ a' b' c', EnigmaFeedCharacter.backward ⟨[a, b, c], rfl⟩ x =
        some (⟨[a', b', c'], rfl⟩,
          a.key.translate true (b.key.translate true (c.key.translate true x))) ∧
      a'.key = a.key ∧ b'.key = b.key ∧ c'.key = c.key := by
  obtain ⟨c', ec, kc⟩ := WheelFeedCharacter_spec c true x hc.1 hc.2
  obtain ⟨b', eb, kb⟩ := WheelFeedCharacter_spec b true (c.key.translate true x) hb.1 hb.2
  obtain ⟨a', ea, ka⟩ := WheelFeedCharacter_spec a true
    (b.key.translate true (c.key.translate true x)) ha.1 ha.2
  refine ⟨a', b', c', ?_, ka, kb, kc⟩
  have r0 : Fin.rev (0 : Fin WALZE_COUNT) = 2 := rfl
  have r1 : Fin.rev (1 : Fin WALZE_COUNT) = 1 := rfl
  have r2 : Fin.rev (2 : Fin WALZE_COUNT) = 0 := rfl
  unfold EnigmaFeedCharacter.backward
  rw [finRange3]
  simp [List.foldlM, r0, r1, r2, wheelBody_0, wheelBody_1, wheelBody_2, ea, eb, ec]

theorem WheelKey.advance_lt (k : WheelKey) (h : k.ringstellung < 26) :
    k.advance.position < 26 ∧ k.advance.ringstellung < 26 :=
  ⟨Nat.mod_lt _ (by decide), h⟩

theorem rotate_spec (a b c : WalzeState) (u s sr : Table)
    (ha : a.position < 26) (hb : b.position < 26) (hc : c.position < 26) :
    ∃ a1 b1 c1, EnigmaFeedCharacter.rotate ⟨[a, b, c], rfl⟩ = ⟨[a1, b1, c1], rfl⟩ ∧
      MachineKey.mk a1.key b1.key c1.key u s sr =
        (MachineKey.mk a.key b.key c.key u s sr).step := by
  refine ⟨_, _, _, rotate_eq a b c, ?_⟩
  simp only [MachineKey.step, apply_ite WalzeState.key, WheelRotate_key _ ha,
    WheelRotate_key _ hb, WheelRotate_key _ hc]
  have e1 : ∀ w : WalzeState, w.position = w.key.position := fun _ => rfl
  have e2 : ∀ w : WalzeState, w.notch = w.key.notch := fun _ => rfl
  simp only [e1, e2, apply_ite WalzeState.key, WheelRotate_key _ ha,
    WheelRotate_key _ hb, WheelRotate_key _ hc]

theorem MachineKey.step_lt (m : MachineKey)
    (h0 : m.w0.position < 26 ∧ m.w0.ringstellung < 26)
    (h1 : m.w1.position < 26 ∧ m.w1.ringstellung < 26)
    (h2 : m.w2.position < 26 ∧ m.w2.ringstellung < 26) :
    (m.step.w0.position < 26 ∧ m.step.w0.ringstellung < 26) ∧
    (m.step.w1.position < 26 ∧ m.step.w1.ringstellung < 26) ∧
    (m.step.w2.position < 26 ∧ m.step.w2.ringstellung < 26) := by
  simp only [MachineKey.step]
  refine ⟨WheelKey.advance_lt _ h0.2, ?_, ?_⟩
  · split_ifs
    · exact WheelKey.advance_lt _ h1.2
    · exact h1
  · split_ifs <;> first | exact WheelKey.advance_lt _ h2.2 | exact h2

/-- One keystroke on a machine with rings and positions in `0..25` and
plugboard entries in `0..25`: the call succeeds, the cipher state makes one
stepping pass, and the returned character is the signal path at the new
positions. -/
theorem feed_spec (e : EnigmaState) (ch : Nat)
    (hw : ∀ k : Fin WALZE_COUNT,
      (e.walze.get k).position < 26 ∧ (e.walze.get k).ringstellung < 26)
    (hch : IsLetter ch) :
    ∃ e', EnigmaFeedCharacter e ch = some (e', toUChar ((e.key.step.path (ch - 65) : Nat) + 65)) ∧
      e'.key = e.key.step ∧ e'.enable_debug_output = e.enable_debug_output := by
  obtain ⟨walze, u, s, sr, flag, dbg⟩ := e
  obtain ⟨a, b, c, rfl⟩ := vector3_eq walze
  have ha : a.position < 26 ∧ a.ringstellung < 26 := hw 0
  have hb : b.position < 26 ∧ b.ringstellung < 26 := hw 1
  have hc : c.position < 26 ∧ c.ringstellung < 26 := hw 2
  obtain ⟨a1, b1, c1, hrot, hkey⟩ := rotate_spec a b c u s sr ha.1 hb.1 hc.1
  have hlt := MachineKey.step_lt (MachineKey.mk a.key b.key c.key u s sr) ha hb hc
  rw [← hkey] at hlt
  have hc0 : toUChar ((ch : Int) - 65) = ch - 65 := by
    unfold toUChar
    omega
  have hc0lt : ch - 65 < 26 := by omega
  obtain ⟨x1, hx1⟩ : ∃ x1, x1 = s.cell (ch - 65) := ⟨_, rfl⟩
  obtain ⟨a2, b2, c2, hfw, ka2, kb2, kc2⟩ := forward_spec a1 b1 c1 x1 hlt.1 hlt.2.1 hlt.2.2
  obtain ⟨x2, hx2⟩ : ∃ x2, x2 = c1.key.translate false (b1.key.translate false
    (a1.key.translate false x1)) := ⟨_, rfl⟩
  have hx2lt : x2 < 26 := hx2 ▸ WheelKey.translate_lt _ _ _
  rw [← hx2] at hfw
  have hlt2 : (a2.position < 26 ∧ a2.ringstellung < 26) ∧
      (b2.position < 26 ∧ b2.ringstellung < 26) ∧ (c2.position < 26 ∧ c2.ringstellung < 26) := by
    have := congrArg WheelKey.position ka2
    have := congrArg WheelKey.ringstellung ka2
    have := congrArg WheelKey.position kb2
    have := congrArg WheelKey.ringstellung kb2
    have := congrArg WheelKey.position kc2
    have := congrArg WheelKey.ringstellung kc2
    simp only [WalzeState.key] at *
    omega
  obtain ⟨a3, b3, c3, hbw, ka3, kb3, kc3⟩ :=
    backward_spec a2 b2 c2 (u.cell x2) hlt2.1 hlt2.2.1 hlt2.2.2
  obtain ⟨x4, hx4⟩ : ∃ x4, x4 = a2.key.translate true (b2.key.translate true
    (c2.key.translate true (u.cell x2))) := ⟨_, rfl⟩
  have hx4lt : x4 < 26 := hx4 ▸ WheelKey.translate_lt _ _ _
  rw [← hx4] at hbw
  have hpath : (MachineKey.mk a1.key b1.key c1.key u s sr).path (ch - 65) = sr.cell x4 := by
    simp only [MachineKey.path, hx4, hx2, hx1, ka2, kb2, kc2]
  have hfeed : EnigmaFeedCharacter ⟨⟨[a, b, c], rfl⟩, u, s, sr, flag, dbg⟩ ch =
      some (⟨⟨[a3, b3, c3], rfl⟩, u, s, sr, flag,
        ⟨ch - 65, x1, x2, u.cell x2, x4, sr.cell x4⟩⟩, toUChar ((sr.cell x4 : Nat) + 65)) := by
    simp only [EnigmaFeedCharacter, hc0, Table.read_of_lt _ hc0lt, hrot, ← hx1, hfw,
      Table.read_of_lt _ hx2lt, hbw, Table.read_of_lt _ hx4lt]
  have hp : (EnigmaState.key ⟨⟨[a, b, c], rfl⟩, u, s, sr, flag, dbg⟩).step.path (ch - 65) =
      sr.cell x4 := by
    show (MachineKey.mk a.key b.key c.key u s sr).step.path (ch - 65) = _
    rw [← hkey, hpath]
  have hk : (EnigmaState.mk ⟨[a3, b3, c3], rfl⟩ u s sr flag
      ⟨ch - 65, x1, x2, u.cell x2, x4, sr.cell x4⟩).key =
      (EnigmaState.key ⟨⟨[a, b, c], rfl⟩, u, s, sr, flag, dbg⟩).step := by
    show MachineKey.mk a3.key b3.key c3.key u s sr =
      (MachineKey.mk a.key b.key c.key u s sr).step
    rw [← hkey, ka3, kb3, kc3, ka2, kb2, kc2]
  rw [hp]
  exact ⟨_, hfeed, hk, rfl⟩

theorem WheelFeedCharacter_key {w w' : WalzeState} {d : Bool} {x y : Nat}
    (h : WheelFeedCharacter w d x = some (w', y)) : w'.key = w.key := by
  unfold WheelFeedCharacter at h
  cases d
  · simp only [Bool.false_eq_true, if_false] at h
    split at h
    · exact absurd h (by simp)
    · simp only [Option.some.injEq, Prod.mk.injEq] at h
      rw [← h.1]
      rfl
  · simp only [if_true] at h
    split at h
    · exact absurd h (by simp)
    · simp only [Option.some.injEq, Prod.mk.injEq] at h
      rw [← h.1]
      rfl

theorem wheelBody_key {d : Bool} {s s' : Mathlib.Vector WalzeState WALZE_COUNT × Nat}
    {i : Fin WALZE_COUNT} (h : EnigmaFeedCharacter.wheelBody d s i = some s')
    (k : Fin WALZE_COUNT) : (s'.1.get k).key = (s.1.get k).key := by
  unfold EnigmaFeedCharacter.wheelBody at h
  split at h
  · exact absurd h (by simp)
  · rename_i w c hw
    simp only [Option.some.injEq] at h
    rw [← h]
    simp only [Mathlib.Vector.get_set_eq_if]
    split
    · rename_i hik
      rw [← hik]
      exact WheelFeedCharacter_key hw
    · rfl

theorem wheelLoop_key (d : Bool) (f : Fin WALZE_COUNT → Fin WALZE_COUNT)
    (l : List (Fin WALZE_COUNT)) :
    ∀ (s s' : Mathlib.Vector WalzeState WALZE_COUNT × Nat),
      l.foldlM (fun state i => EnigmaFeedCharacter.wheelBody d state (f i)) s = some s' →
      ∀ k, (s'.1.get k).key = (s.1.get k).key := by
  induction l with
  | nil =>
    intro s s' h k
    simp only [List.foldlM, pure, Option.some.injEq] at h
    rw [h]
  | cons i l ih =>
    intro s s' h k
    simp only [List.foldlM] at h
    cases h1 : EnigmaFeedCharacter.wheelBody d s (f i) with
    | none => rw [h1] at h; exact absurd h (by simp)
    | some s1 =>
      rw [h1] at h
      rw [ih s1 s' h k, wheelBody_key h1 k]

theorem forward_key {v v' : Mathlib.Vector WalzeState WALZE_COUNT} {x y : Nat}
    (h : EnigmaFeedCharacter.forward v x = some (v', y)) (k : Fin WALZE_COUNT) :
    (v'.get k).key = (v.get k).key :=
  wheelLoop_key false id _ _ _ h k

theorem backward_key {v v' : Mathlib.Vector WalzeState WALZE_COUNT} {x y : Nat}
    (h : EnigmaFeedCharacter.backward v x = some (v', y)) (k : Fin WALZE_COUNT) :
    (v'.get k).key = (v.get k).key :=
  wheelLoop_key true Fin.rev _ _ _ h k

/-- Whenever a keystroke returns, the wheels it leaves have the cipher fields
of the wheels after the stepping pass, and the tables and the debug switch
are those of the call's start. -/
theorem feed_frame {e e' : EnigmaState} {ch out : Nat}
    (h : EnigmaFeedCharacter e ch = some (e', out)) :
    (∀ k, (e'.walze.get k).key = ((EnigmaFeedCharacter.rotate e.walze).get k).key) ∧
      e'.umkehrwalze = e.umkehrwalze ∧ e'.steckerboard = e.steckerboard ∧
      e'.steckerboard_reciprocal = e.steckerboard_reciprocal ∧
      e'.enable_debug_output = e.enable_debug_output := by
  unfold EnigmaFeedCharacter at h
  simp only at h
  split at h
  · exact absurd h (by simp)
  split at h
  · exact absurd h (by simp)
  split at h
  · exact absurd h (by simp)
  split at h
  · exact absurd h (by simp)
  split at h
  · exact absurd h (by simp)
  rename_i _ c1 hstk _ w2 c2 hfw _ c3 humk _ w3 c4 hbw _ c5 hsr
  simp only [Option.some.injEq, Prod.mk.injEq] at h
  rw [← h.1]
  exact ⟨fun k => (backward_key hbw k).trans (forward_key hfw k), rfl, rfl, rfl, rfl⟩

theorem feed_key {e e' : EnigmaState} {ch out : Nat}
    (h : EnigmaFeedCharacter e ch = some (e', out))
    (hpos : ∀ k : Fin WALZE_COUNT, (e.walze.get k).position < 26) :
    e'.key = e.key.step := by
  obtain ⟨hk, hu, hs, hsr, -⟩ := feed_frame h
  obtain ⟨walze, u, s, sr, flag, dbg⟩ := e
  obtain ⟨a, b, c, rfl⟩ := vector3_eq walze
  obtain ⟨a1, b1, c1, hrot, hkey⟩ := rotate_spec a b c u s sr (hpos 0) (hpos 1) (hpos 2)
  simp only at hk hu hs hsr
  rw [hrot] at hk
  show MachineKey.mk _ _ _ _ _ _ = (MachineKey.mk a.key b.key c.key u s sr).step
  rw [← hkey, hk 0, hk 1, hk 2, hu, hs, hsr]
  rfl

theorem Table.read_some_lt {t : Table} {i v : Nat} (h : t.read i = some v) : i < 26 := by
  unfold Table.read at h
  split at h
  · assumption
  · exact absurd h (by simp)

theorem WheelFeedCharacter_forward_index {w w' : WalzeState} {x y : Nat}
    (h : WheelFeedCharacter w false x = some (w', y)) :
    w'.last_character_debug.forward.wires_input < 26 := by
  unfold WheelFeedCharacter at h
  simp only [Bool.false_eq_true, if_false] at h
  split at h
  · exact absurd h (by simp)
  · rename_i v hv
    simp only [Option.some.injEq, Prod.mk.injEq] at h
    rw [← h.1]
    exact Table.read_some_lt hv

theorem WheelFeedCharacter_reverse_index {w w' : WalzeState} {x y : Nat}
    (h : WheelFeedCharacter w true x = some (w', y)) :
    w'.last_character_debug.reciprocal.wires_input < 26 ∧
      w'.last_character_debug.forward = w.last_character_debug.forward := by
  unfold WheelFeedCharacter at h
  simp only [if_true] at h
  split at h
  · exact absurd h (by simp)
  · rename_i v hv
    simp only [Option.some.injEq, Prod.mk.injEq] at h
    rw [← h.1]
    exact ⟨Table.read_some_lt hv, rfl⟩

theorem forward_inv {a b c : WalzeState} {v' : Mathlib.Vector WalzeState WALZE_COUNT}
    {x y : Nat} (h : EnigmaFeedCharacter.forward ⟨[a, b, c], rfl⟩ x = some (v', y)) :
    ∃ a' b' c' x1 x2, WheelFeedCharacter a false x = some (a', x1) ∧
      WheelFeedCharacter b false x1 = some (b', x2) ∧
      WheelFeedCharacter c false x2 = some (c', y) ∧ v' = ⟨[a', b', c'], rfl⟩ := by
  unfold EnigmaFeedCharacter.forward at h
  rw [finRange3] at h
  simp only [List.foldlM, wheelBody_0] at h
  cases ha : WheelFeedCharacter a false x with
  | none => rw [ha] at h; exact absurd h (by simp)
  | some ra =>
    rw [ha] at h
    simp only [Option.map_some', Option.bind_eq_bind, Option.some_bind, wheelBody_1] at h
    cases hb : WheelFeedCharacter b false ra.2 with
    | none => rw [hb] at h; exact absurd h (by simp)
    | some rb =>
      rw [hb] at h
      simp only [Option.map_some', Option.bind_eq_bind, Option.some_bind, wheelBody_2] at h
      cases hc : WheelFeedCharacter c false rb.2 with
      | none => rw [hc] at h; exact absurd h (by simp)
      | some rc =>
        rw [hc] at h
        simp only [Option.map_some', Option.bind_eq_bind, Option.some_bind, pure, Option.some.injEq,
          Prod.mk.injEq] at h
        exact ⟨ra.1, rb.1, rc.1, ra.2, rb.2, rfl, hb, by rw [← h.2]; exact hc, h.1.symm⟩

theorem backward_inv {a b c : WalzeState} {v' : Mathlib.Vector WalzeState WALZE_COUNT}
    {x y : Nat} (h : EnigmaFeedCharacter.backward ⟨[a, b, c], rfl⟩ x = some (v', y)) :
    ∃ a' b' c' x1 x2, WheelFeedCharacter c true x = some (c', x1) ∧
      WheelFeedCharacter b true x1 = some (b', x2) ∧
      WheelFeedCharacter a true x2 = some (a', y) ∧ v' = ⟨[a', b', c'], rfl⟩ := by
  have r0 : Fin.rev (0 : Fin WALZE_COUNT) = 2 := rfl
  have r1 : Fin.rev (1 : Fin WALZE_COUNT) = 1 := rfl
  have r2 : Fin.rev (2 : Fin WALZE_COUNT) = 0 := rfl
  unfold EnigmaFeedCharacter.backward at h
  rw [finRange3] at h
  simp only [List.foldlM, r0, r1, r2, wheelBody_2] at h
  cases hc : WheelFeedCharacter c true x with
  | none => rw [hc] at h; exact absurd h (by simp)
  | some rc =>
    rw [hc] at h
    simp only [Option.map_some', Option.bind_eq_bind, Option.some_bind, wheelBody_1] at h
    cases hb : WheelFeedCharacter b true rc.2 with
    | none => rw [hb] at h; exact absurd h (by simp)
    | some rb =>
      rw [hb] at h
      simp only [Option.map_some', Option.bind_eq_bind, Option.some_bind, wheelBody_0] at h
      cases ha : WheelFeedCharacter a true rb.2 with
      | none => rw [ha] at h; exact absurd h (by simp)
      | some ra =>
        rw [ha] at h
        simp only [Option.map_some', Option.bind_eq_bind, Option.some_bind, pure, Option.some.injEq,
          Prod.mk.injEq] at h
        exact ⟨ra.1, rb.1, rc.1, rc.2, rb.2, rfl, hb, by rw [← h.2]; exact ha, h.1.symm⟩

/-- Whenever a keystroke returns, each of its nine array indices was in
`0..25`. -/
theorem feed_lookups {e e' : EnigmaState} {ch out : Nat}
    (h : EnigmaFeedCharacter e ch = some (e', out)) : e'.LookupsInRange := by
  unfold EnigmaFeedCharacter at h
  simp only at h
  split at h
  · exact absurd h (by simp)
  split at h
  · exact absurd h (by simp)
  split at h
  · exact absurd h (by simp)
  split at h
  · exact absurd h (by simp)
  split at h
  · exact absurd h (by simp)
  rename_i _ c1 hstk _ w2 c2 hfw _ c3 humk _ w3 c4 hbw _ c5 hsr
  simp only [Option.some.injEq, Prod.mk.injEq] at h
  rw [← h.1]
  obtain ⟨a, b, c, hv⟩ := vector3_eq (EnigmaFeedCharacter.rotate e.walze)
  rw [hv] at hfw
  obtain ⟨a2, b2, c2', x1, x2, ha2, hb2, hc2, rfl⟩ := forward_inv hfw
  obtain ⟨a3, b3, c3', y1, y2, hc3, hb3, ha3, rfl⟩ := backward_inv hbw
  have fa := WheelFeedCharacter_forward_index ha2
  have fb := WheelFeedCharacter_forward_index hb2
  have fc := WheelFeedCharacter_forward_index hc2
  have ra := WheelFeedCharacter_reverse_index ha3
  have rb := WheelFeedCharacter_reverse_index hb3
  have rc := WheelFeedCharacter_reverse_index hc3
  refine ⟨Table.read_some_lt hstk, ?_, Table.read_some_lt humk, ?_, Table.read_some_lt hsr⟩
  · intro k
    fin_cases k
    · show a3.last_character_debug.forward.wires_input < 26
      rw [ra.2]; exact fa
    · show b3.last_character_debug.forward.wires_input < 26
      rw [rb.2]; exact fb
    · show c3'.last_character_debug.forward.wires_input < 26
      rw [rc.2]; exact fc
  · intro k
    fin_cases k
    · exact ra.1
    · exact rb.1
    · exact rc.1

/-! ## Tables that undo each other -/

theorem Table.IsInverseOf.image_lt {r t : Table} (h : r.IsInverseOf t) {x : Nat} (hx : x < 26) :
    t.cell x < 26 := by
  have := Table.read_some_lt (h ⟨x, hx⟩)
  rwa [← Table.cell_eq_get] at this

theorem Table.IsInverseOf.left {r t : Table} (h : r.IsInverseOf t) {x : Nat} (hx : x < 26) :
    r.cell (t.cell x) = x := by
  have h1 := h ⟨x, hx⟩
  rw [← Table.cell_eq_get] at h1
  simp only [Table.cell, h1, Option.getD_some] at *

theorem Table.IsInverseOf.right {r t : Table} (h : r.IsInverseOf t) {y : Nat} (hy : y < 26) :
    r.cell y < 26 ∧ t.cell (r.cell y) = y := by
  let f : Fin 26 → Fin 26 := fun i => ⟨t.cell i.val, h.image_lt i.isLt⟩
  have hinj : Function.Injective f := by
    intro i j hij
    have e : t.cell i.val = t.cell j.val := congrArg Fin.val hij
    have hi := h.left i.isLt
    have hj := h.left j.isLt
    rw [e] at hi
    exact Fin.ext (hi.symm.trans hj)
  obtain ⟨i, hi⟩ := (Finite.injective_iff_surjective.mp hinj) ⟨y, hy⟩
  have e : t.cell i.val = y := congrArg Fin.val hi
  have hl := h.left i.isLt
  rw [e] at hl
  rw [hl]
  exact ⟨i.isLt, e⟩

theorem Table.IsInvolution.reciprocal_eq {s sr : Table} (hs : s.IsInvolution)
    (hsr : sr.IsInverseOf s) {x : Nat} (hx : x < 26) : sr.cell x = s.cell x := by
  have h1 := hs.left hx
  have h2 := hsr.left (hs.image_lt hx)
  rw [h1] at h2
  exact h2

/-! ## The two directions of a wheel -/

theorem WheelKey.translate_reverse_forward (k : WheelKey)
    (h : k.config_reciprocal.IsInverseOf k.config)
    (hp : k.position < 26) (hr : k.ringstellung < 26) {x : Nat} (hx : x < 26) :
    k.translate true (k.translate false x) = x := by
  have hi : (x + k.position + 26 - k.ringstellung) % 26 < 26 := Nat.mod_lt _ (by decide)
  have hlt := h.image_lt hi
  have hl := h.left hi
  simp only [WheelKey.translate, Bool.false_eq_true, if_false, if_true]
  have e : ((k.config.cell ((x + k.position + 26 - k.ringstellung) % 26) + 26 +
      k.ringstellung - k.position) % 26 + k.position + 26 - k.ringstellung) % 26 =
      k.config.cell ((x + k.position + 26 - k.ringstellung) % 26) := by omega
  rw [e, hl]
  omega

theorem WheelKey.translate_forward_reverse (k : WheelKey)
    (h : k.config_reciprocal.IsInverseOf k.config)
    (hp : k.position < 26) (hr : k.ringstellung < 26) {x : Nat} (hx : x < 26) :
    k.translate false (k.translate true x) = x := by
  have hi : (x + k.position + 26 - k.ringstellung) % 26 < 26 := Nat.mod_lt _ (by decide)
  obtain ⟨hlt, hl⟩ := h.right hi
  simp only [WheelKey.translate, Bool.false_eq_true, if_false, if_true]
  have e : ((k.config_reciprocal.cell ((x + k.position + 26 - k.ringstellung) % 26) + 26 +
      k.ringstellung - k.position) % 26 + k.position + 26 - k.ringstellung) % 26 =
      k.config_reciprocal.cell ((x + k.position + 26 - k.ringstellung) % 26) := by omega
  rw [e, hl]
  omega

/-! ## The cipher state under the stepping pass -/

theorem EnigmaState.Valid.key {e : EnigmaState} (h : e.Valid) : e.key.Valid :=
  ⟨⟨(h.1 0).2.1, (h.1 0).2.2⟩, ⟨(h.1 1).2.1, (h.1 1).2.2⟩, ⟨(h.1 2).2.1, (h.1 2).2.2⟩,
    h.2.2.1, h.2.2.2⟩

theorem MachineKey.Valid.bounded {m : MachineKey} (h : m.Valid) : m.Bounded :=
  ⟨h.1.2, h.2.1.2, h.2.2.1.2⟩

theorem EnigmaState.bounded_of_key {e : EnigmaState} (h : e.key.Bounded)
    (k : Fin WALZE_COUNT) : (e.walze.get k).position < 26 ∧ (e.walze.get k).ringstellung < 26 := by
  fin_cases k
  · exact h.1
  · exact h.2.1
  · exact h.2.2

theorem EnigmaState.key_bounded {e : EnigmaState}
    (h : ∀ k : Fin WALZE_COUNT,
      (e.walze.get k).position < 26 ∧ (e.walze.get k).ringstellung < 26) : e.key.Bounded :=
  ⟨h 0, h 1, h 2⟩

theorem MachineKey.Bounded.step_bounded {m : MachineKey} (h : m.Bounded) : m.step.Bounded :=
  MachineKey.step_lt m h.1 h.2.1 h.2.2

theorem WheelKey.Valid.advance {k : WheelKey} (h : k.Valid) : k.advance.Valid :=
  ⟨h.1, Nat.mod_lt _ (by decide), h.2.2⟩

theorem MachineKey.Valid.step_valid {m : MachineKey} (h : m.Valid) : m.step.Valid := by
  obtain ⟨h0, h1, h2, hs, hsr⟩ := h
  have hw1 : ∀ c : Prop, [Decidable c] → (if c then m.w1.advance else m.w1).Valid := by
    intro c _
    split_ifs
    · exact h1.advance
    · exact h1
  have hw2 : ∀ c : Prop, [Decidable c] → (if c then m.w2.advance else m.w2).Valid := by
    intro c _
    split_ifs
    · exact h2.advance
    · exact h2
  exact ⟨h0.advance, hw1 _, hw2 _, hs, hsr⟩

theorem MachineKey.step_tables (m : MachineKey) :
    m.step.umkehrwalze = m.umkehrwalze ∧ m.step.steckerboard = m.steckerboard ∧
      m.step.steckerboard_reciprocal = m.steckerboard_reciprocal :=
  ⟨rfl, rfl, rfl⟩

/-- At fixed positions the signal path of a valid machine with an involutive
reflector is an involution on `0..25`. -/
theorem MachineKey.path_involution {m : MachineKey} (h : m.Valid)
    (hu : m.umkehrwalze.IsInvolution) {x : Nat} (hx : x < 26) :
    m.path x < 26 ∧ m.path (m.path x) = x := by
  obtain ⟨⟨i0, p0, r0⟩, ⟨i1, p1, r1⟩, ⟨i2, p2, r2⟩, hs, hsr⟩ := h
  have tl := WheelKey.translate_lt
  simp only [MachineKey.path]
  generalize hA : m.steckerboard.cell x = A
  have hAlt : A < 26 := hA ▸ hs.image_lt hx
  generalize hB : m.w2.translate false (m.w1.translate false (m.w0.translate false A)) = B
  have hBlt : B < 26 := hB ▸ tl _ _ _
  generalize hC : m.umkehrwalze.cell B = C
  have hClt : C < 26 := hC ▸ hu.image_lt hBlt
  generalize hD : m.w0.translate true (m.w1.translate true (m.w2.translate true C)) = D
  have hDlt : D < 26 := hD ▸ tl _ _ _
  have e1 : m.steckerboard_reciprocal.cell D = m.steckerboard.cell D :=
    hs.reciprocal_eq hsr hDlt
  have e2 : m.steckerboard.cell (m.steckerboard.cell D) = D := hs.left hDlt
  have e3 : m.w2.translate false (m.w1.translate false (m.w0.translate false D)) = C := by
    rw [← hD, WheelKey.translate_forward_reverse _ i0 p0 r0 (tl _ _ _),
      WheelKey.translate_forward_reverse _ i1 p1 r1 (tl _ _ _),
      WheelKey.translate_forward_reverse _ i2 p2 r2 hClt]
  have e4 : m.umkehrwalze.cell C = B := by
    rw [← hC]
    exact hu.left hBlt
  have e5 : m.w0.translate true (m.w1.translate true (m.w2.translate true B)) = A := by
    rw [← hB, WheelKey.translate_reverse_forward _ i2 p2 r2 (tl _ _ _),
      WheelKey.translate_reverse_forward _ i1 p1 r1 (tl _ _ _),
      WheelKey.translate_reverse_forward _ i0 p0 r0 hAlt]
  have e6 : m.steckerboard_reciprocal.cell A = x := by
    rw [hs.reciprocal_eq hsr hAlt, ← hA]
    exact hs.left hx
  refine ⟨?_, ?_⟩
  · rw [e1]
    exact hs.image_lt hDlt
  · rw [e1, e2, e3, e4, e5, e6]

/-! ## Sequences of keystrokes -/

theorem feedCharacters_cons {e e' : EnigmaState} {c : Nat} {cs outs : List Nat}
    (h : feedCharacters e (c :: cs) = some (e', outs)) :
    ∃ e1 out outs', EnigmaFeedCharacter e c = some (e1, out) ∧
      feedCharacters e1 cs = some (e', outs') ∧ outs = out :: outs' := by
  simp only [feedCharacters] at h
  split at h
  · exact absurd h (by simp)
  · rename_i e1 out h1
    split at h
    · exact absurd h (by simp)
    · rename_i e2 outs' h2
      simp only [Option.some.injEq, Prod.mk.injEq] at h
      exact ⟨e1, out, outs', h1, by rw [h2, h.1], h.2.symm⟩

theorem feedCharacters_cons_eq {e e1 e' : EnigmaState} {c out : Nat} {cs outs : List Nat}
    (h1 : EnigmaFeedCharacter e c = some (e1, out))
    (h2 : feedCharacters e1 cs = some (e', outs)) :
    feedCharacters e (c :: cs) = some (e', out :: outs) := by
  simp only [feedCharacters, h1, h2]

theorem MachineKey.steps_succ (m : MachineKey) (n : Nat) :
    m.steps (n + 1) = (m.steps n).step := by
  induction n generalizing m with
  | zero => rfl
  | succ n ih =>
    show m.step.steps (n + 1) = (m.step.steps n).step
    exact ih m.step

theorem MachineKey.Bounded.steps_bounded {m : MachineKey} (h : m.Bounded) (n : Nat) :
    (m.steps n).Bounded := by
  induction n generalizing m with
  | zero => exact h
  | succ n ih => exact ih h.step_bounded

theorem MachineKey.Valid.steps_valid {m : MachineKey} (h : m.Valid) (n : Nat) :
    (m.steps n).Valid := by
  induction n generalizing m with
  | zero => exact h
  | succ n ih => exact ih h.step_valid

/-- A run of keystrokes on a machine with rings and positions in `0..25` and
reverse plugboard entries in `0..25` returns, letter for letter, the run of
the cipher state. -/
theorem feedCharacters_spec (inputs : List Nat) :
    ∀ e : EnigmaState, e.key.Bounded → e.steckerboard_reciprocal.InRange →
      (∀ c ∈ inputs, IsLetter c) →
      ∃ e', feedCharacters e inputs = some (e', e.key.run inputs) ∧
        e'.key = e.key.steps inputs.length := by
  induction inputs with
  | nil =>
    intro e _ _ _
    exact ⟨e, rfl, rfl⟩
  | cons c cs ih =>
    intro e hb hsr hin
    obtain ⟨e1, h1, hk1, -⟩ :=
      feed_spec e c (EnigmaState.bounded_of_key hb) (hin c (List.mem_cons_self _ _))
    have hsr1 : e1.steckerboard_reciprocal.InRange := by
      rw [(feed_frame h1).2.2.2.1]
      exact hsr
    have hlt : e.key.step.path (c - 65) < 26 :=
      Table.InRange.cell_lt hsr (WheelKey.translate_lt _ _ _)
    have hout : toUChar ((e.key.step.path (c - 65) : Nat) + 65) =
        e.key.step.path (c - 65) + 65 := by
      unfold toUChar
      omega
    rw [hout] at h1
    obtain ⟨e', h2, hk2⟩ := ih e1 (hk1 ▸ hb.step_bounded) hsr1
      (fun c' hc' => hin c' (List.mem_cons_of_mem _ hc'))
    refine ⟨e', ?_, ?_⟩
    · rw [feedCharacters_cons_eq h1 h2, hk1]
      rfl
    · rw [hk2, hk1]
      rfl

/-- The run of a valid cipher state with an involutive reflector undoes
itself: fed its own output from the same start, it returns the input. -/
theorem MachineKey.run_involution (inputs : List Nat) :
    ∀ m : MachineKey, m.Valid → m.umkehrwalze.IsInvolution →
      (∀ c ∈ inputs, IsLetter c) →
      (∀ c ∈ m.run inputs, IsLetter c) ∧ m.run (m.run inputs) = inputs := by
  induction inputs with
  | nil =>
    intro m _ _ _
    exact ⟨fun c hc => absurd hc (List.not_mem_nil c), rfl⟩
  | cons c cs ih =>
    intro m hm hu hin
    have hc : IsLetter c := hin c (List.mem_cons_self _ _)
    have hx : c - 65 < 26 := by
      unfold IsLetter at hc
      omega
    obtain ⟨hlt, hinv⟩ := MachineKey.path_involution hm.step_valid hu hx
    obtain ⟨hl, hr⟩ := ih m.step hm.step_valid hu (fun c' hc' => hin c' (List.mem_cons_of_mem _ hc'))
    constructor
    · intro y hy
      simp only [MachineKey.run, List.mem_cons] at hy
      rcases hy with rfl | hy
      · unfold IsLetter
        omega
      · exact hl y hy
    · simp only [MachineKey.run, Nat.add_sub_cancel, hinv, hr]
      congr 1
      unfold IsLetter at hc
      omega

/-! ## Positions along a run -/

theorem MachineKey.step_position_lt (m : MachineKey) (_ : m.w0.position < 26)
    (h1 : m.w1.position < 26) (h2 : m.w2.position < 26) :
    m.step.w0.position < 26 ∧ m.step.w1.position < 26 ∧ m.step.w2.position < 26 := by
  have adv : ∀ k : WheelKey, k.advance.position < 26 := fun k => Nat.mod_lt _ (by decide)
  have hw1 : ∀ c : Prop, [Decidable c] → (if c then m.w1.advance else m.w1).position < 26 := by
    intro c _
    split_ifs
    · exact adv _
    · exact h1
  have hw2 : ∀ c : Prop, [Decidable c] → (if c then m.w2.advance else m.w2).position < 26 := by
    intro c _
    split_ifs
    · exact adv _
    · exact h2
  exact ⟨adv _, hw1 _, hw2 _⟩

theorem MachineKey.steps_position_lt (n : Nat) :
    ∀ m : MachineKey, m.w0.position < 26 → m.w1.position < 26 → m.w2.position < 26 →
      (m.steps n).w0.position < 26 ∧ (m.steps n).w1.position < 26 ∧
        (m.steps n).w2.position < 26 := by
  induction n with
  | zero => exact fun m h0 h1 h2 => ⟨h0, h1, h2⟩
  | succ n ih =>
    intro m h0 h1 h2
    obtain ⟨g0, g1, g2⟩ := m.step_position_lt h0 h1 h2
    exact ih m.step g0 g1 g2

theorem MachineKey.steps_first (n : Nat) :
    ∀ m : MachineKey, m.w0.position < 26 →
      (m.steps n).w0.position = (m.w0.position + n) % 26 ∧
        (m.steps n).w0.notch = m.w0.notch := by
  induction n with
  | zero =>
    intro m h0
    exact ⟨(Nat.mod_eq_of_lt h0).symm, rfl⟩
  | succ n ih =>
    intro m _
    have hp : m.step.w0.position = (m.w0.position + 1) % 26 := rfl
    have hn : m.step.w0.notch = m.w0.notch := rfl
    obtain ⟨e1, e2⟩ := ih m.step (hp ▸ Nat.mod_lt _ (by decide))
    refine ⟨?_, e2.trans hn⟩
    show (m.step.steps n).w0.position = _
    rw [e1, hp]
    omega

theorem feedCharacters_key (inputs : List Nat) :
    ∀ (e e' : EnigmaState) (outs : List Nat),
      (∀ k : Fin WALZE_COUNT, (e.walze.get k).position < 26) →
      feedCharacters e inputs = some (e', outs) → e'.key = e.key.steps inputs.length := by
  induction inputs with
  | nil =>
    intro e e' outs _ h
    simp only [feedCharacters, Option.some.injEq, Prod.mk.injEq] at h
    rw [← h.1]
    rfl
  | cons c cs ih =>
    intro e e' outs hpos h
    obtain ⟨e1, out, outs', h1, h2, -⟩ := feedCharacters_cons h
    have hk := feed_key h1 hpos
    have hlt := e.key.step_position_lt (hpos 0) (hpos 1) (hpos 2)
    rw [← hk] at hlt
    have hpos1 : ∀ k : Fin WALZE_COUNT, (e1.walze.get k).position < 26 := by
      intro k
      fin_cases k
      · exact hlt.1
      · exact hlt.2.1
      · exact hlt.2.2
    rw [ih e1 e' outs' hpos1 h2, hk]
    rfl

theorem feed_first_wheel {e e' : EnigmaState} {ch out : Nat}
    (h : EnigmaFeedCharacter e ch = some (e', out)) (h0 : (e.walze.get 0).position < 26) :
    (e'.walze.get 0).position = ((e.walze.get 0).position + 1) % 26 := by
  have hk := (feed_frame h).1 0
  obtain ⟨walze, u, s, sr, flag, dbg⟩ := e
  obtain ⟨a, b, c, rfl⟩ := vector3_eq walze
  simp only [rotate_eq, get3_0] at hk
  rw [WheelRotate_key a h0] at hk
  exact congrArg WheelKey.position hk

theorem feedCharacters_first_wheel (inputs : List Nat) :
    ∀ (e e' : EnigmaState) (outs : List Nat), (e.walze.get 0).position < 26 →
      feedCharacters e inputs = some (e', outs) →
      (e'.walze.get 0).position = ((e.walze.get 0).position + inputs.length) % 26 := by
  induction inputs with
  | nil =>
    intro e e' outs h0 h
    simp only [feedCharacters, Option.some.injEq, Prod.mk.injEq] at h
    rw [← h.1]
    exact (Nat.mod_eq_of_lt h0).symm
  | cons c cs ih =>
    intro e e' outs h0 h
    obtain ⟨e1, out, outs', h1, h2, -⟩ := feedCharacters_cons h
    have hp := feed_first_wheel h1 h0
    have hlt : (e1.walze.get 0).position < 26 := hp ▸ Nat.mod_lt _ (by decide)
    rw [ih e1 e' outs' hlt h2, hp, List.length_cons]
    omega

theorem feedCharacters_total (inputs : List Nat) :
    ∀ e : EnigmaState, e.key.Bounded → (∀ c ∈ inputs, IsLetter c) →
      ∃ e' outs, feedCharacters e inputs = some (e', outs) := by
  induction inputs with
  | nil => exact fun e _ _ => ⟨e, [], rfl⟩
  | cons c cs ih =>
    intro e hb hin
    obtain ⟨e1, h1, hk1, -⟩ :=
      feed_spec e c (EnigmaState.bounded_of_key hb) (hin c (List.mem_cons_self _ _))
    obtain ⟨e', outs, h2⟩ := ih e1 (hk1 ▸ hb.step_bounded)
      (fun c' hc' => hin c' (List.mem_cons_of_mem _ hc'))
    exact ⟨e', _, feedCharacters_cons_eq h1 h2⟩

/-! ## The reciprocal array -/

theorem Table.write_of_lt (t : Table) {i : Nat} (h : i < 26) (v : Nat) :
    t.write i v = some (t.set ⟨i, h⟩ v) := by
  simp [Table.write, h]

theorem Table.cell_set (t : Table) (i j : Fin 26) (v : Nat) :
    Table.cell (Mathlib.Vector.set t i v) j.val = if i = j then v else t.cell j.val := by
  rw [Table.cell_eq_get, Table.cell_eq_get, Mathlib.Vector.get_set_eq_if]

theorem Table.IsInverseOf.of_cell {r t : Table} (ht : t.InRange)
    (h : ∀ i : Fin 26, r.cell (t.cell i.val) = i.val) : r.IsInverseOf t := by
  intro i
  have hlt : t.get i < 26 := ht i
  rw [Table.read_of_lt _ hlt, ← Table.cell_eq_get, h i]

theorem GenerateReciprocalArray.loop_spec (input_array : Table)
    (hb : input_array.IsBijection) :
    ∀ (n i : Nat) (output_array : Table), i + n = 26 →
      ∃ result, GenerateReciprocalArray.loop input_array n i output_array = some result ∧
        (∀ j : Fin 26, i ≤ j.val → result.cell (input_array.cell j.val) = j.val) ∧
        (∀ y : Fin 26, (∀ j : Fin 26, i ≤ j.val → input_array.cell j.val ≠ y.val) →
          result.cell y.val = output_array.cell y.val) := by
  intro n
  induction n with
  | zero =>
    intro i out hi
    refine ⟨out, rfl, ?_, fun _ _ => rfl⟩
    intro j hj
    have := j.isLt
    omega
  | succ n ih =>
    intro i out hi
    have hilt : i < 26 := by omega
    have htlt : input_array.cell i < 26 := hb.1.cell_lt hilt
    have hu : toUChar (i : Int) = i := toUChar_natCast (by omega)
    obtain ⟨res, hres, h1, h2⟩ :=
      ih (i + 1) (Mathlib.Vector.set out ⟨input_array.cell i, htlt⟩ i) (by omega)
    have hne : ∀ j : Fin 26, i + 1 ≤ j.val → input_array.cell j.val ≠ input_array.cell i := by
      intro j hj e
      have e' : input_array.get j = input_array.get ⟨i, hilt⟩ := by
        rw [← Table.cell_eq_get, ← Table.cell_eq_get]
        exact e
      have := congrArg Fin.val (hb.2 _ _ e')
      simp only at this
      omega
    refine ⟨res, ?_, ?_, ?_⟩
    · simp only [GenerateReciprocalArray.loop, Table.read_of_lt _ hilt, hu,
        Table.write_of_lt _ htlt, hres]
    · intro j hj
      by_cases hji : j.val = i
      · have := h2 ⟨input_array.cell i, htlt⟩ hne
        rw [hji, this, Table.cell_set, if_pos rfl]
      · exact h1 j (by omega)
    · intro y hy
      rw [h2 y (fun j hj => hy j (by omega)), Table.cell_set, if_neg]
      intro e
      exact hy ⟨i, hilt⟩ (Nat.le_refl _) (congrArg Fin.val e)

theorem WheelRotate_frame (w : WalzeState) (steps : Nat) :
    (WheelRotate w steps).config = w.config ∧
      (WheelRotate w steps).config_reciprocal = w.config_reciprocal ∧
      (WheelRotate w steps).notch = w.notch ∧
      (WheelRotate w steps).ringstellung = w.ringstellung :=
  ⟨rfl, rfl, rfl, rfl⟩

/-- The stepping pass changes no wiring table, notch or ring setting. -/
theorem rotate_frame (v : Mathlib.Vector WalzeState WALZE_COUNT) (k : Fin WALZE_COUNT) :
    ((EnigmaFeedCharacter.rotate v).get k).config = (v.get k).config ∧
      ((EnigmaFeedCharacter.rotate v).get k).config_reciprocal = (v.get k).config_reciprocal ∧
      ((EnigmaFeedCharacter.rotate v).get k).notch = (v.get k).notch ∧
      ((EnigmaFeedCharacter.rotate v).get k).ringstellung = (v.get k).ringstellung := by
  obtain ⟨a, b, c, rfl⟩ := vector3_eq v
  rw [rotate_eq]
  fin_cases k
  · exact WheelRotate_frame a 1
  · show (if _ then WheelRotate b 1 else b).config = b.config ∧ _
    split_ifs <;> exact ⟨rfl, rfl, rfl, rfl⟩
  · show (if _ then WheelRotate c 1 else c).config = c.config ∧ _
    split_ifs <;> exact ⟨rfl, rfl, rfl, rfl⟩

theorem MachineKey.step_notch (m : MachineKey) :
    m.step.w0.notch = m.w0.notch ∧ m.step.w1.notch = m.w1.notch := by
  refine ⟨rfl, ?_⟩
  show (if _ then m.w1.advance else m.w1).notch = m.w1.notch
  split_ifs <;> rfl

theorem MachineKey.step_clock (m : MachineKey)
    (h0 : m.w0.position < 26) (h1 : m.w1.position < 26) (h2 : m.w2.position < 26)
    (hn0 : m.w0.notch < 26) (hn1 : m.w1.notch < 26) :
    m.step.clock = (m.clock + 1) % 676 ∧ m.step.residue = m.residue := by
  simp only [MachineKey.residue, MachineKey.clock, MachineKey.step, WheelKey.advance,
    apply_ite WheelKey.position, apply_ite WheelKey.notch, ite_self]
  split_ifs <;> omega

theorem MachineKey.steps_clock (n : Nat) :
    ∀ m : MachineKey, m.w0.position < 26 → m.w1.position < 26 → m.w2.position < 26 →
      m.w0.notch < 26 → m.w1.notch < 26 →
      (m.steps n).clock = (m.clock + n) % 676 ∧ (m.steps n).residue = m.residue ∧
        (m.steps n).w0.notch = m.w0.notch ∧ (m.steps n).w1.notch = m.w1.notch := by
  induction n with
  | zero =>
    intro m h0 h1 _ hn0 _
    refine ⟨?_, rfl, rfl, rfl⟩
    show m.clock = (m.clock + 0) % 676
    simp only [MachineKey.clock]
    omega
  | succ n ih =>
    intro m h0 h1 h2 hn0 hn1
    obtain ⟨g0, g1, g2⟩ := m.step_position_lt h0 h1 h2
    obtain ⟨e0, e1⟩ := m.step_notch
    obtain ⟨c1, c2⟩ := m.step_clock h0 h1 h2 hn0 hn1
    obtain ⟨i1, i2, i3, i4⟩ := ih m.step g0 g1 g2 (e0 ▸ hn0) (e1 ▸ hn1)
    refine ⟨?_, i2.trans c2, i3.trans e0, i4.trans e1⟩
    show (m.step.steps n).clock = _
    rw [i1, c1]
    omega

/-- After 676 stepping passes the three positions are back. -/
theorem MachineKey.steps_period (m : MachineKey)
    (h0 : m.w0.position < 26) (h1 : m.w1.position < 26) (h2 : m.w2.position < 26)
    (hn0 : m.w0.notch < 26) (hn1 : m.w1.notch < 26) :
    (m.steps 676).w0.position = m.w0.position ∧ (m.steps 676).w1.position = m.w1.position ∧
      (m.steps 676).w2.position = m.w2.position := by
  obtain ⟨c, r, e0, e1⟩ := MachineKey.steps_clock 676 m h0 h1 h2 hn0 hn1
  obtain ⟨g0, g1, g2⟩ := MachineKey.steps_position_lt 676 m h0 h1 h2
  simp only [MachineKey.residue, MachineKey.clock, e0, e1] at c r
  omega

theorem MachineKey.step_wheels_valid (m : MachineKey) (h0 : m.w0.Valid) (h1 : m.w1.Valid)
    (h2 : m.w2.Valid) : m.step.w0.Valid ∧ m.step.w1.Valid ∧ m.step.w2.Valid := by
  have hw1 : ∀ c : Prop, [Decidable c] → (if c then m.w1.advance else m.w1).Valid := by
    intro c _
    split_ifs
    · exact h1.advance
    · exact h1
  have hw2 : ∀ c : Prop, [Decidable c] → (if c then m.w2.advance else m.w2).Valid := by
    intro c _
    split_ifs
    · exact h2.advance
    · exact h2
  exact ⟨h0.advance, hw1 _, hw2 _⟩

/-- At fixed positions the signal path has no fixed point when the reflector
has none. -/
theorem MachineKey.path_ne (m : MachineKey) (h0 : m.w0.Valid) (h1 : m.w1.Valid)
    (h2 : m.w2.Valid) (hsr : m.steckerboard_reciprocal.IsInverseOf m.steckerboard)
    (hu : m.umkehrwalze.InRange) (hfix : ∀ i : Fin 26, m.umkehrwalze.get i ≠ i.val)
    (x : Nat) : m.path x < 26 ∧ m.path x ≠ x := by
  have tl := WheelKey.translate_lt
  simp only [MachineKey.path]
  generalize hA : m.steckerboard.cell x = A
  generalize hB : m.w2.translate false (m.w1.translate false (m.w0.translate false A)) = B
  have hBlt : B < 26 := hB ▸ tl _ _ _
  generalize hC : m.umkehrwalze.cell B = C
  have hClt : C < 26 := hC ▸ hu.cell_lt hBlt
  generalize hD : m.w0.translate true (m.w1.translate true (m.w2.translate true C)) = D
  have hDlt : D < 26 := hD ▸ tl _ _ _
  obtain ⟨hlt, hr⟩ := hsr.right hDlt
  refine ⟨hlt, fun e => ?_⟩
  rw [e, hA] at hr
  have e3 : m.w2.translate false (m.w1.translate false (m.w0.translate false D)) = C := by
    rw [← hD, WheelKey.translate_forward_reverse _ h0.1 h0.2.1 h0.2.2 (tl _ _ _),
      WheelKey.translate_forward_reverse _ h1.1 h1.2.1 h1.2.2 (tl _ _ _),
      WheelKey.translate_forward_reverse _ h2.1 h2.2.1 h2.2.2 hClt]
  rw [← hr, hB] at e3
  have := hfix ⟨B, hBlt⟩
  rw [← Table.cell_eq_get] at this
  exact this (hC.trans e3.symm)

/-! ## Loading a wiring string -/

theorem loadTable_loop (config_array : List Nat) (hlen : 26 ≤ config_array.length) :
    ∀ (n i : Nat) (table : Table), i + n = 26 →
      ∃ result, loadTable config_array n i table = some result ∧
        (∀ j : Fin 26, i ≤ j.val → result.get j = (tableOf config_array).get j) ∧
        (∀ j : Fin 26, j.val < i → result.get j = table.get j) := by
  intro n
  induction n with
  | zero =>
    intro i table hi
    refine ⟨table, rfl, ?_, fun _ _ => rfl⟩
    intro j hj
    have := j.isLt
    omega
  | succ n ih =>
    intro i table hi
    have hilt : i < 26 := by omega
    have hread : cstrRead config_array i = some (config_array.getD i 0) := by
      have h1 : i < config_array.length := by omega
      simp only [cstrRead, h1, if_true, List.getD_eq_getElem?_getD,
        List.getElem?_eq_getElem h1, Option.getD_some]
    obtain ⟨res, hres, g1, g2⟩ :=
      ih (i + 1) (Mathlib.Vector.set table ⟨i, hilt⟩
        (toUChar ((config_array.getD i 0 : Nat) - 65))) (by omega)
    refine ⟨res, ?_, ?_, ?_⟩
    · simp only [loadTable, hread, Table.write_of_lt _ hilt, hres]
    · intro j hj
      by_cases hji : j.val = i
      · rw [g2 j (by omega), Mathlib.Vector.get_set_eq_if, if_pos (Fin.ext hji.symm)]
        simp only [tableOf, Mathlib.Vector.get_ofFn, hji]
      · exact g1 j (by omega)
    · intro j hj
      rw [g2 j (by omega), Mathlib.Vector.get_set_eq_if, if_neg]
      intro e
      have := congrArg Fin.val e
      simp only at this
      omega

/-- Loading a string of at least 26 characters overwrites every cell: the
result is the table of the string, whatever the array held before. -/
theorem loadTable_eq (config_array : List Nat) (hlen : 26 ≤ config_array.length)
    (table : Table) : loadTable config_array 26 0 table = some (tableOf config_array) := by
  obtain ⟨res, hres, g1, -⟩ := loadTable_loop config_array hlen 26 0 table rfl
  rw [hres]
  congr 1
  exact Mathlib.Vector.ext fun j => g1 j (Nat.zero_le _)

set_option maxRecDepth 100000 in
theorem builtin_bijections :
    ∀ s ∈ [walze_I_config, walze_II_config, walze_III_config, walze_IV_config,
        walze_V_config, umkehrwalze_A_config, umkehrwalze_B_config],
      26 ≤ s.length ∧ (tableOf s).IsBijection := by
  decide!

set_option maxRecDepth 100000 in
theorem builtin_reflectors :
    ∀ s ∈ [umkehrwalze_A_config, umkehrwalze_B_config],
      (tableOf s).IsInvolution ∧ ∀ i : Fin 26, (tableOf s).get i ≠ i.val := by
  decide!

theorem pairsOf_pairString (pairs : List (Nat × Nat)) : pairsOf (pairString pairs) = pairs := by
  induction pairs with
  | nil => rfl
  | cons p ps ih =>
    cases ps with
    | nil => rfl
    | cons q qs =>
      show (p.1, p.2) :: pairsOf (pairString (q :: qs)) = _
      rw [ih]

theorem getD_set_list (l : List Nat) (i j v : Nat) (hi : i < l.length) :
    (l.set i v).getD j 0 = if i = j then v else l.getD j 0 := by
  simp only [List.getD_eq_getElem?_getD, List.getElem?_set]
  split_ifs <;> simp_all

theorem steckerWrite_letter (sb : List Nat) (c v : Nat) (hlen : sb.length = 27)
    (hc : IsLetter c) : steckerWrite sb c v = some (sb.set (c - 65) v) := by
  unfold steckerWrite IsLetter at *
  rw [if_pos]
  omega

/-- The two writes of one round of the pairing loop. -/
theorem swap_getD (sb : List Nat) (a b : Nat) (hlen : sb.length = 27) (ha : IsLetter a)
    (hb : IsLetter b) :
    ((sb.set (a - 65) b).set (b - 65) a).length = 27 ∧
    ((sb.set (a - 65) b).set (b - 65) a).getD (a - 65) 0 = b ∧
    ((sb.set (a - 65) b).set (b - 65) a).getD (b - 65) 0 = a ∧
    ∀ x, x + 65 ≠ a → x + 65 ≠ b →
      ((sb.set (a - 65) b).set (b - 65) a).getD x 0 = sb.getD x 0 := by
  unfold IsLetter at *
  have h1 : a - 65 < sb.length := by omega
  have h2 : b - 65 < (sb.set (a - 65) b).length := by rw [List.length_set]; omega
  refine ⟨by rw [List.length_set, List.length_set, hlen], ?_, ?_, ?_⟩
  · rw [getD_set_list _ _ _ _ h2, getD_set_list _ _ _ _ h1]
    split_ifs with h
    · omega
    · rfl
    · exact absurd rfl ‹_›
  · rw [getD_set_list _ _ _ _ h2, if_pos rfl]
  · intro x hxa hxb
    rw [getD_set_list _ _ _ _ h2, getD_set_list _ _ _ _ h1, if_neg (by omega),
      if_neg (by omega)]

theorem steckerLoop_spec (n : Nat) :
    ∀ (string sb : List Nat), string.length = n → sb.length = 27 →
      (∀ p ∈ pairsOf string, IsLetter p.1 ∧ IsLetter p.2) → PairsDisjoint (pairsOf string) →
      ∃ result, steckerLoop string sb = Outcome.returned result ∧ result.length = 27 ∧
        (∀ p ∈ pairsOf string,
          result.getD (p.1 - 65) 0 = p.2 ∧ result.getD (p.2 - 65) 0 = p.1) ∧
        (∀ x, (∀ p ∈ pairsOf string, x + 65 ≠ p.1 ∧ x + 65 ≠ p.2) →
          result.getD x 0 = sb.getD x 0) := by
  induction n using Nat.strong_induction_on with
  | _ n ih =>
    intro string sb hn hlen hletters hdisj
    match string, hn, hletters, hdisj with
    | [], _, _, _ =>
      exact ⟨sb, rfl, hlen, fun p hp => absurd hp (List.not_mem_nil p), fun _ _ => rfl⟩
    | [a], _, hletters, _ =>
      have h0 : IsLetter 0 := (hletters (a, 0) (List.mem_singleton.mpr rfl)).2
      exact absurd h0 (by decide)
    | [a, b], _, hletters, _ =>
      obtain ⟨ha, hb⟩ := hletters (a, b) (List.mem_singleton.mpr rfl)
      obtain ⟨l1, l2, l3, l4⟩ := swap_getD sb a b hlen ha hb
      have hnot : ¬(a < 65 ∨ a > 90) := by unfold IsLetter at ha; omega
      refine ⟨(sb.set (a - 65) b).set (b - 65) a, ?_, l1, ?_, ?_⟩
      · have w1 := steckerWrite_letter sb a b hlen ha
        have w2 := steckerWrite_letter (sb.set (a - 65) b) b a
          (by rw [List.length_set]; exact hlen) hb
        simp only [steckerLoop, if_neg hnot, List.headD_cons, w1, w2]
      · intro p hp
        rw [List.mem_singleton.mp hp]
        exact ⟨l2, l3⟩
      · intro x hx
        obtain ⟨x1, x2⟩ := hx (a, b) (List.mem_singleton.mpr rfl)
        exact l4 x x1 x2
    | a :: b :: s :: rest, hn, hletters, hdisj =>
      obtain ⟨ha, hb⟩ := hletters (a, b) (List.mem_cons_self _ _)
      obtain ⟨l1, l2, l3, l4⟩ := swap_getD sb a b hlen ha hb
      have hnot : ¬(a < 65 ∨ a > 90) := by unfold IsLetter at ha; omega
      have hd : (∀ q ∈ pairsOf rest, a ≠ q.1 ∧ a ≠ q.2 ∧ b ≠ q.1 ∧ b ≠ q.2) ∧
          PairsDisjoint (pairsOf rest) := List.pairwise_cons.mp hdisj
      obtain ⟨res, r1, r2, r3, r4⟩ :=
        ih rest.length (by simp only [List.length_cons] at hn; omega) rest
          ((sb.set (a - 65) b).set (b - 65) a) rfl l1
          (fun p hp => hletters p (List.mem_cons_of_mem _ hp)) hd.2
      have hfree : ∀ c, IsLetter c → (∀ q ∈ pairsOf rest, c ≠ q.1 ∧ c ≠ q.2) →
          ∀ q ∈ pairsOf rest, c - 65 + 65 ≠ q.1 ∧ c - 65 + 65 ≠ q.2 := by
        intro c hc h q hq
        have := h q hq
        unfold IsLetter at hc
        rw [Nat.sub_add_cancel hc.1]
        exact this
      refine ⟨res, ?_, r2, ?_, ?_⟩
      · have w1 := steckerWrite_letter sb a b hlen ha
        have w2 := steckerWrite_letter (sb.set (a - 65) b) b a
          (by rw [List.length_set]; exact hlen) hb
        simp only [steckerLoop, if_neg hnot, List.headD_cons, w1, w2, r1]
      · intro p hp
        rcases List.mem_cons.mp hp with rfl | hp
        · constructor
          · rw [r4 _ (hfree a ha fun q hq => ⟨(hd.1 q hq).1, (hd.1 q hq).2.1⟩)]
            exact l2
          · rw [r4 _ (hfree b hb fun q hq => ⟨(hd.1 q hq).2.2.1, (hd.1 q hq).2.2.2⟩)]
            exact l3
        · exact r3 p hp
      · intro x hx
        obtain ⟨x1, x2⟩ := hx (a, b) (List.mem_cons_self _ _)
        rw [r4 x fun p hp => hx p (List.mem_cons_of_mem _ hp)]
        exact l4 x x1 x2

theorem Table.IsInverseOf.bijection {r t : Table} (h : r.IsInverseOf t) : t.IsBijection := by
  refine ⟨fun i => Table.read_some_lt (h i), fun i j e => ?_⟩
  have hi := h i
  have hj := h j
  rw [e, hj] at hi
  exact Fin.ext (Option.some.inj hi).symm

theorem Table.IsInverseOf.unique {r1 r2 t : Table} (h1 : r1.IsInverseOf t)
    (h2 : r2.IsInverseOf t) : r1 = r2 := by
  apply Mathlib.Vector.ext
  intro y
  obtain ⟨hlt, hy⟩ := h2.right y.isLt
  have e := h1.left hlt
  rw [hy] at e
  rw [← Table.cell_eq_get, ← Table.cell_eq_get, e]

/-- The reciprocal of an involution is the involution itself, whatever the
output array held before. -/
theorem GenerateReciprocalArray_involution (t previous : Table) (h : t.IsInvolution) :
    GenerateReciprocalArray t previous = some t := by
  obtain ⟨res, hres, hinv, -⟩ :=
    GenerateReciprocalArray.loop_spec t h.bijection 26 0 previous rfl
  have hI : res.IsInverseOf t :=
    Table.IsInverseOf.of_cell h.bijection.1 fun i => hinv i (Nat.zero_le _)
  rw [show GenerateReciprocalArray t previous = some res from hres, hI.unique h]

theorem tableOf_cell (l : List Nat) {x : Nat} (hx : x < 26) :
    (tableOf l).cell x = toUChar ((l.getD x 0 : Nat) - 65) := by
  have := Table.cell_eq_get (tableOf l) ⟨x, hx⟩
  simp only [tableOf, Mathlib.Vector.get_ofFn] at this
  exact this

/-- Installing a 27-character array whose table is an involution. -/
theorem EnigmaSetSteckerboard_involution (e : EnigmaState) (sb : List Nat)
    (hlen : sb.length = 27) (h : (tableOf sb).IsInvolution) :
    EnigmaSetSteckerboard e sb =
      some { e with steckerboard := tableOf sb, steckerboard_reciprocal := tableOf sb } := by
  simp only [EnigmaSetSteckerboard, loadTable_eq sb (by omega),
    GenerateReciprocalArray_involution _ _ h]

theorem alphabet_getD : ∀ x < 26, alphabet.getD x 0 = x + 65 := by
  decide

theorem alphabet_length : alphabet.length = 27 := by
  decide

theorem toUChar_letter {c : Nat} (h : IsLetter c) : toUChar ((c : Int) - 65) = c - 65 := by
  unfold toUChar IsLetter at *
  omega

/-- The table that the swaps of pairwise disjoint pairs of letters leave:
partners are exchanged, every other cell holds its own index, and the table
is an involution. -/
theorem swapped_table (sb : List Nat) (pairs : List (Nat × Nat))
    (hletters : ∀ p ∈ pairs, IsLetter p.1 ∧ IsLetter p.2)
    (hp : ∀ p ∈ pairs, sb.getD (p.1 - 65) 0 = p.2 ∧ sb.getD (p.2 - 65) 0 = p.1)
    (hx : ∀ x, (∀ p ∈ pairs, x + 65 ≠ p.1 ∧ x + 65 ≠ p.2) → sb.getD x 0 = alphabet.getD x 0) :
    (∀ p ∈ pairs, (tableOf sb).read (p.1 - 65) = some (p.2 - 65) ∧
      (tableOf sb).read (p.2 - 65) = some (p.1 - 65)) ∧
    (∀ x < 26, (∀ p ∈ pairs, x + 65 ≠ p.1 ∧ x + 65 ≠ p.2) → (tableOf sb).read x = some x) ∧
    (tableOf sb).IsInvolution := by
  have lt : ∀ c, IsLetter c → c - 65 < 26 := by
    intro c hc
    unfold IsLetter at hc
    omega
  have hpair : ∀ p ∈ pairs, (tableOf sb).cell (p.1 - 65) = p.2 - 65 ∧
      (tableOf sb).cell (p.2 - 65) = p.1 - 65 := by
    intro p hmem
    obtain ⟨h1, h2⟩ := hletters p hmem
    obtain ⟨g1, g2⟩ := hp p hmem
    rw [tableOf_cell _ (lt _ h1), tableOf_cell _ (lt _ h2), g1, g2]
    exact ⟨toUChar_letter h2, toUChar_letter h1⟩
  have hfree : ∀ x < 26, (∀ p ∈ pairs, x + 65 ≠ p.1 ∧ x + 65 ≠ p.2) →
      (tableOf sb).cell x = x := by
    intro x hlt h
    rw [tableOf_cell _ hlt, hx x h, alphabet_getD x hlt]
    unfold toUChar
    omega
  refine ⟨fun p hmem => ?_, fun x hlt h => ?_, fun i => ?_⟩
  · obtain ⟨h1, h2⟩ := hletters p hmem
    rw [Table.read_of_lt _ (lt _ h1), Table.read_of_lt _ (lt _ h2), (hpair p hmem).1,
      (hpair p hmem).2]
    exact ⟨rfl, rfl⟩
  · rw [Table.read_of_lt _ hlt, hfree x hlt h]
  · rw [← Table.cell_eq_get]
    by_cases hfr : ∀ p ∈ pairs, i.val + 65 ≠ p.1 ∧ i.val + 65 ≠ p.2
    · rw [hfree i.val i.isLt hfr, Table.read_of_lt _ i.isLt, hfree i.val i.isLt hfr]
    · simp only [not_forall] at hfr
      obtain ⟨p, hmem, hne⟩ := hfr
      obtain ⟨h1, h2⟩ := hletters p hmem
      obtain ⟨g1, g2⟩ := hpair p hmem
      by_cases e1 : i.val + 65 = p.1
      · have : i.val = p.1 - 65 := by omega
        rw [this, g1, Table.read_of_lt _ (lt _ h2), g2]
      · have e2 : i.val + 65 = p.2 := by
          by_contra e2
          exact hne ⟨e1, e2⟩
        have : i.val = p.2 - 65 := by omega
        rw [this, g2, Table.read_of_lt _ (lt _ h1), g1]

/-- The pairing loop on a string of pairwise disjoint pairs of letters,
followed by `EnigmaSetSteckerboard`. -/
theorem stecker_install (string : List Nat) (e : EnigmaState)
    (hletters : ∀ p ∈ pairsOf string, IsLetter p.1 ∧ IsLetter p.2)
    (hdisj : PairsDisjoint (pairsOf string)) :
    ∃ sb, steckerLoop string alphabet = Outcome.returned sb ∧
      EnigmaSetSteckerboard e sb =
        some { e with steckerboard := tableOf sb, steckerboard_reciprocal := tableOf sb } ∧
      (∀ p ∈ pairsOf string, (tableOf sb).read (p.1 - 65) = some (p.2 - 65) ∧
        (tableOf sb).read (p.2 - 65) = some (p.1 - 65)) ∧
      (∀ x < 26, (∀ p ∈ pairsOf string, x + 65 ≠ p.1 ∧ x + 65 ≠ p.2) →
        (tableOf sb).read x = some x) ∧
      (tableOf sb).IsInvolution := by
  obtain ⟨sb, h1, h2, h3, h4⟩ :=
    steckerLoop_spec string.length string alphabet rfl alphabet_length hletters hdisj
  obtain ⟨t1, t2, t3⟩ := swapped_table sb (pairsOf string) hletters h3 h4
  exact ⟨sb, h1, EnigmaSetSteckerboard_involution e sb h2 t3, t1, t2, t3⟩

/-- The loop of the `-rs` and `-sp` branches on a three-character string:
every character is checked, and character `j` goes to `walze[2 - j]`. -/
theorem wheelLoop_checked (f : WalzeState → Nat → WalzeState) (a b c : WalzeState)
    (c0 c1 c2 : Nat) :
    wheelLoop (fun w ch => if ch < 65 ∨ ch > 90 then Outcome.bail else Outcome.returned (f w ch))
        [c0, c1, c2] 0 ⟨[a, b, c], rfl⟩ =
      if IsLetter c0 ∧ IsLetter c1 ∧ IsLetter c2 then
        Outcome.returned ⟨[f a c2, f b c1, f c c0], rfl⟩
      else Outcome.bail := by
  have n0 : (IsLetter c0) ↔ ¬(c0 < 65 ∨ c0 > 90) := by unfold IsLetter; omega
  have n1 : (IsLetter c1) ↔ ¬(c1 < 65 ∨ c1 > 90) := by unfold IsLetter; omega
  have n2 : (IsLetter c2) ↔ ¬(c2 < 65 ∨ c2 > 90) := by unfold IsLetter; omega
  have h0 : (3 : Nat) - 0 - 1 < WALZE_COUNT := by decide
  have h1 : (3 : Nat) - (0 + 1) - 1 < WALZE_COUNT := by decide
  have h2 : (3 : Nat) - (0 + 1 + 1) - 1 < WALZE_COUNT := by decide
  have g0 : ∀ v : Mathlib.Vector WalzeState WALZE_COUNT, v.get ⟨3 - 0 - 1, h0⟩ = v.get 2 :=
    fun _ => rfl
  have g1 : ∀ v : Mathlib.Vector WalzeState WALZE_COUNT,
      v.get ⟨3 - (0 + 1) - 1, h1⟩ = v.get 1 := fun _ => rfl
  have g2 : ∀ v : Mathlib.Vector WalzeState WALZE_COUNT,
      v.get ⟨3 - (0 + 1 + 1) - 1, h2⟩ = v.get 0 := fun _ => rfl
  simp only [wheelLoop, dif_pos h0, dif_pos h1, dif_pos h2, g0, g1, g2]
  by_cases l0 : IsLetter c0
  · by_cases l1 : IsLetter c1
    · by_cases l2 : IsLetter c2
      · have hr : IsLetter c0 ∧ IsLetter c1 ∧ IsLetter c2 := ⟨l0, l1, l2⟩
        rw [if_pos hr]
        simp only [if_neg (n0.mp l0), if_neg (n1.mp l1), if_neg (n2.mp l2)]
        rfl
      · have hr : ¬(IsLetter c0 ∧ IsLetter c1 ∧ IsLetter c2) := fun h => l2 h.2.2
        rw [if_neg hr]
        simp only [if_neg (n0.mp l0), if_neg (n1.mp l1), if_pos (not_not.mp (mt n2.mpr l2))]
    · have hr : ¬(IsLetter c0 ∧ IsLetter c1 ∧ IsLetter c2) := fun h => l1 h.2.1
      rw [if_neg hr]
      simp only [if_neg (n0.mp l0), if_pos (not_not.mp (mt n1.mpr l1))]
  · have hr : ¬(IsLetter c0 ∧ IsLetter c1 ∧ IsLetter c2) := fun h => l0 h.1
    rw [if_neg hr]
    simp only [if_pos (not_not.mp (mt n0.mpr l0))]

theorem length_three {string : List Nat} (h : string.length = 3) :
    ∃ c0 c1 c2, string = [c0, c1, c2] := by
  match string, h with
  | [c0, c1, c2], _ => exact ⟨c0, c1, c2, rfl⟩

theorem strlen_eq {string : List Nat} (h : string.length < 2 ^ 32) :
    strlen string = string.length :=
  Nat.mod_eq_of_lt h

/-- The `-rs` round of the option loop. -/
theorem valued_ringstellung (option string : List Nat) (e : EnigmaState)
    (hopt : option = cstr "-rs" ∨ option = cstr "--ringstellung") :
    ProcessCmdLineArguments.valued option string e =
      if strlen string ≠ 3 then Outcome.bail
      else
        match wheelLoop ringBody (string.take (strlen string)) 0 e.walze with
        | Outcome.returned walze => Outcome.returned { e with walze := walze }
        | Outcome.bail => Outcome.bail
        | Outcome.undefined => Outcome.undefined := by
  unfold ProcessCmdLineArguments.valued
  rcases hopt with rfl | rfl
  · rw [if_neg (by decide), if_neg (by decide), if_pos (by decide)]
  · rw [if_neg (by decide), if_neg (by decide), if_pos (by decide)]

/-- The `-sp` round of the option loop. -/
theorem valued_startposition (option string : List Nat) (e : EnigmaState)
    (hopt : option = cstr "-sp" ∨ option = cstr "--startposition") :
    ProcessCmdLineArguments.valued option string e =
      if strlen string ≠ 3 then Outcome.bail
      else
        match wheelLoop positionBody (string.take (strlen string)) 0 e.walze with
        | Outcome.returned walze => Outcome.returned { e with walze := walze }
        | Outcome.bail => Outcome.bail
        | Outcome.undefined => Outcome.undefined := by
  unfold ProcessCmdLineArguments.valued
  rcases hopt with rfl | rfl
  · rw [if_neg (by decide), if_neg (by decide), if_neg (by decide), if_pos (by decide)]
  · rw [if_neg (by decide), if_neg (by decide), if_neg (by decide), if_pos (by decide)]

/-- A round of the option loop that bails makes `main` exit before the
keystroke loop. -/
theorem main_bail (prog option string : List Nat) (rest : List (List Nat)) (input : List Nat)
    (hq : ¬(option = cstr "-q" ∨ option = cstr "--quiet"))
    (h : ∀ e, ProcessCmdLineArguments.valued option string e = Outcome.bail) :
    main (prog :: option :: string :: rest) input = Outcome.bail := by
  simp only [main, defaults_eq, ProcessCmdLineArguments, List.tail_cons,
    ProcessCmdLineArguments.loop, if_neg hq, h]

/-- Both checked loops, as the two branches use them. -/
theorem checked_round (body : WalzeState → Nat → Outcome WalzeState)
    (f : WalzeState → Nat → WalzeState)
    (hbody : body = fun w ch =>
      if ch < 65 ∨ ch > 90 then Outcome.bail else Outcome.returned (f w ch))
    (string : List Nat) (e : EnigmaState) (hlen : string.length < 2 ^ 32) :
    ((string.length = 3 ∧ ∀ c ∈ string, IsLetter c) →
      ∃ walze, wheelLoop body (string.take (strlen string)) 0 e.walze =
          Outcome.returned walze ∧
        ∀ j : Fin WALZE_COUNT,
          walze.get (Fin.rev j) = f (e.walze.get (Fin.rev j)) (string.getD j.val 0)) ∧
    (string.length = 3 → ¬(∀ c ∈ string, IsLetter c) →
      wheelLoop body (string.take (strlen string)) 0 e.walze = Outcome.bail) := by
  obtain ⟨a, b, c, hv⟩ := vector3_eq e.walze
  rw [hv, hbody, strlen_eq hlen, List.take_length]
  constructor
  · rintro ⟨h3, hl⟩
    obtain ⟨c0, c1, c2, rfl⟩ := length_three h3
    have l0 := hl c0 (by simp)
    have l1 := hl c1 (by simp)
    have l2 := hl c2 (by simp)
    rw [wheelLoop_checked, if_pos ⟨l0, l1, l2⟩]
    refine ⟨_, rfl, fun j => ?_⟩
    fin_cases j <;> rfl
  · intro h3 hl
    obtain ⟨c0, c1, c2, rfl⟩ := length_three h3
    rw [wheelLoop_checked, if_neg]
    rintro ⟨l0, l1, l2⟩
    apply hl
    intro ch hch
    simp only [List.mem_cons, List.mem_singleton, List.not_mem_nil, or_false] at hch
    rcases hch with rfl | rfl | rfl <;> assumption

/-- The `-s` round of the option loop, on a string whose length plus one
fits the `unsigned int` arithmetic of the shape test. -/
theorem valued_steckerboard (option string : List Nat) (e : EnigmaState)
    (hopt : option = cstr "-s" ∨ option = cstr "--steckerboard")
    (hlen : string.length + 1 < 2 ^ 32) :
    ProcessCmdLineArguments.valued option string e =
      if (string.length + 1) % 3 ≠ 0 then Outcome.bail
      else
        match steckerLoop string alphabet with
        | Outcome.returned steckerboard =>
          Outcome.ofOption (EnigmaSetSteckerboard e steckerboard)
        | Outcome.bail => Outcome.bail
        | Outcome.undefined => Outcome.undefined := by
  have hs : strlen string = string.length := strlen_eq (by omega)
  unfold ProcessCmdLineArguments.valued
  rw [if_pos hopt, hs, List.take_length, Nat.mod_eq_of_lt hlen]
  rfl

/-- The pairing loop bails on a string with a pair whose first character is
not a letter, when the second characters all are. -/
theorem steckerLoop_bail (n : Nat) :
    ∀ (string sb : List Nat), string.length = n → sb.length = 27 →
      (∀ p ∈ pairsOf string, IsLetter p.2) → (∃ p ∈ pairsOf string, ¬IsLetter p.1) →
      steckerLoop string sb = Outcome.bail := by
  induction n using Nat.strong_induction_on with
  | _ n ih =>
    intro string sb hn hlen hsecond hbad
    match string, hn, hsecond, hbad with
    | [], _, _, hbad =>
      obtain ⟨p, hp, _⟩ := hbad
      exact absurd hp (List.not_mem_nil p)
    | [a], _, hsecond, _ =>
      have h0 : IsLetter 0 := hsecond (a, 0) (List.mem_singleton.mpr rfl)
      exact absurd h0 (by decide)
    | [a, b], _, _, hbad =>
      obtain ⟨p, hp, hna⟩ := hbad
      rw [List.mem_singleton.mp hp] at hna
      have hnot : a < 65 ∨ a > 90 := by unfold IsLetter at hna; omega
      simp only [steckerLoop, if_pos hnot]
    | a :: b :: s :: rest, hn, hsecond, hbad =>
      by_cases ha : IsLetter a
      · have hb : IsLetter b := hsecond (a, b) (List.mem_cons_self _ _)
        obtain ⟨l1, _, _, _⟩ := swap_getD sb a b hlen ha hb
        have hnot : ¬(a < 65 ∨ a > 90) := by unfold IsLetter at ha; omega
        have w1 := steckerWrite_letter sb a b hlen ha
        have w2 := steckerWrite_letter (sb.set (a - 65) b) b a
          (by rw [List.length_set]; exact hlen) hb
        have hrest : ∃ p ∈ pairsOf rest, ¬IsLetter p.1 := by
          obtain ⟨p, hp, hna⟩ := hbad
          rcases List.mem_cons.mp hp with rfl | hp
          · exact absurd ha hna
          · exact ⟨p, hp, hna⟩
        have r := ih rest.length (by simp only [List.length_cons] at hn; omega) rest
          ((sb.set (a - 65) b).set (b - 65) a) rfl l1
          (fun p hp => hsecond p (List.mem_cons_of_mem _ hp)) hrest
        simp only [steckerLoop, if_neg hnot, List.headD_cons, w1, w2, r]
      · have hnot : a < 65 ∨ a > 90 := by unfold IsLetter at ha; omega
        simp only [steckerLoop, if_pos hnot]

/-- The length of the pairing string of a non-empty list of pairs. -/
theorem pairString_length : ∀ pairs : List (Nat × Nat), pairs ≠ [] →
    (pairString pairs).length + 1 = 3 * pairs.length
  | [], h => absurd rfl h
  | [_], _ => rfl
  | p :: q :: rest, _ => by
    have ih := pairString_length (q :: rest) (List.cons_ne_nil _ _)
    simp only [pairString, List.length_cons] at ih ⊢
    omega

/-- A string is at most three times as long as its list of pairs. -/
theorem pairsOf_length : ∀ string : List Nat, string.length ≤ 3 * (pairsOf string).length
  | [] => Nat.le_refl _
  | [_] => by simp only [pairsOf, List.length_cons, List.length_nil]; omega
  | [_, _] => by simp only [pairsOf, List.length_cons, List.length_nil]; omega
  | _ :: _ :: _ :: rest => by
    have ih := pairsOf_length rest
    simp only [pairsOf, List.length_cons]
    omega

/-- Pairwise disjoint pairs whose second members are letters are few. -/
theorem disjoint_seconds_length (pairs : List (Nat × Nat))
    (hsecond : ∀ p ∈ pairs, IsLetter p.2) (hdisj : PairsDisjoint pairs) :
    pairs.length ≤ 91 := by
  have hnd : (pairs.map Prod.snd).Nodup := by
    unfold PairsDisjoint at hdisj
    rw [List.Nodup, List.pairwise_map]
    exact hdisj.imp fun h => h.2.2.2
  have hsub : pairs.map Prod.snd ⊆ List.range 91 := by
    intro x hx
    obtain ⟨p, hp, rfl⟩ := List.mem_map.mp hx
    have := hsecond p hp
    unfold IsLetter at this
    exact List.mem_range.mpr (by omega)
  have := (List.subperm_of_subset hnd hsub).length_le
  simpa using this

/-- A string of pairwise disjoint pairs with letters in second place is
short. -/
theorem disjoint_string_length (string : List Nat)
    (hsecond : ∀ p ∈ pairsOf string, IsLetter p.2) (hdisj : PairsDisjoint (pairsOf string)) :
    string.length + 1 < 2 ^ 32 := by
  have h1 := pairsOf_length string
  have h2 := disjoint_seconds_length (pairsOf string) hsecond hdisj
  have : (2 : Nat) ^ 32 = 4294967296 := by norm_num
  omega

/-- The `-s` round on a string of pairwise disjoint pairs of letters of the
right shape. -/
theorem stecker_round (option string : List Nat) (e : EnigmaState)
    (hopt : option = cstr "-s" ∨ option = cstr "--steckerboard")
    (hshape : (string.length + 1) % 3 = 0)
    (hletters : ∀ p ∈ pairsOf string, IsLetter p.1 ∧ IsLetter p.2)
    (hdisj : PairsDisjoint (pairsOf string)) :
    ∃ sb, steckerLoop string alphabet = Outcome.returned sb ∧
      EnigmaSetSteckerboard e sb =
        some { e with steckerboard := tableOf sb, steckerboard_reciprocal := tableOf sb } ∧
      ProcessCmdLineArguments.valued option string e =
        Outcome.returned
          { e with steckerboard := tableOf sb, steckerboard_reciprocal := tableOf sb } ∧
      (∀ p ∈ pairsOf string, (tableOf sb).read (p.1 - 65) = some (p.2 - 65) ∧
        (tableOf sb).read (p.2 - 65) = some (p.1 - 65)) ∧
      (∀ x < 26, (∀ p ∈ pairsOf string, x + 65 ≠ p.1 ∧ x + 65 ≠ p.2) →
        (tableOf sb).read x = some x) ∧
      (tableOf sb).IsInvolution := by
  obtain ⟨sb, h1, h2, h3, h4, h5⟩ := stecker_install string e hletters hdisj
  refine ⟨sb, h1, h2, ?_, h3, h4, h5⟩
  rw [valued_steckerboard option string e hopt
    (disjoint_string_length string (fun p hp => (hletters p hp).2) hdisj),
    if_neg (not_not.mpr hshape), h1]
  show Outcome.ofOption (EnigmaSetSteckerboard e sb) = _
  rw [h2]
  rfl

/-- The `-rs` round on a string that is not three letters bails, whatever
the machine. -/
theorem ringstellung_rejected (option string : List Nat) (e : EnigmaState)
    (hopt : option = cstr "-rs" ∨ option = cstr "--ringstellung")
    (hlen : string.length < 2 ^ 32)
    (hbad : ¬(string.length = 3 ∧ ∀ c ∈ string, IsLetter c)) :
    ProcessCmdLineArguments.valued option string e = Outcome.bail := by
  rw [valued_ringstellung option string e hopt]
  by_cases h3 : string.length = 3
  · rw [if_neg (by rw [strlen_eq hlen]; exact not_not.mpr h3),
      (checked_round ringBody WheelSetRingstellung rfl string e hlen).2 h3 (fun h => hbad ⟨h3, h⟩)]
  · rw [if_pos (by rw [strlen_eq hlen]; exact h3)]

/-- The `-sp` round on a string that is not three letters bails, whatever
the machine. -/
theorem startposition_rejected (option string : List Nat) (e : EnigmaState)
    (hopt : option = cstr "-sp" ∨ option = cstr "--startposition")
    (hlen : string.length < 2 ^ 32)
    (hbad : ¬(string.length = 3 ∧ ∀ c ∈ string, IsLetter c)) :
    ProcessCmdLineArguments.valued option string e = Outcome.bail := by
  rw [valued_startposition option string e hopt]
  by_cases h3 : string.length = 3
  · rw [if_neg (by rw [strlen_eq hlen]; exact not_not.mpr h3),
      (checked_round positionBody WheelSetPosition rfl string e hlen).2 h3 (fun h => hbad ⟨h3, h⟩)]
  · rw [if_pos (by rw [strlen_eq hlen]; exact h3)]

theorem getD_letter {string : List Nat} (h3 : string.length = 3)
    (hl : ∀ c ∈ string, IsLetter c) (j : Fin WALZE_COUNT) : IsLetter (string.getD j.val 0) := by
  obtain ⟨c0, c1, c2, rfl⟩ := length_three h3
  have l0 := hl c0 (by simp)
  have l1 := hl c1 (by simp)
  have l2 := hl c2 (by simp)
  fin_cases j
  · exact l0
  · exact l1
  · exact l2

theorem not_quiet {option : List Nat}
    (h : (option = cstr "-rs" ∨ option = cstr "--ringstellung") ∨
      (option = cstr "-sp" ∨ option = cstr "--startposition")) :
    ¬(option = cstr "-q" ∨ option = cstr "--quiet") := by
  rcases h with (rfl | rfl) | (rfl | rfl) <;> decide

/-- The array that `GenerateReciprocalArray` returns for a bijection undoes it. -/
theorem GenerateReciprocalArray_undoes {input_array previous result : Table}
    (hb : input_array.IsBijection)
    (h : GenerateReciprocalArray input_array previous = some result) :
    result.IsInverseOf input_array := by
  obtain ⟨res, hres, hinv, -⟩ :=
    GenerateReciprocalArray.loop_spec input_array hb 26 0 previous rfl
  have e : res = result := Option.some.inj (hres.symm.trans h)
  rw [← e]
  exact Table.IsInverseOf.of_cell hb.1 fun i => hinv i (Nat.zero_le _)

/-! ## The claims -/

/-- C5: for a wheel with position and ring setting in `0..25` and wiring
tables with entries in `0..25`, either direction and an input in `0..25`,
`WheelFeedCharacter` returns
`(T[(input + position - ringstellung + 26) mod 26] - position + ringstellung + 26) mod 26`,
with `T` the table `config` forward and `config_reciprocal` in reverse.  The
two `int` expressions of the code are not negative there, and the values
kept in the `unsigned char` snapshot are the mathematical ones, unwrapped. -/
theorem WheelFeedCharacter_formula (walze : WalzeState) (reciprocal : Bool) (input : Nat)
    (hpos : walze.position < 26) (hring : walze.ringstellung < 26)
    (hcfg : walze.config.InRange) (hrec : walze.config_reciprocal.InRange)
    (hin : input < 26) :
    ∃ walze' wired,
      (if reciprocal then walze.config_reciprocal else walze.config).read
        (((input : Int) + walze.position - walze.ringstellung + 26) % 26).toNat = some wired ∧
      wired < 26 ∧
      WheelFeedCharacter walze reciprocal input =
        some (walze',
          (((wired : Int) - walze.position + walze.ringstellung + 26) % 26).toNat) ∧
      0 ≤ 26 + (input : Int) + walze.position - walze.ringstellung ∧
      0 ≤ 26 + (wired : Int) - walze.position + walze.ringstellung ∧
      (if reciprocal then walze'.last_character_debug.reciprocal
        else walze'.last_character_debug.forward) =
        ⟨input, (((input : Int) + walze.position - walze.ringstellung + 26) % 26).toNat, wired,
          (((wired : Int) - walze.position + walze.ringstellung + 26) % 26).toNat⟩ := by
  have hidx : (((input : Int) + walze.position - walze.ringstellung + 26) % 26).toNat =
      (input + walze.position + 26 - walze.ringstellung) % 26 := by omega
  have hlt : (input + walze.position + 26 - walze.ringstellung) % 26 < 26 :=
    Nat.mod_lt _ (by decide)
  have hout : ∀ y : Nat, (((y : Int) - walze.position + walze.ringstellung + 26) % 26).toNat =
      (y + 26 + walze.ringstellung - walze.position) % 26 := by
    intro y
    omega
  rw [hidx]
  cases reciprocal
  · have hf := WheelFeedCharacter_forward walze input hpos hring
    generalize hw : ({ walze with
      last_character_debug :=
        { walze.last_character_debug with
            forward := ⟨input, (input + walze.position + 26 - walze.ringstellung) % 26,
              walze.config.cell ((input + walze.position + 26 - walze.ringstellung) % 26),
              walze.key.translate false input⟩ } } : WalzeState) = w' at hf
    refine ⟨w', walze.config.cell ((input + walze.position + 26 - walze.ringstellung) % 26),
      Table.read_of_lt _ hlt, hcfg.cell_lt hlt, ?_, by omega, by omega, ?_⟩
    · rw [hf, hout]
      rfl
    · rw [← hw]
      simp only [Bool.false_eq_true, if_false, hout]
      rfl
  · have hf := WheelFeedCharacter_reverse walze input hpos hring
    generalize hw : ({ walze with
      last_character_debug :=
        { walze.last_character_debug with
            reciprocal := ⟨input, (input + walze.position + 26 - walze.ringstellung) % 26,
              walze.config_reciprocal.cell
                ((input + walze.position + 26 - walze.ringstellung) % 26),
              walze.key.translate true input⟩ } } : WalzeState) = w' at hf
    refine ⟨w', walze.config_reciprocal.cell
        ((input + walze.position + 26 - walze.ringstellung) % 26),
      Table.read_of_lt _ hlt, hrec.cell_lt hlt, ?_, by omega, by omega, ?_⟩
    · rw [hf, hout]
      rfl
    · rw [← hw]
      simp only [if_true, hout]
      rfl

/-- C4: from positions `(p0, p1, p2)` in `0..25` a keystroke that returns
leaves `q0 = (p0 + 1) mod 26`, `q1 = (p1 + 1) mod 26` if `q0` is the notch of
wheel 0 and `p1` otherwise, `q2 = (p2 + 1) mod 26` if `q1` is the notch of
wheel 1 and `p2` otherwise: the tests read the positions this pass has
already updated.  With ring settings in `0..25` and a letter as input the
keystroke does return. -/
theorem EnigmaFeedCharacter_stepping (enigma : EnigmaState) (input_character : Nat)
    (hpos : ∀ k : Fin WALZE_COUNT, (enigma.walze.get k).position < 26) :
    (∀ enigma' out, EnigmaFeedCharacter enigma input_character = some (enigma', out) →
      (enigma'.walze.get 0).position = ((enigma.walze.get 0).position + 1) % 26 ∧
      (enigma'.walze.get 1).position =
        (if (enigma'.walze.get 0).position = (enigma.walze.get 0).notch then
          ((enigma.walze.get 1).position + 1) % 26
        else (enigma.walze.get 1).position) ∧
      (enigma'.walze.get 2).position =
        (if (enigma'.walze.get 1).position = (enigma.walze.get 1).notch then
          ((enigma.walze.get 2).position + 1) % 26
        else (enigma.walze.get 2).position)) ∧
    ((∀ k : Fin WALZE_COUNT, (enigma.walze.get k).ringstellung < 26) →
      IsLetter input_character →
      ∃ enigma' out, EnigmaFeedCharacter enigma input_character = some (enigma', out)) := by
  constructor
  · intro enigma' out h
    have hk := feed_key h hpos
    have h0 : (enigma'.walze.get 0).position = enigma.key.step.w0.position :=
      congrArg (fun m : MachineKey => m.w0.position) hk
    have h1 : (enigma'.walze.get 1).position = enigma.key.step.w1.position :=
      congrArg (fun m : MachineKey => m.w1.position) hk
    have h2 : (enigma'.walze.get 2).position = enigma.key.step.w2.position :=
      congrArg (fun m : MachineKey => m.w2.position) hk
    rw [h0, h1, h2]
    simp only [MachineKey.step, EnigmaState.key, WalzeState.key, WheelKey.advance,
      apply_ite WheelKey.position, apply_ite WheelKey.notch, ite_self]
    exact ⟨trivial, trivial, trivial⟩
  · intro hring hch
    obtain ⟨e', he, -⟩ := feed_spec enigma input_character (fun k => ⟨hpos k, hring k⟩) hch
    exact ⟨e', _, he⟩

/-- C7: on a machine whose four kinds of table have all entries in `0..25`
and whose ring settings and positions are in `0..25`, a keystroke with a
letter returns (no array access leaves its array), each of the nine array
indices it used is in `0..25`, and the returned character is a letter. -/
theorem EnigmaFeedCharacter_closed (enigma : EnigmaState) (input_character : Nat)
    (h : enigma.InRange) (hch : IsLetter input_character) :
    ∃ enigma' out, EnigmaFeedCharacter enigma input_character = some (enigma', out) ∧
      enigma'.LookupsInRange ∧ IsLetter out := by
  obtain ⟨hw, -, -, hsr⟩ := h
  obtain ⟨e', he, -⟩ :=
    feed_spec enigma input_character (fun k => ⟨(hw k).2.2.1, (hw k).2.2.2⟩) hch
  refine ⟨e', _, he, feed_lookups he, ?_⟩
  have hlt : enigma.key.step.path (input_character - 65) < 26 :=
    Table.InRange.cell_lt hsr (WheelKey.translate_lt _ _ _)
  unfold toUChar IsLetter
  omega

/-- C3: on a validly configured machine a keystroke with a letter returns
`Plugboard(rev0(rev1(rev2(Reflector(fwd2(fwd1(fwd0(Plugboard(input)))))))))`,
where `fwd_i` and `rev_i` are `WheelFeedCharacter` on wheel `i` of the array
that the stepping pass of this call has produced; the wheels the call leaves
stand at those positions. -/
theorem EnigmaFeedCharacter_signal_path (enigma : EnigmaState) (input_character : Nat)
    (hv : enigma.Valid) (hch : IsLetter input_character) :
    ∃ enigma' s1 f0 f1 f2 s3 r2 r1 r0 s4,
      enigma.steckerboard.read (input_character - 65) = some s1 ∧
      (WheelFeedCharacter ((EnigmaFeedCharacter.rotate enigma.walze).get 0) false s1).map
        Prod.snd = some f0 ∧
      (WheelFeedCharacter ((EnigmaFeedCharacter.rotate enigma.walze).get 1) false f0).map
        Prod.snd = some f1 ∧
      (WheelFeedCharacter ((EnigmaFeedCharacter.rotate enigma.walze).get 2) false f1).map
        Prod.snd = some f2 ∧
      enigma.umkehrwalze.read f2 = some s3 ∧
      (WheelFeedCharacter ((EnigmaFeedCharacter.rotate enigma.walze).get 2) true s3).map
        Prod.snd = some r2 ∧
      (WheelFeedCharacter ((EnigmaFeedCharacter.rotate enigma.walze).get 1) true r2).map
        Prod.snd = some r1 ∧
      (WheelFeedCharacter ((EnigmaFeedCharacter.rotate enigma.walze).get 0) true r1).map
        Prod.snd = some r0 ∧
      enigma.steckerboard.read r0 = some s4 ∧
      EnigmaFeedCharacter enigma input_character = some (enigma', s4 + 65) ∧
      ∀ k : Fin WALZE_COUNT, (enigma'.walze.get k).position =
        ((EnigmaFeedCharacter.rotate enigma.walze).get k).position := by
  have hkv := hv.key
  have hb := hkv.bounded
  obtain ⟨e', he, -, -⟩ := feed_spec enigma input_character
    (EnigmaState.bounded_of_key hb) hch
  have hfr := (feed_frame he).1
  obtain ⟨walze, u, s, sr, flag, dbg⟩ := enigma
  obtain ⟨a, b, c, rfl⟩ := vector3_eq walze
  obtain ⟨a1, b1, c1, hrot, hkey⟩ := rotate_spec a b c u s sr hb.1.1 hb.2.1.1 hb.2.2.1
  have hb1 : (MachineKey.mk a1.key b1.key c1.key u s sr).Bounded := hkey ▸ hb.step_bounded
  have hv1 : (MachineKey.mk a1.key b1.key c1.key u s sr).Valid := hkey ▸ hkv.step_valid
  have hx : input_character - 65 < 26 := by
    unfold IsLetter at hch
    omega
  have tl := WheelKey.translate_lt
  simp only [hrot, get3_0, get3_1, get3_2] at hfr ⊢
  have hpath : (EnigmaState.key ⟨⟨[a, b, c], rfl⟩, u, s, sr, flag, dbg⟩).step.path
      (input_character - 65) = (MachineKey.mk a1.key b1.key c1.key u s sr).path
      (input_character - 65) := by
    rw [hkey]
    rfl
  rw [hpath] at he
  simp only [MachineKey.path] at he
  generalize hs1 : s.cell (input_character - 65) = s1 at he
  generalize hf0 : a1.key.translate false s1 = f0 at he
  generalize hf1 : b1.key.translate false f0 = f1 at he
  generalize hf2 : c1.key.translate false f1 = f2 at he
  generalize hs3 : u.cell f2 = s3 at he
  generalize hr2 : c1.key.translate true s3 = r2 at he
  generalize hr1 : b1.key.translate true r2 = r1 at he
  generalize hr0 : a1.key.translate true r1 = r0 at he
  have hf2lt : f2 < 26 := hf2 ▸ tl _ _ _
  have hr0lt : r0 < 26 := hr0 ▸ tl _ _ _
  have hval : ∀ (w : WalzeState) (d : Bool) (x y : Nat), w.position < 26 →
      w.ringstellung < 26 → w.key.translate d x = y →
      (WheelFeedCharacter w d x).map Prod.snd = some y := by
    intro w d x y hp hr hy
    obtain ⟨w', hw', -⟩ := WheelFeedCharacter_spec w d x hp hr
    rw [hw', hy]
    rfl
  have hs4 : sr.cell r0 = s.cell r0 := hv1.2.2.2.1.reciprocal_eq hv1.2.2.2.2 hr0lt
  have hs4lt : s.cell r0 < 26 := hv1.2.2.2.1.image_lt hr0lt
  refine ⟨e', s1, f0, f1, f2, s3, r2, r1, r0, s.cell r0, ?_, hval _ _ _ _ hb1.1.1 hb1.1.2 hf0,
    hval _ _ _ _ hb1.2.1.1 hb1.2.1.2 hf1, hval _ _ _ _ hb1.2.2.1 hb1.2.2.2 hf2, ?_,
    hval _ _ _ _ hb1.2.2.1 hb1.2.2.2 hr2, hval _ _ _ _ hb1.2.1.1 hb1.2.1.2 hr1,
    hval _ _ _ _ hb1.1.1 hb1.1.2 hr0, Table.read_of_lt _ hr0lt, ?_, ?_⟩
  · rw [← hs1]
    exact Table.read_of_lt _ hx
  · rw [← hs3]
    exact Table.read_of_lt _ hf2lt
  · rw [he, hs4]
    have : toUChar ((s.cell r0 : Nat) + 65) = s.cell r0 + 65 := by
      unfold toUChar
      omega
    rw [this]
  · intro k
    exact congrArg WheelKey.position (hfr k)

/-- C1: on a machine whose wheel wirings are bijections with
`config_reciprocal` their inverses, whose reflector is an involution, whose
plugboard is an involution with `steckerboard_reciprocal` its inverse, and
whose rings and positions are in `0..25`, feeding a sequence `X` of letters
returns a sequence `Y` of letters, and feeding `Y` from the same start state
returns `X`. -/
theorem self_reciprocity (enigma : EnigmaState) (inputs : List Nat)
    (hv : enigma.Valid) (hu : enigma.umkehrwalze.IsInvolution)
    (hin : ∀ c ∈ inputs, IsLetter c) :
    ∃ e1 outputs, feedCharacters enigma inputs = some (e1, outputs) ∧
      (∀ c ∈ outputs, IsLetter c) ∧
      ∃ e2, feedCharacters enigma outputs = some (e2, inputs) := by
  have hkv := hv.key
  have hsr : enigma.steckerboard_reciprocal.InRange := by
    intro i
    have h1 := hv.2.2.1.reciprocal_eq hv.2.2.2 i.isLt
    have h2 := hv.2.2.1.image_lt i.isLt
    rw [← h1, Table.cell_eq_get] at h2
    exact h2
  obtain ⟨e1, h1, -⟩ := feedCharacters_spec inputs enigma hkv.bounded hsr hin
  obtain ⟨hl, hr⟩ := MachineKey.run_involution inputs enigma.key hkv hu hin
  obtain ⟨e2, h2, -⟩ := feedCharacters_spec (enigma.key.run inputs) enigma hkv.bounded hsr hl
  rw [hr] at h2
  exact ⟨e1, _, h1, hl, e2, h2⟩

/-- C8: whatever the notches, a keystroke that returns moves `walze[0]` from
a position `p` in `0..25` to `(p + 1) mod 26`; a run of `n` keystrokes that
returns leaves it at `(p + n) mod 26`, which is `p` for `n = 26` and is not
`p` for `0 < n < 26`.  With rings and positions in `0..25` and letters as
input the run does return. -/
theorem first_wheel_cadence (enigma : EnigmaState) (inputs : List Nat)
    (h0 : (enigma.walze.get 0).position < 26) :
    (∀ c enigma' out, EnigmaFeedCharacter enigma c = some (enigma', out) →
      (enigma'.walze.get 0).position = ((enigma.walze.get 0).position + 1) % 26) ∧
    (∀ enigma' outs, feedCharacters enigma inputs = some (enigma', outs) →
      (enigma'.walze.get 0).position =
        ((enigma.walze.get 0).position + inputs.length) % 26 ∧
      (inputs.length = 26 →
        (enigma'.walze.get 0).position = (enigma.walze.get 0).position) ∧
      (0 < inputs.length → inputs.length < 26 →
        (enigma'.walze.get 0).position ≠ (enigma.walze.get 0).position)) ∧
    ((∀ k : Fin WALZE_COUNT,
        (enigma.walze.get k).position < 26 ∧ (enigma.walze.get k).ringstellung < 26) →
      (∀ c ∈ inputs, IsLetter c) →
      ∃ enigma' outs, feedCharacters enigma inputs = some (enigma', outs)) := by
  refine ⟨fun c e' out h => feed_first_wheel h h0, ?_, ?_⟩
  · intro e' outs h
    have hp := feedCharacters_first_wheel inputs enigma e' outs h0 h
    refine ⟨hp, ?_, ?_⟩
    · intro hlen
      rw [hp, hlen]
      omega
    · intro h1 h2
      rw [hp]
      omega
  · intro hb hin
    exact feedCharacters_total inputs enigma (EnigmaState.key_bounded hb) hin

/-- C9: from positions and notches in `0..25`, among 26 consecutive
keystrokes the call number `((n0 - p0 - 1) mod 26) + 1` (with `p0` the first
wheel's position before the first call and `n0` its notch) moves `walze[1]`
by one step, and each of the other 25 leaves its position unchanged; that
number is between 1 and 26, and it is 16 for `p0 = 0`, `n0 = 16`.  With
rings in `0..25` and letters as input every one of the 26 calls returns. -/
theorem second_wheel_cadence (enigma : EnigmaState) (inputs : List Nat)
    (hpos : ∀ k : Fin WALZE_COUNT, (enigma.walze.get k).position < 26)
    (hnotch : ∀ k : Fin WALZE_COUNT, (enigma.walze.get k).notch < 26)
    (hlen : inputs.length = 26) :
    (∀ k < 26, ∀ ek outs ek1 out,
      feedCharacters enigma (inputs.take k) = some (ek, outs) →
      EnigmaFeedCharacter ek (inputs.getD k 0) = some (ek1, out) →
      (ek1.walze.get 1).position =
        if ((k : Int) + 1 = (((enigma.walze.get 0).notch : Int) -
            (enigma.walze.get 0).position - 1) % 26 + 1) then
          ((ek.walze.get 1).position + 1) % 26
        else (ek.walze.get 1).position) ∧
    (1 ≤ (((enigma.walze.get 0).notch : Int) - (enigma.walze.get 0).position - 1) % 26 + 1 ∧
      (((enigma.walze.get 0).notch : Int) - (enigma.walze.get 0).position - 1) % 26 + 1 ≤ 26) ∧
    ((enigma.walze.get 0).position = 0 → (enigma.walze.get 0).notch = 16 →
      (((enigma.walze.get 0).notch : Int) - (enigma.walze.get 0).position - 1) % 26 + 1 = 16) ∧
    ((∀ k : Fin WALZE_COUNT, (enigma.walze.get k).ringstellung < 26) →
      (∀ c ∈ inputs, IsLetter c) →
      ∀ k < 26, ∃ ek outs ek1 out,
        feedCharacters enigma (inputs.take k) = some (ek, outs) ∧
        EnigmaFeedCharacter ek (inputs.getD k 0) = some (ek1, out)) := by
  refine ⟨?_, by omega, ?_, ?_⟩
  · intro k hk ek outs ek1 out hrun hcall
    have hkey := feedCharacters_key _ _ _ _ hpos hrun
    have hklen : (inputs.take k).length = k := by
      rw [List.length_take, hlen]
      omega
    rw [hklen] at hkey
    have hposk := MachineKey.steps_position_lt k enigma.key (hpos 0) (hpos 1) (hpos 2)
    rw [← hkey] at hposk
    have hposk' : ∀ j : Fin WALZE_COUNT, (ek.walze.get j).position < 26 := by
      intro j
      fin_cases j
      · exact hposk.1
      · exact hposk.2.1
      · exact hposk.2.2
    have hk1 := feed_key hcall hposk'
    obtain ⟨f1, f2⟩ := MachineKey.steps_first k enigma.key (hpos 0)
    rw [← hkey] at f1 f2
    have e1 : (ek1.walze.get 1).position = ek.key.step.w1.position :=
      congrArg (fun m : MachineKey => m.w1.position) hk1
    have g1 : (ek.walze.get 0).position = ((enigma.walze.get 0).position + k) % 26 := f1
    have g2 : (ek.walze.get 0).notch = (enigma.walze.get 0).notch := f2
    have hp0 := hpos 0
    have hn0 := hnotch 0
    rw [e1]
    simp only [MachineKey.step, EnigmaState.key, WalzeState.key, WheelKey.advance,
      apply_ite WheelKey.position, g1, g2]
    split_ifs <;> first | rfl | omega
  · intro h1 h2
    rw [h1, h2]
    decide
  · intro hring hin k hk
    have hb : enigma.key.Bounded :=
      EnigmaState.key_bounded fun j => ⟨hpos j, hring j⟩
    obtain ⟨ek, h1, hkk⟩ : ∃ ek, (∃ outs, feedCharacters enigma (inputs.take k) =
        some (ek, outs)) ∧ ek.key.Bounded := by
      obtain ⟨ek, outs, h⟩ := feedCharacters_total (inputs.take k) enigma hb
        (fun c hc => hin c (List.mem_of_mem_take hc))
      have hkey := feedCharacters_key _ _ _ _ hpos h
      exact ⟨ek, ⟨outs, h⟩, hkey ▸ hb.steps_bounded _⟩
    obtain ⟨outs, h1⟩ := h1
    have hc : IsLetter (inputs.getD k 0) := by
      apply hin
      rw [List.getD_eq_getElem _ _ (by omega)]
      exact List.getElem_mem _
    obtain ⟨ek1, h2, -⟩ := feed_spec ek (inputs.getD k 0) (EnigmaState.bounded_of_key hkk) hc
    exact ⟨ek, outs, ek1, _, h1, h2⟩

/-- C10: for an input array that is a bijection on `0..25`,
`GenerateReciprocalArray` returns an array `result` with
`result[input[x]] = x` for every `x`; it is the only such array, it is a
bijection on `0..25`, it satisfies `input[result[y]] = y` for every `y`, and
it does not depend on what the output array held before. -/
theorem GenerateReciprocalArray_inverse (input_array output_array : Table)
    (h : input_array.IsBijection) :
    ∃ result, GenerateReciprocalArray input_array output_array = some result ∧
      result.IsInverseOf input_array ∧
      (∀ other : Table, other.IsInverseOf input_array → other = result) ∧
      result.IsBijection ∧ input_array.IsInverseOf result ∧
      ∀ previous : Table, GenerateReciprocalArray input_array previous = some result := by
  obtain ⟨res, hres, hinv, -⟩ :=
    GenerateReciprocalArray.loop_spec input_array h 26 0 output_array rfl
  have hI : res.IsInverseOf input_array :=
    Table.IsInverseOf.of_cell h.1 fun i => hinv i (Nat.zero_le _)
  have huniq : ∀ other : Table, other.IsInverseOf input_array → other = res := by
    intro other ho
    apply Mathlib.Vector.ext
    intro y
    obtain ⟨-, hy⟩ := hI.right y.isLt
    rw [← Table.cell_eq_get, ← Table.cell_eq_get]
    have h1 := ho.left (hI.right y.isLt).1
    rw [hy] at h1
    exact h1
  have hrange : res.InRange := by
    intro y
    rw [← Table.cell_eq_get]
    exact (hI.right y.isLt).1
  refine ⟨res, hres, hI, huniq, ⟨hrange, ?_⟩, ?_, ?_⟩
  · intro y1 y2 e
    have e' : res.cell y1.val = res.cell y2.val := by
      rw [Table.cell_eq_get, Table.cell_eq_get]
      exact e
    have h1 := (hI.right y1.isLt).2
    have h2 := (hI.right y2.isLt).2
    rw [e'] at h1
    exact Fin.ext (h1.symm.trans h2)
  · exact Table.IsInverseOf.of_cell hrange fun y => (hI.right y.isLt).2
  · intro previous
    obtain ⟨res2, hres2, hinv2, -⟩ :=
      GenerateReciprocalArray.loop_spec input_array h 26 0 previous rfl
    have hI2 : res2.IsInverseOf input_array :=
      Table.IsInverseOf.of_cell h.1 fun i => hinv2 i (Nat.zero_le _)
    rw [← huniq res2 hI2]
    exact hres2

/-- Witness for C5: rotor I at position and ring `A`, forward, input `5`. -/
theorem WheelFeedCharacter_formula_witness :
    ((defaultMachine.walze.get 2).position < 26 ∧
      (defaultMachine.walze.get 2).ringstellung < 26 ∧
      (defaultMachine.walze.get 2).config.InRange ∧
      (defaultMachine.walze.get 2).config_reciprocal.InRange ∧ 5 < 26) ∧
    ∃ walze' wired,
      (if false then (defaultMachine.walze.get 2).config_reciprocal
        else (defaultMachine.walze.get 2).config).read
        ((((5 : Nat) : Int) + (defaultMachine.walze.get 2).position -
          (defaultMachine.walze.get 2).ringstellung + 26) % 26).toNat = some wired ∧
      wired < 26 ∧
      WheelFeedCharacter (defaultMachine.walze.get 2) false 5 =
        some (walze',
          (((wired : Int) - (defaultMachine.walze.get 2).position +
            (defaultMachine.walze.get 2).ringstellung + 26) % 26).toNat) ∧
      0 ≤ 26 + ((5 : Nat) : Int) + (defaultMachine.walze.get 2).position -
        (defaultMachine.walze.get 2).ringstellung ∧
      0 ≤ 26 + (wired : Int) - (defaultMachine.walze.get 2).position +
        (defaultMachine.walze.get 2).ringstellung ∧
      (if false then walze'.last_character_debug.reciprocal
        else walze'.last_character_debug.forward) =
        ⟨5, ((((5 : Nat) : Int) + (defaultMachine.walze.get 2).position -
          (defaultMachine.walze.get 2).ringstellung + 26) % 26).toNat, wired,
          (((wired : Int) - (defaultMachine.walze.get 2).position +
            (defaultMachine.walze.get 2).ringstellung + 26) % 26).toNat⟩ :=
  ⟨⟨by decide, by decide, by decide, by decide, by decide⟩,
    WheelFeedCharacter_formula (defaultMachine.walze.get 2) false 5 (by decide) (by decide)
      (by decide) (by decide) (by decide)⟩

/-- Witness for C1: the default machine and the letters `HELLO`. -/
theorem self_reciprocity_witness :
    (defaultMachine.Valid ∧ defaultMachine.umkehrwalze.IsInvolution ∧
      ∀ c ∈ [72, 69, 76, 76, 79], IsLetter c) ∧
    ∃ e1 outputs, feedCharacters defaultMachine [72, 69, 76, 76, 79] = some (e1, outputs) ∧
      (∀ c ∈ outputs, IsLetter c) ∧
      ∃ e2, feedCharacters defaultMachine outputs = some (e2, [72, 69, 76, 76, 79]) :=
  ⟨⟨defaultMachine_valid.1, defaultMachine_valid.2, by decide⟩,
    self_reciprocity defaultMachine [72, 69, 76, 76, 79] defaultMachine_valid.1
      defaultMachine_valid.2 (by decide)⟩

/-- Witness for C3: the default machine and the letter `A`. -/
theorem EnigmaFeedCharacter_signal_path_witness :
    (defaultMachine.Valid ∧ IsLetter 65) ∧
    ∃ enigma' s1 f0 f1 f2 s3 r2 r1 r0 s4,
      defaultMachine.steckerboard.read (65 - 65) = some s1 ∧
      (WheelFeedCharacter ((EnigmaFeedCharacter.rotate defaultMachine.walze).get 0) false
        s1).map Prod.snd = some f0 ∧
      (WheelFeedCharacter ((EnigmaFeedCharacter.rotate defaultMachine.walze).get 1) false
        f0).map Prod.snd = some f1 ∧
      (WheelFeedCharacter ((EnigmaFeedCharacter.rotate defaultMachine.walze).get 2) false
        f1).map Prod.snd = some f2 ∧
      defaultMachine.umkehrwalze.read f2 = some s3 ∧
      (WheelFeedCharacter ((EnigmaFeedCharacter.rotate defaultMachine.walze).get 2) true
        s3).map Prod.snd = some r2 ∧
      (WheelFeedCharacter ((EnigmaFeedCharacter.rotate defaultMachine.walze).get 1) true
        r2).map Prod.snd = some r1 ∧
      (WheelFeedCharacter ((EnigmaFeedCharacter.rotate defaultMachine.walze).get 0) true
        r1).map Prod.snd = some r0 ∧
      defaultMachine.steckerboard.read r0 = some s4 ∧
      EnigmaFeedCharacter defaultMachine 65 = some (enigma', s4 + 65) ∧
      ∀ k : Fin WALZE_COUNT, (enigma'.walze.get k).position =
        ((EnigmaFeedCharacter.rotate defaultMachine.walze).get k).position :=
  ⟨⟨defaultMachine_valid.1, by decide⟩,
    EnigmaFeedCharacter_signal_path defaultMachine 65 defaultMachine_valid.1 (by decide)⟩

/-- Witness for C4: the default machine and the letter `A`. -/
theorem EnigmaFeedCharacter_stepping_witness :
    (∀ k : Fin WALZE_COUNT, (defaultMachine.walze.get k).position < 26) ∧
    ((∀ enigma' out, EnigmaFeedCharacter defaultMachine 65 = some (enigma', out) →
      (enigma'.walze.get 0).position = ((defaultMachine.walze.get 0).position + 1) % 26 ∧
      (enigma'.walze.get 1).position =
        (if (enigma'.walze.get 0).position = (defaultMachine.walze.get 0).notch then
          ((defaultMachine.walze.get 1).position + 1) % 26
        else (defaultMachine.walze.get 1).position) ∧
      (enigma'.walze.get 2).position =
        (if (enigma'.walze.get 1).position = (defaultMachine.walze.get 1).notch then
          ((defaultMachine.walze.get 2).position + 1) % 26
        else (defaultMachine.walze.get 2).position)) ∧
    ((∀ k : Fin WALZE_COUNT, (defaultMachine.walze.get k).ringstellung < 26) →
      IsLetter 65 →
      ∃ enigma' out, EnigmaFeedCharacter defaultMachine 65 = some (enigma', out))) :=
  ⟨by decide, EnigmaFeedCharacter_stepping defaultMachine 65 (by decide)⟩

/-- Witness for C7: the default machine and the letter `A`. -/
theorem EnigmaFeedCharacter_closed_witness :
    (defaultMachine.InRange ∧ IsLetter 65) ∧
    ∃ enigma' out, EnigmaFeedCharacter defaultMachine 65 = some (enigma', out) ∧
      enigma'.LookupsInRange ∧ IsLetter out :=
  ⟨⟨defaultMachine_inRange, by decide⟩,
    EnigmaFeedCharacter_closed defaultMachine 65 defaultMachine_inRange (by decide)⟩

/-- Witness for C8: the default machine and the letters `AB`. -/
theorem first_wheel_cadence_witness :
    (defaultMachine.walze.get 0).position < 26 ∧
    ((∀ c enigma' out, EnigmaFeedCharacter defaultMachine c = some (enigma', out) →
      (enigma'.walze.get 0).position = ((defaultMachine.walze.get 0).position + 1) % 26) ∧
    (∀ enigma' outs, feedCharacters defaultMachine [65, 66] = some (enigma', outs) →
      (enigma'.walze.get 0).position =
        ((defaultMachine.walze.get 0).position + [65, 66].length) % 26 ∧
      ([65, 66].length = 26 →
        (enigma'.walze.get 0).position = (defaultMachine.walze.get 0).position) ∧
      (0 < [65, 66].length → [65, 66].length < 26 →
        (enigma'.walze.get 0).position ≠ (defaultMachine.walze.get 0).position)) ∧
    ((∀ k : Fin WALZE_COUNT,
        (defaultMachine.walze.get k).position < 26 ∧
          (defaultMachine.walze.get k).ringstellung < 26) →
      (∀ c ∈ [65, 66], IsLetter c) →
      ∃ enigma' outs, feedCharacters defaultMachine [65, 66] = some (enigma', outs))) :=
  ⟨by decide, first_wheel_cadence defaultMachine [65, 66] (by decide)⟩

/-- Witness for C9: the default machine and 26 letters `A`. -/
theorem second_wheel_cadence_witness :
    ((∀ k : Fin WALZE_COUNT, (defaultMachine.walze.get k).position < 26) ∧
      (∀ k : Fin WALZE_COUNT, (defaultMachine.walze.get k).notch < 26) ∧
      (List.replicate 26 65).length = 26) ∧
    ((∀ k < 26, ∀ ek outs ek1 out,
      feedCharacters defaultMachine ((List.replicate 26 65).take k) = some (ek, outs) →
      EnigmaFeedCharacter ek ((List.replicate 26 65).getD k 0) = some (ek1, out) →
      (ek1.walze.get 1).position =
        if ((k : Int) + 1 = (((defaultMachine.walze.get 0).notch : Int) -
            (defaultMachine.walze.get 0).position - 1) % 26 + 1) then
          ((ek.walze.get 1).position + 1) % 26
        else (ek.walze.get 1).position) ∧
    (1 ≤ (((defaultMachine.walze.get 0).notch : Int) -
        (defaultMachine.walze.get 0).position - 1) % 26 + 1 ∧
      (((defaultMachine.walze.get 0).notch : Int) -
        (defaultMachine.walze.get 0).position - 1) % 26 + 1 ≤ 26) ∧
    ((defaultMachine.walze.get 0).position = 0 → (defaultMachine.walze.get 0).notch = 16 →
      (((defaultMachine.walze.get 0).notch : Int) -
        (defaultMachine.walze.get 0).position - 1) % 26 + 1 = 16) ∧
    ((∀ k : Fin WALZE_COUNT, (defaultMachine.walze.get k).ringstellung < 26) →
      (∀ c ∈ List.replicate 26 65, IsLetter c) →
      ∀ k < 26, ∃ ek outs ek1 out,
        feedCharacters defaultMachine ((List.replicate 26 65).take k) = some (ek, outs) ∧
        EnigmaFeedCharacter ek ((List.replicate 26 65).getD k 0) = some (ek1, out))) :=
  ⟨⟨by decide, by decide, by decide⟩,
    second_wheel_cadence defaultMachine (List.replicate 26 65) (by decide) (by decide)
      (by decide)⟩

/-- Witness for C10: the wiring of rotor I, written over the zero array. -/
theorem GenerateReciprocalArray_inverse_witness :
    (defaultMachine.walze.get 2).config.IsBijection ∧
    ∃ result, GenerateReciprocalArray (defaultMachine.walze.get 2).config Table.zero =
        some result ∧
      result.IsInverseOf (defaultMachine.walze.get 2).config ∧
      (∀ other : Table, other.IsInverseOf (defaultMachine.walze.get 2).config →
        other = result) ∧
      result.IsBijection ∧ (defaultMachine.walze.get 2).config.IsInverseOf result ∧
      ∀ previous : Table,
        GenerateReciprocalArray (defaultMachine.walze.get 2).config previous = some result :=
  ⟨by decide,
    GenerateReciprocalArray_inverse (defaultMachine.walze.get 2).config Table.zero (by decide)⟩

/-- C15: a keystroke that returns leaves every wheel's `config`,
`config_reciprocal`, `notch` and `ringstellung`, the `umkehrwalze`,
`steckerboard` and `steckerboard_reciprocal` tables and
`enable_debug_output` as they were; what is left to change are the wheel
positions and the `last_character_debug` snapshots.  With rings and
positions in `0..25` and a letter as input the keystroke does return. -/
theorem keystroke_frame (enigma : EnigmaState) (input_character : Nat) :
    (∀ enigma' out, EnigmaFeedCharacter enigma input_character = some (enigma', out) →
      (∀ k : Fin WALZE_COUNT,
        (enigma'.walze.get k).config = (enigma.walze.get k).config ∧
        (enigma'.walze.get k).config_reciprocal = (enigma.walze.get k).config_reciprocal ∧
        (enigma'.walze.get k).notch = (enigma.walze.get k).notch ∧
        (enigma'.walze.get k).ringstellung = (enigma.walze.get k).ringstellung) ∧
      enigma'.umkehrwalze = enigma.umkehrwalze ∧
      enigma'.steckerboard = enigma.steckerboard ∧
      enigma'.steckerboard_reciprocal = enigma.steckerboard_reciprocal ∧
      enigma'.enable_debug_output = enigma.enable_debug_output) ∧
    ((∀ k : Fin WALZE_COUNT,
        (enigma.walze.get k).position < 26 ∧ (enigma.walze.get k).ringstellung < 26) →
      IsLetter input_character →
      ∃ enigma' out, EnigmaFeedCharacter enigma input_character = some (enigma', out)) := by
  constructor
  · intro enigma' out h
    obtain ⟨hk, hu, hs, hsr, hflag⟩ := feed_frame h
    refine ⟨fun k => ?_, hu, hs, hsr, hflag⟩
    obtain ⟨r1, r2, r3, r4⟩ := rotate_frame enigma.walze k
    have e := hk k
    exact ⟨(congrArg WheelKey.config e).trans r1,
      (congrArg WheelKey.config_reciprocal e).trans r2,
      (congrArg WheelKey.notch e).trans r3, (congrArg WheelKey.ringstellung e).trans r4⟩
  · intro hb hch
    obtain ⟨e', he, -⟩ := feed_spec enigma input_character hb hch
    exact ⟨e', _, he⟩

/-- Witness for C15: the default machine and the letter `A`. -/
theorem keystroke_frame_witness :
    ∃ enigma' out, EnigmaFeedCharacter defaultMachine 65 = some (enigma', out) :=
  (keystroke_frame defaultMachine 65).2 (by decide) (by decide)

/-- C11: from positions in `0..25`, every keystroke that returns and every
run of keystrokes that returns leaves all wheel positions in `0..25`;
`WheelSetPosition` with a letter sets a position in `0..25`.  With rings in
`0..25` and letters as input every run returns. -/
theorem position_invariant (enigma : EnigmaState)
    (hpos : ∀ k : Fin WALZE_COUNT, (enigma.walze.get k).position < 26) :
    (∀ c enigma' out, EnigmaFeedCharacter enigma c = some (enigma', out) →
      ∀ k : Fin WALZE_COUNT, (enigma'.walze.get k).position < 26) ∧
    (∀ inputs enigma' outs, feedCharacters enigma inputs = some (enigma', outs) →
      ∀ k : Fin WALZE_COUNT, (enigma'.walze.get k).position < 26) ∧
    (∀ (walze : WalzeState) (start_position : Nat), IsLetter start_position →
      (WheelSetPosition walze start_position).position < 26) ∧
    ((∀ k : Fin WALZE_COUNT, (enigma.walze.get k).ringstellung < 26) →
      ∀ inputs, (∀ c ∈ inputs, IsLetter c) →
      ∃ enigma' outs, feedCharacters enigma inputs = some (enigma', outs)) := by
  have hrun : ∀ inputs enigma' outs, feedCharacters enigma inputs = some (enigma', outs) →
      ∀ k : Fin WALZE_COUNT, (enigma'.walze.get k).position < 26 := by
    intro inputs e' outs h k
    have hk := feedCharacters_key inputs enigma e' outs hpos h
    have hlt := MachineKey.steps_position_lt inputs.length enigma.key (hpos 0) (hpos 1) (hpos 2)
    rw [← hk] at hlt
    fin_cases k
    · exact hlt.1
    · exact hlt.2.1
    · exact hlt.2.2
  refine ⟨?_, hrun, ?_, ?_⟩
  · intro c e' out h
    apply hrun [c] e' [out]
    simp only [feedCharacters, h]
  · intro walze c hc
    show toUChar ((c : Int) - 65) < 26
    unfold toUChar IsLetter at *
    omega
  · intro hring inputs hin
    exact feedCharacters_total inputs enigma
      (EnigmaState.key_bounded fun k => ⟨hpos k, hring k⟩) hin

/-- Witness for C11: the default machine. -/
theorem position_invariant_witness :
    (∀ k : Fin WALZE_COUNT, (defaultMachine.walze.get k).position < 26) ∧
    ∀ inputs enigma' outs, feedCharacters defaultMachine inputs = some (enigma', outs) →
      ∀ k : Fin WALZE_COUNT, (enigma'.walze.get k).position < 26 :=
  ⟨by decide, (position_invariant defaultMachine (by decide)).2.1⟩

/-- Counterexample to C17: from position 1, `steps = 4294967295` makes the
`unsigned int` sum wrap to 0, so `WheelRotate` leaves position 0, while
`(1 + 4294967295) mod 26` is 22. -/
theorem WheelRotate_wraps :
    ({ defaultMachine.walze.get 0 with position := 1 } : WalzeState).position < 26 ∧
    4294967295 < 2 ^ 32 ∧
    (WheelRotate { defaultMachine.walze.get 0 with position := 1 } 4294967295).position = 0 ∧
    (1 + 4294967295) % 26 = 22 ∧
    (WheelRotate { defaultMachine.walze.get 0 with position := 1 } 4294967295).position ≠
      (({ defaultMachine.walze.get 0 with position := 1 } : WalzeState).position +
        4294967295) % 26 := by
  decide

/-- C17 as amended: for a position in `0..25` and a step count below `2 ^ 32`,
`WheelRotate` leaves a position in `0..25`, which is `(position + steps) mod 26`
when `position + steps` is below `2 ^ 32` and `(position + steps - 2 ^ 32) mod 26`
when it is not: the sum is taken modulo `2 ^ 32` before the remainder. -/
theorem WheelRotate_position (walze : WalzeState) (steps : Nat)
    (hpos : walze.position < 26) (hsteps : steps < 2 ^ 32) :
    (WheelRotate walze steps).position < 26 ∧
    (walze.position + steps < 2 ^ 32 →
      (WheelRotate walze steps).position = (walze.position + steps) % 26) ∧
    (2 ^ 32 ≤ walze.position + steps →
      (WheelRotate walze steps).position = (walze.position + steps - 2 ^ 32) % 26) := by
  have h : (WheelRotate walze steps).position = (walze.position + steps) % 2 ^ 32 % 26 := by
    show toUChar (((walze.position + steps) % 2 ^ 32 % 26 : Nat) : Int) = _
    exact toUChar_natCast (by omega)
  have h32 : (2 : Nat) ^ 32 = 4294967296 := by norm_num
  rw [h32] at hsteps ⊢
  rw [h, h32]
  omega

/-- Witness for the amended C17: position 3, seven steps. -/
theorem WheelRotate_position_witness :
    (({ defaultMachine.walze.get 0 with position := 3 } : WalzeState).position < 26 ∧
      7 < 2 ^ 32) ∧
    (WheelRotate { defaultMachine.walze.get 0 with position := 3 } 7).position < 26 ∧
    (({ defaultMachine.walze.get 0 with position := 3 } : WalzeState).position + 7 < 2 ^ 32 →
      (WheelRotate { defaultMachine.walze.get 0 with position := 3 } 7).position =
        (({ defaultMachine.walze.get 0 with position := 3 } : WalzeState).position + 7) %
          26) ∧
    (2 ^ 32 ≤ ({ defaultMachine.walze.get 0 with position := 3 } : WalzeState).position + 7 →
      (WheelRotate { defaultMachine.walze.get 0 with position := 3 } 7).position =
        (({ defaultMachine.walze.get 0 with position := 3 } : WalzeState).position + 7 -
          2 ^ 32) % 26) :=
  ⟨⟨by decide, by decide⟩,
    WheelRotate_position { defaultMachine.walze.get 0 with position := 3 } 7 (by decide)
      (by decide)⟩

set_option maxRecDepth 100000 in
/-- C18: the machine that `main` has built when no option is given has
rotors III, II, I in `walze[0..2]`, rings and positions `A`, reflector B and
the identity plugboard, and the command line `-r 123 -rs AAA -sp AAA -rf B`
leaves the same machine, field for field. -/
theorem documented_defaults :
    configure [cstr "./Enigma"] = some defaultMachine ∧
    configure [cstr "./Enigma", cstr "-r", cstr "123", cstr "-rs", cstr "AAA",
      cstr "-sp", cstr "AAA", cstr "-rf", cstr "B"] = some defaultMachine ∧
    defaultMachine.letters =
      ([(walze_III_config, walze_III_notch, Char.toNat 'A', Char.toNat 'A'),
          (walze_II_config, walze_II_notch, Char.toNat 'A', Char.toNat 'A'),
          (walze_I_config, walze_I_notch, Char.toNat 'A', Char.toNat 'A')],
        umkehrwalze_B_config, cstr "ABCDEFGHIJKLMNOPQRSTUVWXYZ") := by
  decide!

/-- C20: from positions and notches in `0..25`, a run of 676 keystrokes that
returns leaves all three wheel positions at their starting values.  With
rings in `0..25` and letters as input the run does return. -/
theorem state_period (enigma : EnigmaState) (inputs : List Nat)
    (hpos : ∀ k : Fin WALZE_COUNT, (enigma.walze.get k).position < 26)
    (hnotch : ∀ k : Fin WALZE_COUNT, (enigma.walze.get k).notch < 26)
    (hlen : inputs.length = 676) :
    (∀ enigma' outs, feedCharacters enigma inputs = some (enigma', outs) →
      ∀ k : Fin WALZE_COUNT,
        (enigma'.walze.get k).position = (enigma.walze.get k).position) ∧
    ((∀ k : Fin WALZE_COUNT, (enigma.walze.get k).ringstellung < 26) →
      (∀ c ∈ inputs, IsLetter c) →
      ∃ enigma' outs, feedCharacters enigma inputs = some (enigma', outs)) := by
  constructor
  · intro e' outs h k
    have hk := feedCharacters_key inputs enigma e' outs hpos h
    rw [hlen] at hk
    have hp := MachineKey.steps_period enigma.key (hpos 0) (hpos 1) (hpos 2)
      (hnotch 0) (hnotch 1)
    rw [← hk] at hp
    fin_cases k
    · exact hp.1
    · exact hp.2.1
    · exact hp.2.2
  · intro hring hin
    exact feedCharacters_total inputs enigma
      (EnigmaState.key_bounded fun k => ⟨hpos k, hring k⟩) hin

/-- Witness for C20: the default machine and 676 letters `A`. -/
theorem state_period_witness :
    ((∀ k : Fin WALZE_COUNT, (defaultMachine.walze.get k).position < 26) ∧
      (∀ k : Fin WALZE_COUNT, (defaultMachine.walze.get k).notch < 26) ∧
      (List.replicate 676 65).length = 676) ∧
    ((∀ enigma' outs, feedCharacters defaultMachine (List.replicate 676 65) =
        some (enigma', outs) →
      ∀ k : Fin WALZE_COUNT,
        (enigma'.walze.get k).position = (defaultMachine.walze.get k).position) ∧
    ((∀ k : Fin WALZE_COUNT, (defaultMachine.walze.get k).ringstellung < 26) →
      (∀ c ∈ List.replicate 676 65, IsLetter c) →
      ∃ enigma' outs, feedCharacters defaultMachine (List.replicate 676 65) =
        some (enigma', outs))) :=
  ⟨⟨by decide, by decide, List.length_replicate _ _⟩,
    state_period defaultMachine (List.replicate 676 65) (by decide) (by decide)
      (List.length_replicate _ _)⟩

/-- C19: on a machine whose wheel wirings are bijections with
`config_reciprocal` their inverses, whose plugboard is a bijection with
`steckerboard_reciprocal` its inverse, whose reflector has entries in `0..25`
and no fixed point, and whose rings and positions are in `0..25`, a keystroke
with a letter returns a character different from that letter. -/
theorem no_letter_to_itself (enigma : EnigmaState) (input_character : Nat)
    (hw : ∀ k : Fin WALZE_COUNT, (enigma.walze.get k).Valid)
    (hs : enigma.steckerboard.IsBijection)
    (hsr : enigma.steckerboard_reciprocal.IsInverseOf enigma.steckerboard)
    (hu : enigma.umkehrwalze.InRange)
    (hfix : ∀ i : Fin 26, enigma.umkehrwalze.get i ≠ i.val)
    (hch : IsLetter input_character) :
    ∃ enigma' out, EnigmaFeedCharacter enigma input_character = some (enigma', out) ∧
      IsLetter out ∧ out ≠ input_character := by
  have _ := hs
  obtain ⟨e', he, -⟩ := feed_spec enigma input_character
    (fun k => ⟨(hw k).2.2.1, (hw k).2.2.2⟩) hch
  have hx : input_character - 65 < 26 := by
    unfold IsLetter at hch
    omega
  obtain ⟨v0, v1, v2⟩ := MachineKey.step_wheels_valid enigma.key
    ⟨(hw 0).2.1, (hw 0).2.2⟩ ⟨(hw 1).2.1, (hw 1).2.2⟩ ⟨(hw 2).2.1, (hw 2).2.2⟩
  obtain ⟨hlt, hne⟩ :=
    MachineKey.path_ne enigma.key.step v0 v1 v2 hsr hu hfix (input_character - 65)
  refine ⟨e', _, he, ?_, ?_⟩ <;>
  · unfold toUChar IsLetter at *
    omega

/-- Witness for C19: the default machine and the letter `A`. -/
theorem no_letter_to_itself_witness :
    ((∀ k : Fin WALZE_COUNT, (defaultMachine.walze.get k).Valid) ∧
      defaultMachine.steckerboard.IsBijection ∧
      defaultMachine.steckerboard_reciprocal.IsInverseOf defaultMachine.steckerboard ∧
      defaultMachine.umkehrwalze.InRange ∧
      (∀ i : Fin 26, defaultMachine.umkehrwalze.get i ≠ i.val) ∧ IsLetter 65) ∧
    ∃ enigma' out, EnigmaFeedCharacter defaultMachine 65 = some (enigma', out) ∧
      IsLetter out ∧ out ≠ 65 :=
  ⟨⟨by decide, by decide, by decide, by decide, by decide, by decide⟩,
    no_letter_to_itself defaultMachine 65 (by decide) (by decide) (by decide) (by decide)
      (by decide) (by decide)⟩

/-- C16: each of the five rotor wiring strings and of the two reflector
strings is loaded, whatever the array held before, as the table of its
characters minus `'A'`, and that table is a bijection on `0..25`; each of the
two reflector tables is moreover an involution without a fixed point. -/
theorem builtin_tables :
    (∀ s ∈ [walze_I_config, walze_II_config, walze_III_config, walze_IV_config,
        walze_V_config, umkehrwalze_A_config, umkehrwalze_B_config],
      (∀ table : Table, loadTable s 26 0 table = some (tableOf s)) ∧
        (tableOf s).IsBijection) ∧
    (∀ s ∈ [umkehrwalze_A_config, umkehrwalze_B_config],
      (tableOf s).IsInvolution ∧ ∀ i : Fin 26, (tableOf s).get i ≠ i.val) :=
  ⟨fun s hs => ⟨loadTable_eq s (builtin_bijections s hs).1, (builtin_bijections s hs).2⟩,
    builtin_reflectors⟩

/-- C12. Plugboard construction: for every list of pairwise disjoint pairs
of letters `'A'..'Z'` (no pair at all included), the pairing loop of the `-s`
branch, run on the string of the pairs from the identity alphabet, returns a
table that `EnigmaSetSteckerboard` installs; when there is a pair this is the
machine that the `-s` / `--steckerboard` round of `ProcessCmdLineArguments`
returns.  In the installed plugboard each paired letter reads its partner,
every unpaired letter reads itself (all 26 when there is no pair), the table
is an involution, and `steckerboard_reciprocal` equals `steckerboard`.  The
default that `main` installs is the identity with these properties. -/
theorem plugboard_construction (pairs : List (Nat × Nat)) (enigma : EnigmaState)
    (hletters : ∀ p ∈ pairs, IsLetter p.1 ∧ IsLetter p.2)
    (hdisj : PairsDisjoint pairs) :
    (∃ steckerboard enigma',
      steckerLoop (pairString pairs) alphabet = Outcome.returned steckerboard ∧
      EnigmaSetSteckerboard enigma steckerboard = some enigma' ∧
      (pairs ≠ [] → ∀ option, option = cstr "-s" ∨ option = cstr "--steckerboard" →
        ProcessCmdLineArguments.valued option (pairString pairs) enigma =
          Outcome.returned enigma') ∧
      (∀ p ∈ pairs, enigma'.steckerboard.read (p.1 - 65) = some (p.2 - 65) ∧
        enigma'.steckerboard.read (p.2 - 65) = some (p.1 - 65)) ∧
      (∀ x < 26, (∀ p ∈ pairs, x + 65 ≠ p.1 ∧ x + 65 ≠ p.2) →
        enigma'.steckerboard.read x = some x) ∧
      (pairs = [] → ∀ x < 26, enigma'.steckerboard.read x = some x) ∧
      enigma'.steckerboard.IsInvolution ∧
      enigma'.steckerboard_reciprocal = enigma'.steckerboard) ∧
    (∃ enigma0, main.defaults = some enigma0 ∧
      (∀ x < 26, enigma0.steckerboard.read x = some x) ∧
      enigma0.steckerboard.IsInvolution ∧
      enigma0.steckerboard_reciprocal = enigma0.steckerboard) := by
  have hl : ∀ p ∈ pairsOf (pairString pairs), IsLetter p.1 ∧ IsLetter p.2 := by
    rw [pairsOf_pairString]; exact hletters
  have hd : PairsDisjoint (pairsOf (pairString pairs)) := by
    rw [pairsOf_pairString]; exact hdisj
  constructor
  · obtain ⟨sb, h1, h2, h3, h4, h5⟩ := stecker_install (pairString pairs) enigma hl hd
    rw [pairsOf_pairString] at h3 h4
    refine ⟨sb, _, h1, h2, ?_, h3, h4, ?_, h5, rfl⟩
    · intro hne option hopt
      have hshape : ((pairString pairs).length + 1) % 3 = 0 := by
        have := pairString_length pairs hne
        omega
      obtain ⟨sb', g1, _, g3, _⟩ := stecker_round option (pairString pairs) enigma hopt hshape hl hd
      rw [h1] at g1
      rw [g3, ← Outcome.returned.inj g1]
    · intro hnil x hx
      exact h4 x hx (fun p hp => by rw [hnil] at hp; exact absurd hp (List.not_mem_nil p))
  · refine ⟨defaultMachine, defaults_eq, ?_, ?_, ?_⟩
    · decide
    · decide
    · decide

/-- Witness for `plugboard_construction`: the pairs `AB` and `CD` on the
default machine. -/
theorem plugboard_construction_witness :
    (∀ p ∈ [(65, 66), (67, 68)], IsLetter p.1 ∧ IsLetter p.2) ∧
    PairsDisjoint [(65, 66), (67, 68)] ∧
    pairString [(65, 66), (67, 68)] = cstr "AB,CD" ∧
    ∃ steckerboard enigma',
      steckerLoop (pairString [(65, 66), (67, 68)]) alphabet = Outcome.returned steckerboard ∧
      EnigmaSetSteckerboard defaultMachine steckerboard = some enigma' ∧
      (([(65, 66), (67, 68)] : List (Nat × Nat)) ≠ [] →
        ∀ option, option = cstr "-s" ∨ option = cstr "--steckerboard" →
        ProcessCmdLineArguments.valued option (pairString [(65, 66), (67, 68)]) defaultMachine =
          Outcome.returned enigma') ∧
      (∀ p ∈ [(65, 66), (67, 68)], enigma'.steckerboard.read (p.1 - 65) = some (p.2 - 65) ∧
        enigma'.steckerboard.read (p.2 - 65) = some (p.1 - 65)) ∧
      (∀ x < 26, (∀ p ∈ [(65, 66), (67, 68)], x + 65 ≠ p.1 ∧ x + 65 ≠ p.2) →
        enigma'.steckerboard.read x = some x) ∧
      (([(65, 66), (67, 68)] : List (Nat × Nat)) = [] →
        ∀ x < 26, enigma'.steckerboard.read x = some x) ∧
      enigma'.steckerboard.IsInvolution ∧
      enigma'.steckerboard_reciprocal = enigma'.steckerboard :=
  ⟨by decide, by decide, by decide,
    (plugboard_construction [(65, 66), (67, 68)] defaultMachine (by decide) (by decide)).1⟩

set_option maxRecDepth 100000 in
/-- Counterexample to C13: the pairing string `"AB,AC"` uses the letter `A`
in two pairs.  The `-s` round does not reject it, and the machine it returns
has the plugboard `2, 0, 0, 3, 4, ..., 25`, in which cells 1 and 2 both hold
0 and no cell holds 1: not a bijection, and not its own inverse.  The
reciprocal that `GenerateReciprocalArray` leaves differs from it (cell 1
keeps the 1 of the earlier identity).  `main` goes on to encipher with that
machine, and the keystrokes `B` and `C` come out as the same letter. -/
theorem steckerboard_not_validated :
    ProcessCmdLineArguments.valued (cstr "-s") (cstr "AB,AC") defaultMachine =
      Outcome.returned
        { defaultMachine with
          steckerboard :=
            ⟨[2, 0, 0, 3, 4, 5, 6, 7, 8, 9, 10, 11, 12, 13, 14, 15, 16, 17, 18, 19, 20, 21, 22,
              23, 24, 25], rfl⟩
          steckerboard_reciprocal :=
            ⟨[2, 1, 0, 3, 4, 5, 6, 7, 8, 9, 10, 11, 12, 13, 14, 15, 16, 17, 18, 19, 20, 21, 22,
              23, 24, 25], rfl⟩ } ∧
    ¬ Table.IsBijection
        ⟨[2, 0, 0, 3, 4, 5, 6, 7, 8, 9, 10, 11, 12, 13, 14, 15, 16, 17, 18, 19, 20, 21, 22,
          23, 24, 25], rfl⟩ ∧
    ¬ Table.IsInvolution
        ⟨[2, 0, 0, 3, 4, 5, 6, 7, 8, 9, 10, 11, 12, 13, 14, 15, 16, 17, 18, 19, 20, 21, 22,
          23, 24, 25], rfl⟩ ∧
    runOutput [cstr "./Enigma", cstr "-s", cstr "AB,AC"] (cstr "B") ≠ none ∧
    runOutput [cstr "./Enigma", cstr "-s", cstr "AB,AC"] (cstr "B") =
      runOutput [cstr "./Enigma", cstr "-s", cstr "AB,AC"] (cstr "C") := by
  refine ⟨?_, ?_, ?_, ?_, ?_⟩
  · decide!
  · decide!
  · decide!
  · decide!
  · decide!

/-- C13 (amended). For every string given to `-s` / `--steckerboard` that the
round of `ProcessCmdLineArguments` does not reject, in which the second
character of each pair is a letter `'A'..'Z'` and no character of one pair
occurs in another pair, the round returns a machine whose plugboard is a
bijection over `0..25` and its own inverse, with `steckerboard_reciprocal`
equal to it.  The separators are not looked at. -/
theorem steckerboard_accepted (option string : List Nat) (enigma : EnigmaState)
    (hopt : option = cstr "-s" ∨ option = cstr "--steckerboard")
    (haccepted : ProcessCmdLineArguments.valued option string enigma ≠ Outcome.bail)
    (hsecond : ∀ p ∈ pairsOf string, IsLetter p.2)
    (hdisj : PairsDisjoint (pairsOf string)) :
    ∃ enigma', ProcessCmdLineArguments.valued option string enigma = Outcome.returned enigma' ∧
      enigma'.steckerboard.IsBijection ∧ enigma'.steckerboard.IsInvolution ∧
      enigma'.steckerboard_reciprocal = enigma'.steckerboard := by
  have hv := valued_steckerboard option string enigma hopt
    (disjoint_string_length string hsecond hdisj)
  by_cases hshape : (string.length + 1) % 3 = 0
  · by_cases hfirst : ∀ p ∈ pairsOf string, IsLetter p.1
    · obtain ⟨sb, _, _, h3, _, _, h6⟩ := stecker_round option string enigma hopt hshape
        (fun p hp => ⟨hfirst p hp, hsecond p hp⟩) hdisj
      exact ⟨_, h3, Table.IsInverseOf.bijection h6, h6, rfl⟩
    · have hb := steckerLoop_bail string.length string alphabet rfl alphabet_length hsecond
        (by
          by_contra hcon
          exact hfirst fun p hp => by_contra fun hn => hcon ⟨p, hp, hn⟩)
      rw [if_neg (not_not.mpr hshape), hb] at hv
      exact absurd hv haccepted
  · rw [if_pos hshape] at hv
    exact absurd hv haccepted

set_option maxRecDepth 100000 in
/-- Witness for `steckerboard_accepted`: the string `"AB,CD"` on the default
machine. -/
theorem steckerboard_accepted_witness :
    ProcessCmdLineArguments.valued (cstr "-s") (cstr "AB,CD") defaultMachine ≠ Outcome.bail ∧
    (∀ p ∈ pairsOf (cstr "AB,CD"), IsLetter p.2) ∧
    PairsDisjoint (pairsOf (cstr "AB,CD")) ∧
    ∃ enigma', ProcessCmdLineArguments.valued (cstr "-s") (cstr "AB,CD") defaultMachine =
        Outcome.returned enigma' ∧
      enigma'.steckerboard.IsBijection ∧ enigma'.steckerboard.IsInvolution ∧
      enigma'.steckerboard_reciprocal = enigma'.steckerboard :=
  ⟨by decide, by decide, by decide,
    steckerboard_accepted (cstr "-s") (cstr "AB,CD") defaultMachine (Or.inl rfl) (by decide)
      (by decide) (by decide)⟩

/-- C14. Ring-setting and start-position validation: for every argument
string (shorter than 2^32 characters, so that its `strlen` fits the
`unsigned int` that receives it) given to `-rs` / `--ringstellung`
(respectively `-sp` / `--startposition`), the round of
`ProcessCmdLineArguments` returns if the string has exactly three characters
and each is in `'A'..'Z'`, and then the wheel `walze[2 - j]` is the old one
after `WheelSetRingstellung` (respectively `WheelSetPosition`) with character
`j`, its ringstellung (position) being that character minus `'A'`; otherwise
the round bails, and so does `main` on any command line holding the option,
for every input: no character is enciphered. -/
theorem ring_position_validation (string : List Nat) (enigma : EnigmaState)
    (hlen : string.length < 2 ^ 32) :
    (∀ option, option = cstr "-rs" ∨ option = cstr "--ringstellung" →
      ((string.length = 3 ∧ ∀ c ∈ string, IsLetter c) →
        ∃ enigma', ProcessCmdLineArguments.valued option string enigma =
            Outcome.returned enigma' ∧
          ∀ j : Fin WALZE_COUNT,
            enigma'.walze.get (Fin.rev j) =
              WheelSetRingstellung (enigma.walze.get (Fin.rev j)) (string.getD j.val 0) ∧
            (enigma'.walze.get (Fin.rev j)).ringstellung = string.getD j.val 0 - 65) ∧
      (¬(string.length = 3 ∧ ∀ c ∈ string, IsLetter c) →
        ProcessCmdLineArguments.valued option string enigma = Outcome.bail ∧
        ∀ prog rest input, main (prog :: option :: string :: rest) input = Outcome.bail)) ∧
    (∀ option, option = cstr "-sp" ∨ option = cstr "--startposition" →
      ((string.length = 3 ∧ ∀ c ∈ string, IsLetter c) →
        ∃ enigma', ProcessCmdLineArguments.valued option string enigma =
            Outcome.returned enigma' ∧
          ∀ j : Fin WALZE_COUNT,
            enigma'.walze.get (Fin.rev j) =
              WheelSetPosition (enigma.walze.get (Fin.rev j)) (string.getD j.val 0) ∧
            (enigma'.walze.get (Fin.rev j)).position = string.getD j.val 0 - 65) ∧
      (¬(string.length = 3 ∧ ∀ c ∈ string, IsLetter c) →
        ProcessCmdLineArguments.valued option string enigma = Outcome.bail ∧
        ∀ prog rest input, main (prog :: option :: string :: rest) input = Outcome.bail)) := by
  refine ⟨fun option hopt => ⟨fun hok => ?_, fun hbad => ?_⟩,
    fun option hopt => ⟨fun hok => ?_, fun hbad => ?_⟩⟩
  · obtain ⟨walze, hw, hget⟩ :=
      (checked_round ringBody WheelSetRingstellung rfl string enigma hlen).1 hok
    refine ⟨{ enigma with walze := walze }, ?_, fun j => ⟨hget j, ?_⟩⟩
    · rw [valued_ringstellung option string enigma hopt,
        if_neg (by rw [strlen_eq hlen]; exact not_not.mpr hok.1), hw]
    · show (walze.get (Fin.rev j)).ringstellung = _
      rw [hget j]
      exact toUChar_letter (getD_letter hok.1 hok.2 j)
  · exact ⟨ringstellung_rejected option string enigma hopt hlen hbad,
      fun prog rest input => main_bail prog option string rest input (not_quiet (Or.inl hopt))
        (fun e => ringstellung_rejected option string e hopt hlen hbad)⟩
  · obtain ⟨walze, hw, hget⟩ :=
      (checked_round positionBody WheelSetPosition rfl string enigma hlen).1 hok
    refine ⟨{ enigma with walze := walze }, ?_, fun j => ⟨hget j, ?_⟩⟩
    · rw [valued_startposition option string enigma hopt,
        if_neg (by rw [strlen_eq hlen]; exact not_not.mpr hok.1), hw]
    · show (walze.get (Fin.rev j)).position = _
      rw [hget j]
      exact toUChar_letter (getD_letter hok.1 hok.2 j)
  · exact ⟨startposition_rejected option string enigma hopt hlen hbad,
      fun prog rest input => main_bail prog option string rest input (not_quiet (Or.inr hopt))
        (fun e => startposition_rejected option string e hopt hlen hbad)⟩

/-- Witness for `ring_position_validation`: the string `"DOG"` on the default
machine. -/
theorem ring_position_validation_witness :
    (cstr "DOG").length < 2 ^ 32 ∧
    (∃ enigma', ProcessCmdLineArguments.valued (cstr "-rs") (cstr "DOG") defaultMachine =
        Outcome.returned enigma' ∧
      ∀ j : Fin WALZE_COUNT,
        enigma'.walze.get (Fin.rev j) =
          WheelSetRingstellung (defaultMachine.walze.get (Fin.rev j)) ((cstr "DOG").getD j.val 0) ∧
        (enigma'.walze.get (Fin.rev j)).ringstellung = (cstr "DOG").getD j.val 0 - 65) :=
  ⟨by decide,
    ((ring_position_validation (cstr "DOG") defaultMachine (by decide)).1 (cstr "-rs")
      (Or.inl rfl)).1 ⟨by decide, by decide⟩⟩

/-- C21. Rotor directions are mutually inverse: for every wheel whose
`config` is a bijection on `0..25` and whose `config_reciprocal` is what
`GenerateReciprocalArray` returns for it (over any previous content), with
position and ringstellung in `0..25`, and for every `x` in `0..25`, the
forward call of `WheelFeedCharacter` returns some `y` in `0..25` and the
reverse call on `y` returns `x`, and the reverse call returns some `y` in
`0..25` and the forward call on `y` returns `x`.  The second call gives the
same character on the wheel as the first call left it (only the debug
snapshot differs, position and ringstellung are as before) and on the wheel
as it was. -/
theorem rotor_directions_inverse (walze : WalzeState) (previous : Table) (x : Nat)
    (hb : walze.config.IsBijection)
    (hgen : GenerateReciprocalArray walze.config previous = some walze.config_reciprocal)
    (hp : walze.position < 26) (hr : walze.ringstellung < 26) (hx : x < 26) :
    (∃ w1 y w2 w3, WheelFeedCharacter walze false x = some (w1, y) ∧ y < 26 ∧
      w1.position = walze.position ∧ w1.ringstellung = walze.ringstellung ∧
      WheelFeedCharacter w1 true y = some (w2, x) ∧
      WheelFeedCharacter walze true y = some (w3, x)) ∧
    (∃ w1 y w2 w3, WheelFeedCharacter walze true x = some (w1, y) ∧ y < 26 ∧
      w1.position = walze.position ∧ w1.ringstellung = walze.ringstellung ∧
      WheelFeedCharacter w1 false y = some (w2, x) ∧
      WheelFeedCharacter walze false y = some (w3, x)) := by
  have hinv : walze.key.config_reciprocal.IsInverseOf walze.key.config :=
    GenerateReciprocalArray_undoes hb hgen
  have hkp : walze.key.position < 26 := hp
  have hkr : walze.key.ringstellung < 26 := hr
  constructor
  · obtain ⟨w1, h1, k1⟩ := WheelFeedCharacter_spec walze false x hp hr
    have p1 : w1.position = walze.position := congrArg WheelKey.position k1
    have r1 : w1.ringstellung = walze.ringstellung := congrArg WheelKey.ringstellung k1
    obtain ⟨w2, h2, -⟩ := WheelFeedCharacter_spec w1 true (walze.key.translate false x)
      (by rw [p1]; exact hp) (by rw [r1]; exact hr)
    obtain ⟨w3, h3, -⟩ := WheelFeedCharacter_spec walze true (walze.key.translate false x) hp hr
    rw [k1] at h2
    rw [WheelKey.translate_reverse_forward walze.key hinv hkp hkr hx] at h2 h3
    exact ⟨w1, _, w2, w3, h1, WheelKey.translate_lt _ _ _, p1, r1, h2, h3⟩
  · obtain ⟨w1, h1, k1⟩ := WheelFeedCharacter_spec walze true x hp hr
    have p1 : w1.position = walze.position := congrArg WheelKey.position k1
    have r1 : w1.ringstellung = walze.ringstellung := congrArg WheelKey.ringstellung k1
    obtain ⟨w2, h2, -⟩ := WheelFeedCharacter_spec w1 false (walze.key.translate true x)
      (by rw [p1]; exact hp) (by rw [r1]; exact hr)
    obtain ⟨w3, h3, -⟩ := WheelFeedCharacter_spec walze false (walze.key.translate true x) hp hr
    rw [k1] at h2
    rw [WheelKey.translate_forward_reverse walze.key hinv hkp hkr hx] at h2 h3
    exact ⟨w1, _, w2, w3, h1, WheelKey.translate_lt _ _ _, p1, r1, h2, h3⟩

/-- Witness for `rotor_directions_inverse`: rotor I as `main` sets it up, moved
to position 7 with ringstellung 3, on the character 11. -/
theorem rotor_directions_inverse_witness :
    ({ defaultMachine.walze.get 2 with position := 7, ringstellung := 3 } :
      WalzeState).config.IsBijection ∧
    GenerateReciprocalArray
        ({ defaultMachine.walze.get 2 with position := 7, ringstellung := 3 } :
          WalzeState).config Table.zero =
      some ({ defaultMachine.walze.get 2 with position := 7, ringstellung := 3 } :
        WalzeState).config_reciprocal ∧
    (∃ w1 y w2 w3,
      WheelFeedCharacter { defaultMachine.walze.get 2 with position := 7, ringstellung := 3 }
          false 11 = some (w1, y) ∧ y < 26 ∧
      w1.position = 7 ∧ w1.ringstellung = 3 ∧
      WheelFeedCharacter w1 true y = some (w2, 11) ∧
      WheelFeedCharacter { defaultMachine.walze.get 2 with position := 7, ringstellung := 3 }
          true y = some (w3, 11)) :=
  ⟨by decide, by decide,
    (rotor_directions_inverse { defaultMachine.walze.get 2 with position := 7, ringstellung := 3 }
      Table.zero 11 (by decide) (by decide) (by decide) (by decide) (by decide)).1⟩

/-! ## Known vectors -/

set_option maxRecDepth 100000 in
/-- The command line of the header configures wheels III, I, II in
`walze[0..2]` with rings `V`, `M`, `X` and positions `L`, `B`, `A`,
reflector A and the six plugboard pairs. -/
theorem header_configuration :
    (configure headerArgs).map EnigmaState.letters =
      some ([(walze_III_config, walze_III_notch, Char.toNat 'V', Char.toNat 'L'),
          (walze_I_config, walze_I_notch, Char.toNat 'M', Char.toNat 'B'),
          (walze_II_config, walze_II_notch, Char.toNat 'X', Char.toNat 'A')],
        umkehrwalze_A_config, cstr "MBCDEIGHFJKLAVOSQRPUTNZXYW") := by
  decide!

set_option maxRecDepth 100000 in
/-- The run of the program on the header example. -/
theorem header_run : runOutput headerArgs vectorCiphertext = some headerActual := by
  decide!

/-- C2: on the command line of the source header,
`-r 213 -rs XMV -sp ABL -s AM,FI,NV,PS,TU,WZ -rf A -q`, the program returns
for the 90 letters of the header's ciphertext the letters
`FEINDLIQEGNF…`, not the header's decrypt `FEINDLIQEINF…`: the two differ in
the 10th, 36th and 88th letter, the keystrokes on which the first wheel
arrives at its notch `V`. -/
theorem header_vector_actual :
    runOutput headerArgs vectorCiphertext = some headerActual ∧
      runOutput headerArgs vectorCiphertext ≠ some vectorPlaintext ∧
      (List.range 90).filter (fun i => headerActual.getD i 0 ≠ vectorPlaintext.getD i 0) =
        [9, 35, 87] := by
  refine ⟨header_run, ?_, by decide⟩
  rw [header_run]
  decide

set_option maxRecDepth 100000 in
/-- Counterexample to C6: with wheels III, II, I in `walze[0..2]`, ring
settings `X`, `M`, `V` on wheels 0, 1, 2, start positions `A`, reflector A
and the six plugboard pairs, the program returns `VTCQFS…` for the
ciphertext, not the decrypt `FEINDLIQEINF…`. -/
theorem spec_vector_counterexample :
    (configure specArgs).map EnigmaState.letters =
      some ([(walze_III_config, walze_III_notch, Char.toNat 'X', Char.toNat 'A'),
          (walze_II_config, walze_II_notch, Char.toNat 'M', Char.toNat 'A'),
          (walze_I_config, walze_I_notch, Char.toNat 'V', Char.toNat 'A')],
        umkehrwalze_A_config, cstr "MBCDEIGHFJKLAVOSQRPUTNZXYW") ∧
      runOutput specArgs vectorCiphertext = some specActual ∧
      runOutput specArgs vectorCiphertext ≠ some vectorPlaintext := by
  decide!

/-- C6 as amended: with wheels III, I, II in `walze[0..2]`, ring settings
`V`, `M`, `X` and start positions `L`, `B`, `A` on wheels 0, 1, 2, reflector
A and the six plugboard pairs, the program returns for the 90 letters of the
ciphertext 90 letters that agree with `FEINDLIQEINF…STADT` at every place
other than the 10th, the 36th and the 88th. -/
theorem header_vector_agreement :
    (configure headerArgs).map EnigmaState.letters =
      some ([(walze_III_config, walze_III_notch, Char.toNat 'V', Char.toNat 'L'),
          (walze_I_config, walze_I_notch, Char.toNat 'M', Char.toNat 'B'),
          (walze_II_config, walze_II_notch, Char.toNat 'X', Char.toNat 'A')],
        umkehrwalze_A_config, cstr "MBCDEIGHFJKLAVOSQRPUTNZXYW") ∧
      ∃ out, runOutput headerArgs vectorCiphertext = some out ∧ out.length = 90 ∧
        ∀ i < 90, i ≠ 9 → i ≠ 35 → i ≠ 87 → out.getD i 0 = vectorPlaintext.getD i 0 :=
  ⟨header_configuration, headerActual, header_run, by decide, by decide⟩

end Enigma
